import Mathlib

/-!
Verification of `querencia/Algorithms`

Shallow embedding of

* `selection.h`   : `median`, `choose_pivot`, `quick_select`, `find_baby_medians`,
  `deterministic_select`;
* `fast_sort.h`   : `sort_indices`, `bucket_sort`, `sort_mapped_indices`, `radix_sort`;
* `merge_intervals.cpp` : `sort_by_1_then_2`, `solve`;
* `unionsets.cpp` : `node`, `Graph`, `find_parent`, `add_edge`, `get_sets`.

Conventions of the embedding.

* A `std::vector<int>` is a `List Int`; a function taking a vector by non-const reference
  returns the final contents of that vector next to its result.
* `std::sort` on a range is the sorted permutation of that range (for integers the result of
  any correct sort is unique); it is written with `List.insertionSort`.
* A read `v[i]` outside `0 .. v.size()-1` ends the computation with `Fault.out_of_range`;
  `exit(EXIT_FAILURE)` after the message "index out of bounds" is
  `Fault.index_out_of_bounds`; constructing a vector with a negative element count is
  `Fault.length_error`; a failing `assert` is `Fault.assertion_failed`.
* Recursive C++ functions whose termination depends on their own result are defined with a
  recursion budget; `Fault.out_of_fuel` is reported when the budget is used up, and the
  theorems show that the budget chosen by the top-level definition is never used up.
* In `selection.h` and `merge_intervals.cpp` the element type is only compared, never used
  in arithmetic, so elements are unbounded integers; container sizes are assumed to fit
  `int`.  `std::ceil((double) n / d)` is exact for such sizes and is written
  `(n + d - 1) / d`.
* In `fast_sort.h` the element type `T` is `int`, 32 bits wide: arithmetic on elements is
  reduced with `wrap`, and the theorems assume that the elements lie in
  `INT_MIN .. INT_MAX`.  Memory is assumed to suffice for the bucket vectors.
* In `unionsets.cpp` node numbers and sizes are natural numbers (the `int` fields never hold
  a negative value), and the array `tree` is a `List node` of length `V`.
-/

/-- Ways in which a run can end without returning. -/
inductive Fault where
  | index_out_of_bounds
  | out_of_range
  | out_of_fuel
  | length_error
  | assertion_failed
  deriving DecidableEq

/-- Result of running a piece of the program. -/
inductive Outcome (α : Type) where
  | value : α → Outcome α
  | fault : Fault → Outcome α
  deriving DecidableEq

namespace Selection

/-- The oracle of the specification: the sequence sorted in non-decreasing order. -/
def sorted (S : List Int) : List Int := S.insertionSort (· ≤ ·)

/-- `selection.h:25` `median(a, b, c)`. -/
def median (a b c : Int) : Int := max (min a b) (min (max a b) c)

/-- Read `seq[i]` for an `int` index `i`. -/
def read (seq : List Int) (i : Int) : Outcome Int :=
  if i < 0 then .fault .out_of_range
  else
    match seq[i.toNat]? with
    | some x => .value x
    | none => .fault .out_of_range

/-- `selection.h:38` `choose_pivot`.  The source computes `pivot` and falls off the end of the
function without a `return`; the embedding yields the computed `pivot`. -/
def choose_pivot (seq : List Int) : Outcome Int :=
  let low : Int := 0
  let high : Int := (seq.length : Int) - 1
  let step : Int := (high - low + 1) / 9
  match read seq low, read seq (low + step), read seq (low + 2 * step),
        read seq (low + 3 * step), read seq (low + 4 * step), read seq (low + 5 * step),
        read seq (low + 6 * step), read seq (low + 7 * step), read seq high with
  | .value a0, .value a1, .value a2, .value a3, .value a4, .value a5,
    .value a6, .value a7, .value a8 =>
      let median1 := median a0 a1 a2
      let median2 := median a3 a4 a5
      let median3 := median a6 a7 a8
      .value (median median1 median2 median3)
  | _, _, _, _, _, _, _, _, _ => .fault .out_of_range

/-- `selection.h:52` `quick_select`, with a recursion budget. -/
def quick_select_aux : Nat → List Int → Int → Outcome Int
  | 0, _, _ => .fault .out_of_fuel
  | fuel + 1, sequence, k =>
    if k < 0 ∨ k > (sequence.length : Int) then .fault .index_out_of_bounds
    else if sequence.length = 1 then read sequence 0
    else
      match choose_pivot sequence with
      | .fault f => .fault f
      | .value pivot =>
        let smaller := sequence.filter (fun x => decide (x < pivot))
        let equal := sequence.filter (fun x => !decide (x < pivot) && decide (x = pivot))
        let greater := sequence.filter (fun x => !decide (x < pivot) && !decide (x = pivot))
        let s : Int := smaller.length
        let e : Int := equal.length
        if k ≤ s then quick_select_aux fuel smaller k
        else if k ≤ s + e then .value pivot
        else quick_select_aux fuel greater (k - s - e)

/-- `selection.h:52` `quick_select`. -/
def quick_select (sequence : List Int) (k : Int) : Outcome Int :=
  quick_select_aux (sequence.length + 1) sequence k

/-- `std::sort(seq.begin() + first, seq.begin() + last)`. -/
def sort_range (seq : List Int) (first last : Nat) : List Int :=
  seq.take first ++ sorted ((seq.drop first).take (last - first)) ++ seq.drop last

/-- `selection.h:96-99`: `count` iterations of the loop over the full blocks, starting at
block `i`.  Returns the sequence and the medians after the loop. -/
def full_blocks : Nat → Nat → List Int → List Int → Outcome (List Int × List Int)
  | 0, _, seq, medians => .value (seq, medians)
  | count + 1, i, seq, medians =>
    if seq.length < (i + 1) * 5 then .fault .out_of_range
    else
      let seq1 := sort_range seq (i * 5) ((i + 1) * 5)
      match seq1[i * 5 + 2]? with
      | none => .fault .out_of_range
      | some x => full_blocks count (i + 1) seq1 (medians ++ [x])

/-- `selection.h:100-106`: the last block, which starts at index `i * 5`. -/
def last_block (i : Nat) (seq medians : List Int) : Outcome (List Int × List Int) :=
  let seq1 := sort_range seq (i * 5) seq.length
  let mid := if seq.length % 5 ≠ 0 then i * 5 + (seq.length % 5) / 2 else i * 5 + 2
  match seq1[mid]? with
  | none => .fault .out_of_range
  | some x => .value (seq1, medians ++ [x])

/-- `selection.h:91` `find_baby_medians(seq, medians)`: returns the final contents of `seq`
and of `medians`. -/
def find_baby_medians (seq medians : List Int) : Outcome (List Int × List Int) :=
  let groups : Int := ((seq.length + 4) / 5 : Nat)
  let count : Nat := (groups - 1).toNat
  match full_blocks count 0 seq medians with
  | .fault f => .fault f
  | .value (seq1, medians1) => last_block count seq1 medians1

/-- `selection.h:110` `deterministic_select`, with a recursion budget.  Returns the selected
element and the final contents of the caller's `sequence`. -/
def deterministic_select_aux : Nat → List Int → Int → Outcome (Int × List Int)
  | 0, _, _ => .fault .out_of_fuel
  | fuel + 1, sequence, k =>
    if k < 0 ∨ k > (sequence.length : Int) then .fault .index_out_of_bounds
    else if sequence.length = 1 then
      match read sequence 0 with
      | .value x => .value (x, sequence)
      | .fault f => .fault f
    else
      match find_baby_medians sequence [] with
      | .fault f => .fault f
      | .value (sequence1, baby_medians) =>
        match deterministic_select_aux fuel baby_medians (((baby_medians.length + 1) / 2 : Nat) : Int) with
        | .fault f => .fault f
        | .value (pivot, _) =>
          let smaller := sequence1.filter (fun x => decide (x < pivot))
          let equal := sequence1.filter (fun x => !decide (x < pivot) && decide (x = pivot))
          let greater := sequence1.filter (fun x => !decide (x < pivot) && !decide (x = pivot))
          let s : Int := smaller.length
          let e : Int := equal.length
          if k ≤ s then
            match deterministic_select_aux fuel smaller k with
            | .value (r, _) => .value (r, sequence1)
            | .fault f => .fault f
          else if k ≤ s + e then .value (pivot, sequence1)
          else
            match deterministic_select_aux fuel greater (k - s - e) with
            | .value (r, _) => .value (r, sequence1)
            | .fault f => .fault f

/-- `selection.h:110` `deterministic_select`: the selected element and the final contents of
the caller's `sequence`. -/
def deterministic_select (sequence : List Int) (k : Int) : Outcome (Int × List Int) :=
  deterministic_select_aux (sequence.length + 1) sequence k

/-- The pivot computed at `selection.h:126-130` for a sequence: the block-sorted sequence,
the block medians, and the value selected among them. -/
def pivot_of (sequence : List Int) : Outcome (Int × List Int × List Int) :=
  match find_baby_medians sequence [] with
  | .fault f => .fault f
  | .value (sequence1, baby_medians) =>
    match deterministic_select baby_medians (((baby_medians.length + 1) / 2 : Nat) : Int) with
    | .fault f => .fault f
    | .value (pivot, _) => .value (pivot, sequence1, baby_medians)


/-- Number of elements strictly below `x`. -/
def count_lt (x : Int) (S : List Int) : Nat := S.countP (fun y => decide (y < x))

/-- Number of elements at most `x`. -/
def count_le (x : Int) (S : List Int) : Nat := S.countP (fun y => decide (y ≤ x))

/-- Number of elements at least `x`. -/
def count_ge (x : Int) (S : List Int) : Nat := S.countP (fun y => decide (x ≤ y))

/-- Number of elements strictly above `x`. -/
def count_gt (x : Int) (S : List Int) : Nat := S.countP (fun y => decide (x < y))

/-- The sequence with its first `c` blocks of five and its remaining last block each sorted. -/
def block_sort : Nat → List Int → List Int
  | 0, rest => sorted rest
  | c + 1, rest => sorted (rest.take 5) ++ block_sort c (rest.drop 5)

/-- The element of sorted index 2 of each of the first `c` blocks of five, then the element of
sorted index `r / 2` of the remaining last block of `r` elements. -/
def block_medians : Nat → List Int → List Int
  | 0, rest => ((sorted rest)[rest.length / 2]?).toList
  | c + 1, rest => ((sorted (rest.take 5))[2]?).toList ++ block_medians c (rest.drop 5)

/-- Contents of the caller's sequence after `deterministic_select` has returned a value: a
single element is left alone, otherwise every block of five has been sorted. -/
def after_call (S : List Int) : List Int :=
  if S.length = 1 then S else block_sort ((S.length - 1) / 5) S

end Selection

namespace FastSort

/-- `std::numeric_limits<int>::max()`. -/
def INT_MAX : Int := 2147483647

/-- `std::numeric_limits<int>::min()`. -/
def INT_MIN : Int := -2147483648

/-- Value of a 32-bit `int` computation whose exact result is `x` (two's complement). -/
def wrap (x : Int) : Int := (x + 2147483648) % 4294967296 - 2147483648

/-- `fast_sort.h:26-29`: the loop computing the minimum `m` and the maximum `M`. -/
def min_max : List Int → Int × Int → Int × Int
  | [], mM => mM
  | x :: rest, (m, M) => min_max rest (min x m, max x M)

/-- `fast_sort.h:34-35` and `fast_sort.h:99-100`: for every `i` of `order`, in order,
`indices[key(i) - m].push_back(i)`.  `key i` is the element read for `i` (`none` when the read
is outside its vector). -/
def push_indices (key : Nat → Option Int) (m : Int) :
    List Nat → List (List Nat) → Outcome (List (List Nat))
  | [], indices => .value indices
  | i :: order, indices =>
    match key i with
    | none => .fault .out_of_range
    | some x =>
      let b := wrap (x - m)
      if b < 0 then .fault .out_of_range
      else
        match indices[b.toNat]? with
        | none => .fault .out_of_range
        | some bucket => push_indices key m order (indices.set b.toNat (bucket ++ [i]))

/-- `fast_sort.h:14` `sort_indices(sequence, sorted_indices)`: returns the final contents of
`sorted_indices`. -/
def sort_indices (sequence : List Int) : Outcome (List Nat) :=
  let mM := min_max sequence (INT_MAX, INT_MIN)
  let m := mM.1
  let M := mM.2
  let len := sequence.length
  let N := wrap (wrap (M - m) + 1)
  if N < 0 then .fault .length_error
  else
    match push_indices (fun i => sequence[i]?) m (List.range len)
        (List.replicate N.toNat []) with
    | .fault f => .fault f
    | .value indices => .value (indices.take N.toNat).flatten

/-- `fast_sort.h:55-56`: `temp[i] = sequence[sorted_indices[i]]` for the positions `i` of the
list, in order. -/
def gather (sequence : List Int) (sorted_indices : List Nat) : List Nat → Outcome (List Int)
  | [] => .value []
  | i :: rest =>
    match sorted_indices[i]? with
    | none => .fault .out_of_range
    | some j =>
      match sequence[j]? with
      | none => .fault .out_of_range
      | some x =>
        match gather sequence sorted_indices rest with
        | .fault f => .fault f
        | .value temp => .value (x :: temp)

/-- `fast_sort.h:45` `bucket_sort(sequence)`: returns the final contents of `sequence`. -/
def bucket_sort (sequence : List Int) : Outcome (List Int) :=
  let len := sequence.length
  match sort_indices sequence with
  | .fault f => .fault f
  | .value sorted_indices => gather sequence sorted_indices (List.range len)

/-- `fast_sort.h:89-94`: the loop over the rows computing the minimum and the maximum of the
column, with its assertion that no row is too short. -/
def column_min_max (column : Nat) : List (List Int) → Int × Int → Outcome (Int × Int)
  | [], mM => .value mM
  | row :: rest, (m, M) =>
    match row[column]? with
    | none => .fault .assertion_failed
    | some x => column_min_max column rest (min x m, max x M)

/-- The element `sequence[i][column]`. -/
def entry (sequence : List (List Int)) (column : Nat) (i : Nat) : Option Int :=
  match sequence[i]? with
  | none => none
  | some row => row[column]?

/-- `fast_sort.h:74` `sort_mapped_indices(sequence, index_map, column)`: returns the final
contents of `index_map`. -/
def sort_mapped_indices (sequence : List (List Int)) (index_map : List Nat) (column : Nat) :
    Outcome (List Nat) :=
  let len := sequence.length
  match column_min_max column sequence (INT_MAX, INT_MIN) with
  | .fault f => .fault f
  | .value (m, M) =>
    let N := wrap (wrap (M - m) + 1)
    if N < 0 then .fault .length_error
    else
      match push_indices (entry sequence column) m index_map (List.replicate N.toNat []) with
      | .fault f => .fault f
      | .value indices =>
        let index_map1 := (indices.take N.toNat).flatten
        if index_map1.length = len then .value index_map1 else .fault .assertion_failed

/-- `fast_sort.h:121-122`: the passes for the columns `c - 1, c - 2, ..., 0`. -/
def radix_passes (sequence : List (List Int)) : Nat → List Nat → Outcome (List Nat)
  | 0, index_map => .value index_map
  | i + 1, index_map =>
    match sort_mapped_indices sequence index_map i with
    | .fault f => .fault f
    | .value index_map1 => radix_passes sequence i index_map1

/-- `fast_sort.h:125-126`: `result.push_back(sequence[i])` for every `i` of `index_map`. -/
def gather_rows (sequence : List (List Int)) : List Nat → Outcome (List (List Int))
  | [] => .value []
  | i :: rest =>
    match sequence[i]? with
    | none => .fault .out_of_range
    | some row =>
      match gather_rows sequence rest with
      | .fault f => .fault f
      | .value result => .value (row :: result)

/-- `fast_sort.h:111` `radix_sort(sequence)`: returns the final contents of `sequence`. -/
def radix_sort (sequence : List (List Int)) : Outcome (List (List Int)) :=
  let rows := sequence.length
  match sequence[0]? with
  | none => .fault .out_of_range
  | some row0 =>
    let row_length := row0.length
    let index_map := List.range rows
    match radix_passes sequence row_length index_map with
    | .fault f => .fault f
    | .value index_map1 => gather_rows sequence index_map1

/-- The list `order` rearranged by a stable bucket sort with bucket numbers `kf i < N`: for
each bucket in increasing order, the members of `order` falling into it, in their order. -/
def bucketed (kf : Nat → Nat) (N : Nat) (order : List Nat) : List Nat :=
  (List.range N).flatMap (fun b => order.filter (fun i => decide (kf i = b)))

/-- The row of index `i` (empty when there is no such row). -/
def row_at (sequence : List (List Int)) (i : Nat) : List Int := sequence.getD i []

/-- Order in which a stable sort by the columns `c, c + 1, ...` lists two row indices: the
rest of row `i` from column `c` on is lexicographically smaller than that of row `j`, or the
two are equal and `i < j`. -/
def stable_before (sequence : List (List Int)) (c : Nat) (i j : Nat) : Prop :=
  List.Lex (· < ·) ((row_at sequence i).drop c) ((row_at sequence j).drop c) ∨
    ((row_at sequence i).drop c = (row_at sequence j).drop c ∧ i < j)

end FastSort

namespace MergeIntervals

/-- `merge_intervals.cpp:14` `sort_by_1_then_2(p1, p2)` on `pair<int, bool>`; on `bool` the
comparison `<` holds for `false < true` only. -/
def sort_by_1_then_2 (p1 p2 : Int × Bool) : Bool :=
  if p1.1 ≠ p2.1 then decide (p1.1 < p2.1) else (!p1.2 && p2.2)

/-- `merge_intervals.cpp:21-24`: two extremas per interval, flagged `false` for a start and
`true` for an end. -/
def extremas_of (v : List (Int × Int)) : List (Int × Bool) :=
  v.flatMap (fun p => [(p.1, false), (p.2, true)])

/-- Order of two elements after `std::sort` with `sort_by_1_then_2`: the second is not
strictly before the first. -/
def not_after (a b : Int × Bool) : Prop := sort_by_1_then_2 b a = false

instance : DecidableRel not_after := fun a b =>
  inferInstanceAs (Decidable (sort_by_1_then_2 b a = false))

/-- `merge_intervals.cpp:27-34`: the sweep over the sorted extremas, from the current values
of `counter`, `start` and `result`. -/
def sweep : List (Int × Bool) → Int → Int → List (Int × Int) → List (Int × Int)
  | [], _, _, result => result
  | p :: rest, counter, start, result =>
    if p.2 = false then
      sweep rest (counter + 1) (if counter = 0 then p.1 else start) result
    else
      sweep rest (counter - 1) start
        (if counter - 1 = 0 then result ++ [(start, p.1)] else result)

/-- `merge_intervals.cpp:19` `solve(v, result)`: returns the final contents of `result`.
`start0` is the indeterminate initial value of the uninitialised local `start`. -/
def solve (start0 : Int) (v result : List (Int × Int)) : List (Int × Int) :=
  let extremas := extremas_of v
  let sorted_extremas := extremas.insertionSort not_after
  sweep sorted_extremas 0 start0 result

/-- Number of starts at or below `x`. -/
def starts_le (x : Int) (E : List (Int × Bool)) : Nat :=
  E.countP (fun e => !e.2 && decide (e.1 ≤ x))

/-- Number of ends at or below `x`. -/
def ends_le (x : Int) (E : List (Int × Bool)) : Nat :=
  E.countP (fun e => e.2 && decide (e.1 ≤ x))

/-- Number of ends strictly below `x`. -/
def ends_lt (x : Int) (E : List (Int × Bool)) : Nat :=
  E.countP (fun e => e.2 && decide (e.1 < x))

/-- Number of starts. -/
def starts (E : List (Int × Bool)) : Nat := E.countP (fun e => !e.2)

/-- Number of ends. -/
def ends (E : List (Int × Bool)) : Nat := E.countP (fun e => e.2)

/-- The sweep started with `counter = c` never meets an end with `counter < 1` and finishes
with `counter = 0`. -/
def balanced : Int → List (Int × Bool) → Prop
  | c, [] => c = 0
  | c, e :: rest => if e.2 = false then balanced (c + 1) rest else 1 ≤ c ∧ balanced (c - 1) rest

/-- The number `x` lies in one of the closed intervals of the list. -/
def covered (x : Int) (l : List (Int × Int)) : Prop := ∃ p ∈ l, p.1 ≤ x ∧ x ≤ p.2

end MergeIntervals

namespace UnionSets

/-- `unionsets.cpp:27` `struct node`; the three `int` fields only ever hold node numbers and
set sizes, which are not negative. -/
structure node where
  parent : Nat
  val : Nat
  sz : Nat
  deriving DecidableEq

/-- `unionsets.cpp:47` `class Graph`: the number of nodes and the array `tree`. -/
structure Graph where
  V : Nat
  tree : List node
  deriving DecidableEq

/-- `unionsets.cpp:59` constructor `Graph::Graph(int v)`: every node is its own parent, holds
its own number and has size 1. -/
def Graph.init (v : Nat) : Graph :=
  { V := v, tree := (List.range v).map (fun i => { parent := i, val := i, sz := 1 }) }

/-- `unionsets.cpp:88` `Graph::find_parent`, on the array `tree`, with a recursion budget.
Returns the value returned by the call and the final contents of `tree`. -/
def find_parent_aux : Nat → List node → Nat → Outcome (Nat × List node)
  | 0, _, _ => .fault .out_of_fuel
  | fuel + 1, tree, u =>
    match tree[u]? with
    | none => .fault .out_of_range
    | some nu =>
      if nu.parent ≠ u then
        match find_parent_aux fuel tree nu.parent with
        | .fault f => .fault f
        | .value (r, tree1) =>
          match tree1[u]? with
          | none => .fault .out_of_range
          | some nu1 => .value (r, tree1.set u { nu1 with parent := r })
      else .value (nu.parent, tree)

/-- `unionsets.cpp:88` `Graph::find_parent(u)`: the returned node and the graph after the
call. -/
def Graph.find_parent (g : Graph) (u : Nat) : Outcome (Nat × Graph) :=
  match find_parent_aux (g.tree.length + 1) g.tree u with
  | .fault f => .fault f
  | .value (r, tree1) => .value (r, { g with tree := tree1 })

/-- `unionsets.cpp:106` `Graph::add_edge(u, v)`: the graph after the call. -/
def Graph.add_edge (g : Graph) (u v : Nat) : Outcome Graph :=
  match g.find_parent u with
  | .fault f => .fault f
  | .value (p1, g1) =>
    match g1.find_parent v with
    | .fault f => .fault f
    | .value (p2, g2) =>
      if p1 = p2 then .value g2
      else
        match g2.tree[p1]?, g2.tree[p2]? with
        | some n1, some n2 =>
          if n1.sz > n2.sz then
            let tree1 := g2.tree.set p2 { n2 with parent := n1.val }
            .value { g2 with tree := tree1.set p1 { n1 with sz := n1.sz + n2.sz } }
          else
            let tree1 := g2.tree.set p1 { n1 with parent := n2.val }
            .value { g2 with tree := tree1.set p2 { n2 with sz := n2.sz + n1.sz } }
        | _, _ => .fault .out_of_range

/-- `unionsets.cpp:142-147`: the first loop of `get_sets`, over the nodes of the list, from
the current `setNumber` and `setsBuff`. -/
def get_sets_group (tree : List node) :
    List Nat → Nat × List (List Nat) → Outcome (Nat × List (List Nat))
  | [], st => .value st
  | i :: rest, (setNumber, setsBuff) =>
    match tree[i]? with
    | none => .fault .out_of_range
    | some ni =>
      match setsBuff[ni.parent]? with
      | none => .fault .out_of_range
      | some s =>
        get_sets_group tree rest
          (if s.length = 0 then setNumber + 1 else setNumber, setsBuff.set ni.parent (s ++ [i]))

/-- `unionsets.cpp:152-157`: the second loop of `get_sets`, from the current position counter
`setNumber` and `sets`. -/
def get_sets_copy (setsBuff : List (List Nat)) :
    List Nat → Nat × List (List Nat) → Outcome (List (List Nat))
  | [], (_, sets) => .value sets
  | i :: rest, (setNumber, sets) =>
    match setsBuff[i]? with
    | none => .fault .out_of_range
    | some s =>
      if s.length ≠ 0 then
        if setNumber < sets.length then
          get_sets_copy setsBuff rest (setNumber + 1, sets.set setNumber s)
        else .fault .out_of_range
      else get_sets_copy setsBuff rest (setNumber, sets)

/-- `unionsets.cpp:136` `Graph::get_sets()`. -/
def Graph.get_sets (g : Graph) : Outcome (List (List Nat)) :=
  match get_sets_group g.tree (List.range g.V) (0, List.replicate g.V []) with
  | .fault f => .fault f
  | .value (setNumber, setsBuff) =>
    get_sets_copy setsBuff (List.range g.V) (0, List.replicate setNumber [])

/-- A call of one of the two state-changing member functions. -/
inductive Call where
  | add_edge (u v : Nat)
  | find_parent (u : Nat)
  deriving DecidableEq

/-- The arguments of the call are node numbers of a graph of `V` nodes. -/
def Call.in_range (V : Nat) : Call → Prop
  | .add_edge u v => u < V ∧ v < V
  | .find_parent u => u < V

instance (V : Nat) (c : Call) : Decidable (c.in_range V) := by
  cases c <;> unfold Call.in_range <;> infer_instance

/-- The graph after one call. -/
def Graph.call (g : Graph) : Call → Outcome Graph
  | .add_edge u v => g.add_edge u v
  | .find_parent u =>
    match g.find_parent u with
    | .fault f => .fault f
    | .value (_, g1) => .value g1

/-- The graph after a sequence of calls. -/
def Graph.run (g : Graph) : List Call → Outcome Graph
  | [] => .value g
  | c :: rest =>
    match g.call c with
    | .fault f => .fault f
    | .value g1 => g1.run rest

/-- The result of `get_sets()` called after a sequence of calls on a fresh graph of `V`
nodes. -/
def get_sets_after (V : Nat) (calls : List Call) : Outcome (List (List Nat)) :=
  match (Graph.init V).run calls with
  | .fault f => .fault f
  | .value g => g.get_sets

/-- The edges added by a sequence of calls. -/
def edges_of : List Call → List (Nat × Nat)
  | [] => []
  | .add_edge u v :: rest => (u, v) :: edges_of rest
  | .find_parent _ :: rest => edges_of rest

/-- Two nodes are joined by a path of edges of the list (in either direction, possibly of
length zero). -/
def joined (edges : List (Nat × Nat)) (a b : Nat) : Prop :=
  Relation.EqvGen (fun x y => (x, y) ∈ edges) a b

/-- The parent of node `i` (`i` itself outside the array). -/
def par (tree : List node) (i : Nat) : Nat :=
  match tree[i]? with
  | some n => n.parent
  | none => i

/-- The field `sz` of node `i`. -/
def size_at (tree : List node) (i : Nat) : Nat :=
  match tree[i]? with
  | some n => n.sz
  | none => 0

/-- The field `val` of node `i`. -/
def val_at (tree : List node) (i : Nat) : Nat :=
  match tree[i]? with
  | some n => n.val
  | none => i

/-- Following the parents from `i` for at most `fuel` steps. -/
def root_aux : Nat → List node → Nat → Nat
  | 0, _, i => i
  | fuel + 1, tree, i => if par tree i = i then i else root_aux fuel tree (par tree i)

/-- The representative of node `i`: the node reached by following the parents. -/
def root_of (tree : List node) (i : Nat) : Nat := root_aux tree.length tree i

/-- Following the parents from `i` reaches the self-parented node `r` after `d` steps. -/
inductive Reaches (tree : List node) : Nat → Nat → Nat → Prop
  | root (i : Nat) : par tree i = i → Reaches tree i i 0
  | step (i r d : Nat) : par tree i ≠ i → Reaches tree (par tree i) r d →
      Reaches tree i r (d + 1)

/-- The second array has the same nodes as the first with the same `val` and `sz`, every
parent inside the array, and every node reaches the same root in at most as many steps. -/
def Compressed (tree tree1 : List node) : Prop :=
  tree1.length = tree.length ∧
  (∀ i, val_at tree1 i = val_at tree i) ∧
  (∀ i, size_at tree1 i = size_at tree i) ∧
  (∀ i, i < tree.length → par tree1 i < tree.length) ∧
  (∀ i r d, Reaches tree i r d → ∃ d1, d1 ≤ d ∧ Reaches tree1 i r d1)

/-- Invariant of the array `tree` of a graph of `V` nodes after the edges `edges` were added,
with `R i` the root of node `i`. -/
def Inv (tree : List node) (V : Nat) (edges : List (Nat × Nat)) (R : Nat → Nat) : Prop :=
  tree.length = V ∧
  (∀ i, i < V → val_at tree i = i) ∧
  (∀ i, i < V → par tree i < V) ∧
  (∀ i, ∃ d, Reaches tree i (R i) d ∧ (i < V → R i < V ∧ d + 1 ≤ size_at tree (R i))) ∧
  (∀ r, r < V → par tree r = r →
    size_at tree r = ((List.range V).filter (fun i => decide (R i = r))).length) ∧
  (∀ i j, R i = R j ↔ joined edges i j) ∧
  (∀ e, e ∈ edges → e.1 < V ∧ e.2 < V)

end UnionSets

namespace Selection

/-! ## Sorted lists and ranks -/

theorem sorted_perm (S : List Int) : (sorted S).Perm S :=
  List.perm_insertionSort _ S

theorem sorted_sorted (S : List Int) : (sorted S).Sorted (· ≤ ·) :=
  List.sorted_insertionSort _ S

theorem sorted_length (S : List Int) : (sorted S).length = S.length :=
  (sorted_perm S).length_eq

theorem mem_sorted {S : List Int} {x : Int} : x ∈ sorted S ↔ x ∈ S :=
  (sorted_perm S).mem_iff

theorem count_lt_perm {S T : List Int} (h : S.Perm T) (x : Int) : count_lt x S = count_lt x T :=
  h.countP_eq _

theorem count_le_perm {S T : List Int} (h : S.Perm T) (x : Int) : count_le x S = count_le x T :=
  h.countP_eq _

theorem count_ge_perm {S T : List Int} (h : S.Perm T) (x : Int) : count_ge x S = count_ge x T :=
  h.countP_eq _

theorem count_le_zero_of_forall_gt {x : Int} {L : List Int} (h : ∀ b ∈ L, x < b) :
    count_le x L = 0 := by
  unfold count_le
  rw [List.countP_eq_zero]
  intro b hb
  have := h b hb
  simp only [decide_eq_true_eq]; omega

theorem count_lt_zero_of_forall_ge {x : Int} {L : List Int} (h : ∀ b ∈ L, x ≤ b) :
    count_lt x L = 0 := by
  unfold count_lt
  rw [List.countP_eq_zero]
  intro b hb
  have := h b hb
  simp only [decide_eq_true_eq]; omega

/-- In a sorted list, the element whose index lies between the number of smaller elements and
the number of elements not greater is determined. -/
theorem rank_unique : ∀ (L : List Int), L.Sorted (· ≤ ·) → ∀ (x : Int) (j : Nat),
    count_lt x L ≤ j → j < count_le x L → L[j]? = some x
  | [], _, x, j, _, h2 => by simp [count_le] at h2
  | a :: L, hs, x, j, h1, h2 => by
    have hall : ∀ b ∈ L, a ≤ b := List.rel_of_sorted_cons hs
    have hs' : L.Sorted (· ≤ ·) := hs.of_cons
    by_cases hax : x < a
    · have hz : count_le x (a :: L) = 0 := by
        apply count_le_zero_of_forall_gt
        intro b hb
        rcases List.mem_cons.1 hb with rfl | hb
        · exact hax
        · have := hall b hb; omega
      omega
    · have hax' : a ≤ x := by omega
      have hle : count_le x (a :: L) = count_le x L + 1 := by
        simp [count_le, List.countP_cons, hax']
      cases j with
      | zero =>
        have hlt : ¬ a < x := by
          intro h
          have : count_lt x (a :: L) = count_lt x L + 1 := by
            simp [count_lt, List.countP_cons, h]
          omega
        have : a = x := by omega
        simp [this]
      | succ j =>
        have h2' : j < count_le x L := by omega
        have h1' : count_lt x L ≤ j := by
          by_cases h : a < x
          · have : count_lt x (a :: L) = count_lt x L + 1 := by
              simp [count_lt, List.countP_cons, h]
            omega
          · have hxa : x = a := by omega
            have : count_lt x L = 0 := by
              apply count_lt_zero_of_forall_ge
              intro b hb; have := hall b hb; omega
            omega
        simpa using rank_unique L hs' x j h1' h2'

/-- In a sorted list at least `j + 1` elements are at most the element of index `j`. -/
theorem succ_le_count_le_of_sorted : ∀ (L : List Int), L.Sorted (· ≤ ·) → ∀ (j : Nat) (x : Int),
    L[j]? = some x → j + 1 ≤ count_le x L
  | [], _, j, x, h => by simp at h
  | a :: L, hs, 0, x, h => by
    simp at h
    subst h
    simp [count_le, List.countP_cons]
  | a :: L, hs, j + 1, x, h => by
    have hall : ∀ b ∈ L, a ≤ b := List.rel_of_sorted_cons hs
    have hs' : L.Sorted (· ≤ ·) := hs.of_cons
    simp at h
    have ih := succ_le_count_le_of_sorted L hs' j x h
    have hx : x ∈ L := List.getElem?_mem h
    have hax : a ≤ x := hall x hx
    have : count_le x (a :: L) = count_le x L + 1 := by
      simp [count_le, List.countP_cons, hax]
    omega

/-- In a sorted list at least `length - j` elements are at least the element of index `j`. -/
theorem le_count_ge_of_sorted : ∀ (L : List Int), L.Sorted (· ≤ ·) → ∀ (j : Nat) (x : Int),
    L[j]? = some x → L.length ≤ count_ge x L + j
  | [], _, j, x, h => by simp at h
  | a :: L, hs, 0, x, h => by
    have hall : ∀ b ∈ L, a ≤ b := List.rel_of_sorted_cons hs
    simp at h
    subst h
    have : count_ge a (a :: L) = (a :: L).length := by
      unfold count_ge
      rw [List.countP_eq_length]
      intro b hb
      rcases List.mem_cons.1 hb with rfl | hb
      · simp
      · simpa using hall b hb
    omega
  | a :: L, hs, j + 1, x, h => by
    have hs' : L.Sorted (· ≤ ·) := hs.of_cons
    simp at h
    have ih := le_count_ge_of_sorted L hs' j x h
    have : count_ge x L ≤ count_ge x (a :: L) := by
      simp only [count_ge, List.countP_cons]; omega
    simp only [List.length_cons]; omega


/-! ## `find_baby_medians` -/

theorem sort_range_append (pre rest : List Int) (i w : Nat) (hpre : pre.length = i) :
    sort_range (pre ++ rest) i (i + w) = pre ++ sorted (rest.take w) ++ rest.drop w := by
  subst hpre
  unfold sort_range
  have h1 : (pre ++ rest).take pre.length = pre := by simp
  have h2 : (pre ++ rest).drop pre.length = rest := by simp
  have h3 : (pre ++ rest).drop (pre.length + w) = rest.drop w := by
    rw [← List.drop_drop, h2]
  rw [h1, h2, h3]
  simp

theorem last_block_append (i : Nat) (pre rest meds : List Int) (hpre : pre.length = i * 5)
    (h1 : 1 ≤ rest.length) (h5 : rest.length ≤ 5) :
    last_block i (pre ++ rest) meds
      = .value (pre ++ block_sort 0 rest, meds ++ block_medians 0 rest) := by
  unfold last_block
  have hlen : (pre ++ rest).length = i * 5 + rest.length := by simp [hpre]
  have hs : sort_range (pre ++ rest) (i * 5) (pre ++ rest).length = pre ++ sorted rest := by
    rw [hlen, sort_range_append pre rest (i * 5) rest.length hpre]
    simp
  have hmid : (if (pre ++ rest).length % 5 ≠ 0 then i * 5 + ((pre ++ rest).length % 5) / 2
      else i * 5 + 2) = pre.length + rest.length / 2 := by
    rw [hlen, hpre]
    split_ifs with h <;> omega
  have hget : (pre ++ sorted rest)[pre.length + rest.length / 2]?
      = (sorted rest)[rest.length / 2]? := by
    rw [List.getElem?_append_right (by omega)]
    simp
  have hlt : rest.length / 2 < (sorted rest).length := by
    rw [sorted_length]; omega
  simp only [hs, hmid, hget, block_sort, block_medians]
  rw [List.getElem?_eq_getElem hlt]
  simp

/-- The loop over the full blocks followed by the last block sorts every block and appends
one median per block. -/
theorem full_blocks_last_block : ∀ (c i : Nat) (pre rest meds : List Int),
    pre.length = i * 5 → c * 5 + 1 ≤ rest.length → rest.length ≤ c * 5 + 5 →
    (match full_blocks c i (pre ++ rest) meds with
      | .fault f => .fault f
      | .value (seq1, medians1) => last_block (i + c) seq1 medians1 :
        Outcome (List Int × List Int))
      = .value (pre ++ block_sort c rest, meds ++ block_medians c rest)
  | 0, i, pre, rest, meds, hpre, h1, h5 => by
    simp only [full_blocks, Nat.add_zero]
    exact last_block_append i pre rest meds hpre (by omega) (by omega)
  | c + 1, i, pre, rest, meds, hpre, h1, h5 => by
    have hlen : (pre ++ rest).length = i * 5 + rest.length := by simp [hpre]
    have hguard : ¬ (pre ++ rest).length < (i + 1) * 5 := by omega
    have hs : sort_range (pre ++ rest) (i * 5) ((i + 1) * 5)
        = pre ++ sorted (rest.take 5) ++ rest.drop 5 := by
      have : (i + 1) * 5 = i * 5 + 5 := by ring
      rw [this, sort_range_append pre rest (i * 5) 5 hpre]
    have hl5 : (sorted (rest.take 5)).length = 5 := by
      rw [sorted_length, List.length_take]; omega
    have hget : (pre ++ sorted (rest.take 5) ++ rest.drop 5)[i * 5 + 2]?
        = (sorted (rest.take 5))[2]? := by
      rw [List.append_assoc, List.getElem?_append_right (by omega)]
      rw [List.getElem?_append_left (by omega)]
      congr 1; omega
    obtain ⟨x, hx⟩ : ∃ x, (sorted (rest.take 5))[2]? = some x := by
      rw [List.getElem?_eq_getElem (by omega)]; exact ⟨_, rfl⟩
    have ih := full_blocks_last_block c (i + 1) (pre ++ sorted (rest.take 5)) (rest.drop 5)
      (meds ++ [x]) (by simp [hpre, hl5]; ring) (by simp; omega) (by simp; omega)
    have hic : i + (c + 1) = i + 1 + c := by omega
    simp only [full_blocks, hguard, if_false, hs, hget, hx, hic]
    rw [ih]
    simp [block_sort, block_medians, hx]

/-- Closed form of `find_baby_medians` on a non-empty sequence. -/
theorem find_baby_medians_eq (seq meds : List Int) (h : seq ≠ []) :
    find_baby_medians seq meds
      = .value (block_sort ((seq.length - 1) / 5) seq,
          meds ++ block_medians ((seq.length - 1) / 5) seq) := by
  have hpos : 1 ≤ seq.length := List.length_pos.2 h
  unfold find_baby_medians
  have hc : ((((seq.length + 4) / 5 : Nat) : Int) - 1).toNat = (seq.length - 1) / 5 := by
    omega
  simp only [hc]
  have := full_blocks_last_block ((seq.length - 1) / 5) 0 [] seq meds (by simp) (by omega)
    (by omega)
  simpa using this

theorem find_baby_medians_nil (meds : List Int) :
    find_baby_medians [] meds = .fault .out_of_range := by
  simp [find_baby_medians, full_blocks, last_block, sort_range, sorted]

theorem block_sort_perm : ∀ (c : Nat) (rest : List Int), (block_sort c rest).Perm rest
  | 0, rest => sorted_perm rest
  | c + 1, rest => by
    have h1 := sorted_perm (rest.take 5)
    have h2 := block_sort_perm c (rest.drop 5)
    have := h1.append h2
    simpa [block_sort] using this

theorem block_medians_length : ∀ (c : Nat) (rest : List Int),
    c * 5 + 1 ≤ rest.length → (block_medians c rest).length = c + 1
  | 0, rest, h => by
    have hlt : rest.length / 2 < (sorted rest).length := by
      rw [sorted_length]; omega
    simp [block_medians, List.getElem?_eq_getElem hlt]
  | c + 1, rest, h => by
    have hl5 : 2 < (sorted (rest.take 5)).length := by
      rw [sorted_length, List.length_take]; omega
    have ih := block_medians_length c (rest.drop 5) (by simp; omega)
    simp [block_medians, List.getElem?_eq_getElem hl5, ih]

theorem block_medians_subset : ∀ (c : Nat) (rest : List Int) (x : Int),
    x ∈ block_medians c rest → x ∈ rest
  | 0, rest, x, h => by
    simp only [block_medians, Option.mem_toList, Option.mem_def] at h
    exact mem_sorted.1 (List.getElem?_mem h)
  | c + 1, rest, x, h => by
    simp only [block_medians, List.mem_append, Option.mem_toList, Option.mem_def] at h
    rcases h with h | h
    · exact List.mem_of_mem_take (mem_sorted.1 (List.getElem?_mem h))
    · exact List.mem_of_mem_drop (block_medians_subset c (rest.drop 5) x h)


/-! ## Three-way split -/

theorem split_lengths (p : Int) (S : List Int) :
    (S.filter (fun x => decide (x < p))).length = count_lt p S ∧
    (S.filter (fun x => decide (x < p))).length
      + (S.filter (fun x => !decide (x < p) && decide (x = p))).length = count_le p S ∧
    (S.filter (fun x => decide (x < p))).length
      + (S.filter (fun x => !decide (x < p) && decide (x = p))).length
      + (S.filter (fun x => !decide (x < p) && !decide (x = p))).length = S.length ∧
    (S.filter (fun x => !decide (x < p) && !decide (x = p))).length = count_gt p S := by
  induction S with
  | nil => simp [count_lt, count_le, count_gt]
  | cons a S ih =>
    obtain ⟨h1, h2, h3, h4⟩ := ih
    simp only [count_lt, count_le, count_gt] at h1 h2 h4 ⊢
    simp only [List.filter_cons, List.countP_cons, List.length_cons]
    by_cases hlt : a < p
    · have hle : a ≤ p := by omega
      have hne : ¬ a = p := by omega
      have hgt : ¬ p < a := by omega
      simp [hlt, hle, hne, hgt]
      omega
    · by_cases heq : a = p
      · have hle : a ≤ p := by omega
        have hgt : ¬ p < a := by omega
        simp [hlt, hle, heq, hgt]
        subst heq
        simp at h1 h2 h3 h4 hlt hle hgt ⊢
        omega
      · have hle : ¬ a ≤ p := by omega
        have hgt : p < a := by omega
        simp [hlt, hle, heq, hgt]
        omega

theorem equal_pos_of_mem {p : Int} {S : List Int} (h : p ∈ S) :
    0 < (S.filter (fun x => !decide (x < p) && decide (x = p))).length := by
  apply List.length_pos_of_mem (a := p)
  simp [h]

theorem count_smaller {p x : Int} (hx : x < p) (S : List Int) :
    count_lt x (S.filter (fun y => decide (y < p))) = count_lt x S ∧
    count_le x (S.filter (fun y => decide (y < p))) = count_le x S := by
  induction S with
  | nil => simp [count_lt, count_le]
  | cons a S ih =>
    obtain ⟨h1, h2⟩ := ih
    simp only [count_lt, count_le] at h1 h2 ⊢
    simp only [List.filter_cons, List.countP_cons]
    by_cases hlt : a < p
    · simp [hlt, List.countP_cons, h1, h2]
    · have h3 : ¬ a < x := by omega
      have h4 : ¬ a ≤ x := by omega
      simp [hlt, h1, h2, h3, h4]

theorem count_greater {p x : Int} (hx : p < x) (S : List Int) :
    count_lt x (S.filter (fun y => !decide (y < p) && !decide (y = p))) + count_le p S
      = count_lt x S ∧
    count_le x (S.filter (fun y => !decide (y < p) && !decide (y = p))) + count_le p S
      = count_le x S := by
  induction S with
  | nil => simp [count_lt, count_le]
  | cons a S ih =>
    obtain ⟨h1, h2⟩ := ih
    simp only [count_lt, count_le] at h1 h2 ⊢
    by_cases hc : (!decide (a < p) && !decide (a = p)) = true
    · simp only [List.filter_cons, hc, if_true]
      have hpa : p < a := by
        simp only [Bool.and_eq_true, Bool.not_eq_true', decide_eq_false_iff_not] at hc
        omega
      simp only [List.countP_cons, decide_eq_true_eq]
      constructor <;> split_ifs <;> omega
    · have hc2 := Bool.eq_false_iff.2 hc
      simp only [List.filter_cons, hc2, Bool.false_eq_true, if_false]
      have hpa : a ≤ p := by
        simp only [Bool.and_eq_true, Bool.not_eq_true', decide_eq_false_iff_not, not_and,
          not_not] at hc
        by_cases h : a < p
        · omega
        · have := hc h; omega
      simp only [List.countP_cons, decide_eq_true_eq]
      constructor <;> split_ifs <;> omega


/-! ## `deterministic_select` -/

theorem after_call_perm (S : List Int) : (after_call S).Perm S := by
  unfold after_call
  split_ifs
  · exact List.Perm.refl S
  · exact block_sort_perm _ S

/-- One unfolding of `deterministic_select_aux` on a sequence of at least two elements with
`k` inside the bounds check, given the value of the recursive call for the pivot. -/
theorem det_aux_step (fuel : Nat) (S : List Int) (k : Int) (p : Int) (T : List Int)
    (hk0 : 0 ≤ k) (hkn : k ≤ S.length) (hn : 2 ≤ S.length)
    (hp : deterministic_select_aux fuel (block_medians ((S.length - 1) / 5) S)
      ((((block_medians ((S.length - 1) / 5) S).length + 1) / 2 : Nat) : Int) = .value (p, T)) :
    deterministic_select_aux (fuel + 1) S k =
      if k ≤ ((after_call S).filter (fun x => decide (x < p))).length then
        match deterministic_select_aux fuel ((after_call S).filter (fun x => decide (x < p))) k with
        | .value (r, _) => .value (r, after_call S)
        | .fault f => .fault f
      else if k ≤ (((after_call S).filter (fun x => decide (x < p))).length : Int)
          + ((after_call S).filter (fun x => !decide (x < p) && decide (x = p))).length then
        .value (p, after_call S)
      else
        match deterministic_select_aux fuel
          ((after_call S).filter (fun x => !decide (x < p) && !decide (x = p)))
          (k - ((after_call S).filter (fun x => decide (x < p))).length
            - ((after_call S).filter (fun x => !decide (x < p) && decide (x = p))).length) with
        | .value (r, _) => .value (r, after_call S)
        | .fault f => .fault f := by
  have hb : ¬ (k < 0 ∨ k > (S.length : Int)) := by omega
  have hone : ¬ S.length = 1 := by omega
  have hne : S ≠ [] := by
    intro h; subst h; simp at hn
  have hfb := find_baby_medians_eq S [] hne
  have hac : after_call S = block_sort ((S.length - 1) / 5) S := by
    simp [after_call, hone]
  rw [deterministic_select_aux]
  simp only [hb, hone, if_false, hfb, List.nil_append, hp, hac]


theorem det_aux_one (fuel : Nat) (a : Int) (k : Int) (hk0 : 0 ≤ k) (hk1 : k ≤ 1) :
    deterministic_select_aux (fuel + 1) [a] k = .value (a, [a]) := by
  have hb : ¬ (k < 0 ∨ k > (([a] : List Int).length : Int)) := by
    simp only [List.length_singleton, Nat.cast_one]; omega
  rw [deterministic_select_aux]
  simp only [hb, if_false]
  simp [read]

/-- Rank statement for `deterministic_select_aux`: with a budget of at least the length, a
rank `1 ≤ k ≤ n` yields an element of the sequence with fewer than `k` elements below it and
at least `k` elements not above it. -/
theorem det_aux_spec : ∀ (fuel : Nat) (S : List Int) (k : Int),
    S.length ≤ fuel → 1 ≤ k → k ≤ S.length →
    ∃ x, deterministic_select_aux fuel S k = .value (x, after_call S) ∧ x ∈ S ∧
      (count_lt x S : Int) < k ∧ k ≤ (count_le x S : Int)
  | 0, S, k, hf, h1, h2 => by omega
  | fuel + 1, S, k, hf, h1, h2 => by
    by_cases hone : S.length = 1
    · obtain ⟨a, rfl⟩ := List.length_eq_one.1 hone
      refine ⟨a, ?_, by simp, ?_, ?_⟩
      · rw [det_aux_one fuel a k (by omega) (by simpa using h2)]
        simp [after_call]
      · simp [count_lt]; omega
      · simp [count_le]; simpa using h2
    · have hn : 2 ≤ S.length := by omega
      have hbl := block_medians_length ((S.length - 1) / 5) S (by omega)
      obtain ⟨p, hp, hpm, -, -⟩ := det_aux_spec fuel (block_medians ((S.length - 1) / 5) S)
        ((((block_medians ((S.length - 1) / 5) S).length + 1) / 2 : Nat) : Int)
        (by omega) (by omega) (by omega)
      have hpS : p ∈ S := block_medians_subset _ S p hpm
      have hperm := after_call_perm S
      have hpS1 : p ∈ after_call S := hperm.mem_iff.2 hpS
      obtain ⟨hs, hse, hseg, -⟩ := split_lengths p (after_call S)
      have hepos := equal_pos_of_mem hpS1
      have hlen := hperm.length_eq
      rw [det_aux_step fuel S k p _ (by omega) h2 hn hp]
      by_cases hk1 : k ≤ ((after_call S).filter (fun x => decide (x < p))).length
      · obtain ⟨x, hx, hxm, hx1, hx2⟩ := det_aux_spec fuel
          ((after_call S).filter (fun x => decide (x < p))) k (by omega) h1 hk1
        have hxp : x < p := by
          have := (List.mem_filter.1 hxm).2
          simpa using this
        have hxS : x ∈ S := hperm.mem_iff.1 (List.mem_filter.1 hxm).1
        obtain ⟨c1, c2⟩ := count_smaller hxp (after_call S)
        rw [count_lt_perm hperm] at c1
        rw [count_le_perm hperm] at c2
        refine ⟨x, ?_, hxS, ?_, ?_⟩
        · simp only [hk1, if_true, hx]
        · omega
        · omega
      · by_cases hk2 : k ≤ (((after_call S).filter (fun x => decide (x < p))).length : Int)
            + ((after_call S).filter (fun x => !decide (x < p) && decide (x = p))).length
        · refine ⟨p, ?_, hpS, ?_, ?_⟩
          · simp only [hk1, hk2, if_true, if_false]
          · rw [← count_lt_perm hperm]; omega
          · rw [← count_le_perm hperm]; omega
        · obtain ⟨x, hx, hxm, hx1, hx2⟩ := det_aux_spec fuel
            ((after_call S).filter (fun x => !decide (x < p) && !decide (x = p)))
            (k - ((after_call S).filter (fun x => decide (x < p))).length
              - ((after_call S).filter (fun x => !decide (x < p) && decide (x = p))).length)
            (by omega) (by omega) (by omega)
          have hxp : p < x := by
            have := (List.mem_filter.1 hxm).2
            simp only [Bool.and_eq_true, Bool.not_eq_true', decide_eq_false_iff_not] at this
            omega
          have hxS : x ∈ S := hperm.mem_iff.1 (List.mem_filter.1 hxm).1
          obtain ⟨c1, c2⟩ := count_greater hxp (after_call S)
          rw [count_lt_perm hperm x] at c1
          rw [count_le_perm hperm x] at c2
          refine ⟨x, ?_, hxS, ?_, ?_⟩
          · simp only [hk1, hk2, if_false, hx]
          · omega
          · omega


/-- The element found by `deterministic_select_aux` is the one at index `k - 1` of the sorted
sequence, whatever the budget (as long as it is at least the length). -/
theorem det_aux_sorted (fuel : Nat) (S : List Int) (k : Int)
    (hf : S.length ≤ fuel) (h1 : 1 ≤ k) (h2 : k ≤ S.length) :
    ∃ x, (sorted S)[(k - 1).toNat]? = some x ∧
      deterministic_select_aux fuel S k = .value (x, after_call S) ∧ x ∈ S ∧
      (count_lt x S : Int) < k ∧ k ≤ (count_le x S : Int) := by
  obtain ⟨x, hx, hm, c1, c2⟩ := det_aux_spec fuel S k hf h1 h2
  refine ⟨x, ?_, hx, hm, c1, c2⟩
  apply rank_unique (sorted S) (sorted_sorted S) x
  · rw [count_lt_perm (sorted_perm S)]; omega
  · rw [count_le_perm (sorted_perm S)]; omega

/-- The budget does not matter once it is at least the length. -/
theorem det_aux_eq_top (fuel : Nat) (S : List Int) (k : Int)
    (hf : S.length ≤ fuel) (h1 : 1 ≤ k) (h2 : k ≤ S.length) :
    deterministic_select_aux fuel S k = deterministic_select S k := by
  obtain ⟨x, hx, he, -⟩ := det_aux_sorted fuel S k hf h1 h2
  obtain ⟨y, hy, he2, -⟩ := det_aux_sorted (S.length + 1) S k (by omega) h1 h2
  rw [hx] at hy
  cases hy
  rw [deterministic_select, he, he2]

theorem bounds_check_fault (S : List Int) (k : Int) (h : k < 0 ∨ k > (S.length : Int)) :
    deterministic_select S k = .fault .index_out_of_bounds ∧
    quick_select S k = .fault .index_out_of_bounds := by
  constructor
  · rw [deterministic_select, deterministic_select_aux]
    simp only [h, if_true]
  · rw [quick_select, quick_select_aux]
    simp only [h, if_true]

/-- Closed form of the pivot computation on a sequence of at least two elements. -/
theorem pivot_of_eq (S : List Int) (hn : 2 ≤ S.length) :
    ∃ p, pivot_of S = .value (p, after_call S, block_medians ((S.length - 1) / 5) S) ∧
      p ∈ block_medians ((S.length - 1) / 5) S ∧
      (∀ fuel, (block_medians ((S.length - 1) / 5) S).length ≤ fuel →
        deterministic_select_aux fuel (block_medians ((S.length - 1) / 5) S)
          ((((block_medians ((S.length - 1) / 5) S).length + 1) / 2 : Nat) : Int)
        = .value (p, after_call (block_medians ((S.length - 1) / 5) S))) ∧
      (sorted (block_medians ((S.length - 1) / 5) S))[
        ((block_medians ((S.length - 1) / 5) S).length + 1) / 2 - 1]? = some p ∧
      count_lt p (block_medians ((S.length - 1) / 5) S)
        < ((block_medians ((S.length - 1) / 5) S).length + 1) / 2 ∧
      ((block_medians ((S.length - 1) / 5) S).length + 1) / 2
        ≤ count_le p (block_medians ((S.length - 1) / 5) S) := by
  have hne : S ≠ [] := by
    intro h; subst h; simp at hn
  have hone : ¬ S.length = 1 := by omega
  have hbl := block_medians_length ((S.length - 1) / 5) S (by omega)
  have hfb := find_baby_medians_eq S [] hne
  have hac : after_call S = block_sort ((S.length - 1) / 5) S := by
    simp [after_call, hone]
  obtain ⟨p, hs, he, hm, c1, c2⟩ := det_aux_sorted
    ((block_medians ((S.length - 1) / 5) S).length + 1) (block_medians ((S.length - 1) / 5) S)
    ((((block_medians ((S.length - 1) / 5) S).length + 1) / 2 : Nat) : Int)
    (by omega) (by omega) (by omega)
  refine ⟨p, ?_, hm, ?_, ?_, by omega, by omega⟩
  · rw [pivot_of]
    simp only [hfb, List.nil_append, deterministic_select, he, hac]
  · intro fuel hfuel
    rw [det_aux_eq_top fuel _ _ hfuel (by omega) (by omega), deterministic_select, he]
  · rw [← hs]
    congr 1
    omega


/-- The recursion budget `length + 1` is never used up, whatever `k` is. -/
theorem det_aux_fuel : ∀ (fuel : Nat) (S : List Int) (k : Int), S.length < fuel →
    deterministic_select_aux fuel S k ≠ .fault .out_of_fuel
  | 0, S, k, hf => by omega
  | fuel + 1, S, k, hf => by
    by_cases hb : k < 0 ∨ k > (S.length : Int)
    · rw [deterministic_select_aux]
      simp only [hb, if_true]
      intro h; cases h
    · by_cases hn : 2 ≤ S.length
      · obtain ⟨p, -, hpm, hp, -⟩ := pivot_of_eq S hn
        have hbl := block_medians_length ((S.length - 1) / 5) S (by omega)
        have hp := hp fuel (by omega)
        have hpS : p ∈ S := block_medians_subset _ S p hpm
        have hperm := after_call_perm S
        have hpS1 : p ∈ after_call S := hperm.mem_iff.2 hpS
        obtain ⟨hs, hse, hseg, -⟩ := split_lengths p (after_call S)
        have hepos := equal_pos_of_mem hpS1
        have hlen := hperm.length_eq
        rw [det_aux_step fuel S k p _ (by omega) (by omega) hn hp]
        split_ifs
        · have ih := det_aux_fuel fuel ((after_call S).filter (fun x => decide (x < p))) k
            (by omega)
          revert ih
          cases deterministic_select_aux fuel ((after_call S).filter (fun x => decide (x < p))) k
            with
          | value v => intro _ h; cases h
          | fault f => intro ih h; apply ih; cases h; rfl
        · intro h; cases h
        · have ih := det_aux_fuel fuel
            ((after_call S).filter (fun x => !decide (x < p) && !decide (x = p)))
            (k - ((after_call S).filter (fun x => decide (x < p))).length
              - ((after_call S).filter (fun x => !decide (x < p) && decide (x = p))).length)
            (by omega)
          revert ih
          cases deterministic_select_aux fuel
            ((after_call S).filter (fun x => !decide (x < p) && !decide (x = p)))
            (k - ((after_call S).filter (fun x => decide (x < p))).length
              - ((after_call S).filter (fun x => !decide (x < p) && decide (x = p))).length) with
          | value v => intro _ h; cases h
          | fault f => intro ih h; apply ih; cases h; rfl
      · rw [deterministic_select_aux]
        simp only [hb, if_false]
        by_cases hone : S.length = 1
        · obtain ⟨a, rfl⟩ := List.length_eq_one.1 hone
          simp [read]
        · have hnil : S = [] := by
            apply List.eq_nil_of_length_eq_zero; omega
          subst hnil
          simp [find_baby_medians_nil]


/-! ## Balance of the pivot -/

theorem count_le_mono {m p : Int} (h : m ≤ p) (L : List Int) : count_le m L ≤ count_le p L := by
  unfold count_le
  apply List.countP_mono_left
  intro x _ hx
  simp only [decide_eq_true_eq] at hx ⊢
  omega

theorem count_ge_mono {m p : Int} (h : p ≤ m) (L : List Int) : count_ge m L ≤ count_ge p L := by
  unfold count_ge
  apply List.countP_mono_left
  intro x _ hx
  simp only [decide_eq_true_eq] at hx ⊢
  omega

theorem count_le_pos {m p : Int} {L : List Int} (hm : m ∈ L) (h : m ≤ p) : 1 ≤ count_le p L := by
  unfold count_le
  apply List.countP_pos_iff.2
  exact ⟨m, hm, by simpa using h⟩

theorem count_ge_pos {m p : Int} {L : List Int} (hm : m ∈ L) (h : p ≤ m) : 1 ≤ count_ge p L := by
  unfold count_ge
  apply List.countP_pos_iff.2
  exact ⟨m, hm, by simpa using h⟩

theorem count_lt_add_count_ge (p : Int) (L : List Int) :
    count_lt p L + count_ge p L = L.length := by
  induction L with
  | nil => simp [count_lt, count_ge]
  | cons a L ih =>
    simp only [count_lt, count_ge] at ih ⊢
    simp only [List.countP_cons, decide_eq_true_eq, List.length_cons]
    split_ifs <;> omega

theorem count_le_add_count_gt (p : Int) (L : List Int) :
    count_le p L + count_gt p L = L.length := by
  induction L with
  | nil => simp [count_le, count_gt]
  | cons a L ih =>
    simp only [count_le, count_gt] at ih ⊢
    simp only [List.countP_cons, decide_eq_true_eq, List.length_cons]
    split_ifs <;> omega

theorem count_le_take_drop (p : Int) (L : List Int) (n : Nat) :
    count_le p L = count_le p (L.take n) + count_le p (L.drop n) := by
  conv_lhs => rw [← List.take_append_drop n L]
  exact List.countP_append _ _ _

theorem count_ge_take_drop (p : Int) (L : List Int) (n : Nat) :
    count_ge p L = count_ge p (L.take n) + count_ge p (L.drop n) := by
  conv_lhs => rw [← List.take_append_drop n L]
  exact List.countP_append _ _ _

/-- Every block median that is at most `p` stands for three elements at most `p`, except
possibly the median of the last block, which stands for at least one. -/
theorem block_medians_count_le (p : Int) : ∀ (c : Nat) (rest : List Int),
    c * 5 + 1 ≤ rest.length → rest.length ≤ c * 5 + 5 →
    3 * count_le p (block_medians c rest) ≤ count_le p rest + 2
  | 0, rest, h1, h5 => by
    have hlt : rest.length / 2 < (sorted rest).length := by
      rw [sorted_length]; omega
    have hm : (sorted rest)[rest.length / 2] ∈ rest := mem_sorted.1 (List.getElem_mem _)
    simp only [block_medians, List.getElem?_eq_getElem hlt, Option.toList_some]
    by_cases hle : (sorted rest)[rest.length / 2] ≤ p
    · have h1 := count_le_pos hm hle
      have : count_le p [(sorted rest)[rest.length / 2]] = 1 := by
        simp [count_le, List.countP_cons, hle]
      omega
    · have : count_le p [(sorted rest)[rest.length / 2]] = 0 := by
        simp [count_le, List.countP_cons, hle]
      omega
  | c + 1, rest, h1, h5 => by
    have hl5 : 2 < (sorted (rest.take 5)).length := by
      rw [sorted_length, List.length_take]; omega
    have ih := block_medians_count_le p c (rest.drop 5) (by simp; omega) (by simp; omega)
    have hsplit := count_le_take_drop p rest 5
    have happ : count_le p (block_medians (c + 1) rest)
        = count_le p [(sorted (rest.take 5))[2]] + count_le p (block_medians c (rest.drop 5)) := by
      simp only [block_medians, List.getElem?_eq_getElem hl5, Option.toList_some]
      exact List.countP_append _ _ _
    rw [happ]
    by_cases hle : (sorted (rest.take 5))[2] ≤ p
    · have h3 := succ_le_count_le_of_sorted (sorted (rest.take 5)) (sorted_sorted _) 2 _
        (List.getElem?_eq_getElem hl5)
      rw [count_le_perm (sorted_perm _)] at h3
      have hmono := count_le_mono hle (rest.take 5)
      have : count_le p [(sorted (rest.take 5))[2]] = 1 := by
        simp [count_le, List.countP_cons, hle]
      omega
    · have : count_le p [(sorted (rest.take 5))[2]] = 0 := by
        simp [count_le, List.countP_cons, hle]
      omega

/-- Every block median that is at least `p` stands for three elements at least `p`, except
possibly the median of the last block, which stands for at least one. -/
theorem block_medians_count_ge (p : Int) : ∀ (c : Nat) (rest : List Int),
    c * 5 + 1 ≤ rest.length → rest.length ≤ c * 5 + 5 →
    3 * count_ge p (block_medians c rest) ≤ count_ge p rest + 2
  | 0, rest, h1, h5 => by
    have hlt : rest.length / 2 < (sorted rest).length := by
      rw [sorted_length]; omega
    have hm : (sorted rest)[rest.length / 2] ∈ rest := mem_sorted.1 (List.getElem_mem _)
    simp only [block_medians, List.getElem?_eq_getElem hlt, Option.toList_some]
    by_cases hle : p ≤ (sorted rest)[rest.length / 2]
    · have h1 := count_ge_pos hm hle
      have : count_ge p [(sorted rest)[rest.length / 2]] = 1 := by
        simp [count_ge, List.countP_cons, hle]
      omega
    · have : count_ge p [(sorted rest)[rest.length / 2]] = 0 := by
        simp [count_ge, List.countP_cons, hle]
      omega
  | c + 1, rest, h1, h5 => by
    have hl5 : (sorted (rest.take 5)).length = 5 := by
      rw [sorted_length, List.length_take]; omega
    have hl2 : 2 < (sorted (rest.take 5)).length := by omega
    have ih := block_medians_count_ge p c (rest.drop 5) (by simp; omega) (by simp; omega)
    have hsplit := count_ge_take_drop p rest 5
    have happ : count_ge p (block_medians (c + 1) rest)
        = count_ge p [(sorted (rest.take 5))[2]] + count_ge p (block_medians c (rest.drop 5)) := by
      simp only [block_medians, List.getElem?_eq_getElem hl2, Option.toList_some]
      exact List.countP_append _ _ _
    rw [happ]
    by_cases hle : p ≤ (sorted (rest.take 5))[2]
    · have h3 := le_count_ge_of_sorted (sorted (rest.take 5)) (sorted_sorted _) 2 _
        (List.getElem?_eq_getElem hl2)
      rw [count_ge_perm (sorted_perm _)] at h3
      have hmono := count_ge_mono hle (rest.take 5)
      have : count_ge p [(sorted (rest.take 5))[2]] = 1 := by
        simp [count_ge, List.countP_cons, hle]
      omega
    · have : count_ge p [(sorted (rest.take 5))[2]] = 0 := by
        simp [count_ge, List.countP_cons, hle]
      omega

/-! ## Blocks of the sequence after the call -/

theorem block_sort_length (c : Nat) (rest : List Int) : (block_sort c rest).length = rest.length :=
  (block_sort_perm c rest).length_eq

/-- Block `i` of the block-sorted sequence is the sorted block `i` of the original. -/
theorem block_sort_block : ∀ (c : Nat) (rest : List Int) (i : Nat),
    c * 5 + 1 ≤ rest.length → rest.length ≤ c * 5 + 5 →
    ((block_sort c rest).drop (i * 5)).take 5 = sorted ((rest.drop (i * 5)).take 5)
  | 0, rest, 0, _, h5 => by
    have h : (sorted rest).length ≤ 5 := by rw [sorted_length]; omega
    simp only [block_sort, Nat.zero_mul, List.drop_zero]
    rw [List.take_of_length_le h, List.take_of_length_le (by omega)]
  | 0, rest, i + 1, _, h5 => by
    have h : (sorted rest).length ≤ (i + 1) * 5 := by rw [sorted_length]; omega
    simp only [block_sort]
    rw [List.drop_of_length_le h, List.drop_of_length_le (by omega)]
    simp [sorted]
  | c + 1, rest, 0, h1, _ => by
    have hl5 : (sorted (rest.take 5)).length = 5 := by
      rw [sorted_length, List.length_take]; omega
    simp only [block_sort, Nat.zero_mul, List.drop_zero]
    rw [List.take_append_of_le_length (by omega), List.take_of_length_le (by omega)]
  | c + 1, rest, i + 1, h1, h5 => by
    have hl5 : (sorted (rest.take 5)).length = 5 := by
      rw [sorted_length, List.length_take]; omega
    have ih := block_sort_block c (rest.drop 5) i (by simp; omega) (by simp; omega)
    have e1 : (i + 1) * 5 = (sorted (rest.take 5)).length + i * 5 := by omega
    have e2 : (rest.drop 5).drop (i * 5) = rest.drop ((i + 1) * 5) := by
      rw [List.drop_drop]; congr 1; omega
    have e3 : (block_sort (c + 1) rest).drop ((i + 1) * 5)
        = (block_sort c (rest.drop 5)).drop (i * 5) := by
      simp only [block_sort]
      rw [e1, List.drop_append]
    rw [e3, ih, e2]


/-! ## `choose_pivot` and `quick_select` -/

theorem median_mem (a b c : Int) : median a b c = a ∨ median a b c = b ∨ median a b c = c := by
  unfold median
  omega

theorem read_value (S : List Int) (i : Int) (h0 : 0 ≤ i) (h1 : i < S.length) :
    ∃ x, read S i = .value x ∧ x ∈ S ∧ S[i.toNat]? = some x := by
  have hlt : i.toNat < S.length := by omega
  refine ⟨S[i.toNat], ?_, List.getElem_mem _, List.getElem?_eq_getElem hlt⟩
  unfold read
  have : ¬ i < 0 := by omega
  simp only [this, if_false, List.getElem?_eq_getElem hlt]

/-- On a non-empty sequence `choose_pivot` reads inside the sequence and its value is an
element of the sequence. -/
theorem choose_pivot_mem (S : List Int) (hS : S ≠ []) :
    ∃ p, choose_pivot S = .value p ∧ p ∈ S := by
  have hpos : 1 ≤ S.length := List.length_pos.2 hS
  obtain ⟨a0, e0, m0, -⟩ := read_value S 0 (by omega) (by omega)
  obtain ⟨a1, e1, m1, -⟩ := read_value S (0 + ((S.length : Int) - 1 - 0 + 1) / 9)
    (by omega) (by omega)
  obtain ⟨a2, e2, m2, -⟩ := read_value S (0 + 2 * (((S.length : Int) - 1 - 0 + 1) / 9))
    (by omega) (by omega)
  obtain ⟨a3, e3, m3, -⟩ := read_value S (0 + 3 * (((S.length : Int) - 1 - 0 + 1) / 9))
    (by omega) (by omega)
  obtain ⟨a4, e4, m4, -⟩ := read_value S (0 + 4 * (((S.length : Int) - 1 - 0 + 1) / 9))
    (by omega) (by omega)
  obtain ⟨a5, e5, m5, -⟩ := read_value S (0 + 5 * (((S.length : Int) - 1 - 0 + 1) / 9))
    (by omega) (by omega)
  obtain ⟨a6, e6, m6, -⟩ := read_value S (0 + 6 * (((S.length : Int) - 1 - 0 + 1) / 9))
    (by omega) (by omega)
  obtain ⟨a7, e7, m7, -⟩ := read_value S (0 + 7 * (((S.length : Int) - 1 - 0 + 1) / 9))
    (by omega) (by omega)
  obtain ⟨a8, e8, m8, -⟩ := read_value S ((S.length : Int) - 1) (by omega) (by omega)
  refine ⟨median (median a0 a1 a2) (median a3 a4 a5) (median a6 a7 a8), ?_, ?_⟩
  · unfold choose_pivot
    simp only [e0, e1, e2, e3, e4, e5, e6, e7, e8]
  · rcases median_mem (median a0 a1 a2) (median a3 a4 a5) (median a6 a7 a8) with h | h | h
    · rw [h]; rcases median_mem a0 a1 a2 with h | h | h <;> rw [h] <;> assumption
    · rw [h]; rcases median_mem a3 a4 a5 with h | h | h <;> rw [h] <;> assumption
    · rw [h]; rcases median_mem a6 a7 a8 with h | h | h <;> rw [h] <;> assumption

theorem quick_aux_step (fuel : Nat) (S : List Int) (k : Int) (p : Int)
    (hk0 : 0 ≤ k) (hkn : k ≤ S.length) (hn : 2 ≤ S.length) (hp : choose_pivot S = .value p) :
    quick_select_aux (fuel + 1) S k =
      if k ≤ (S.filter (fun x => decide (x < p))).length then
        quick_select_aux fuel (S.filter (fun x => decide (x < p))) k
      else if k ≤ ((S.filter (fun x => decide (x < p))).length : Int)
          + (S.filter (fun x => !decide (x < p) && decide (x = p))).length then
        .value p
      else
        quick_select_aux fuel (S.filter (fun x => !decide (x < p) && !decide (x = p)))
          (k - (S.filter (fun x => decide (x < p))).length
            - (S.filter (fun x => !decide (x < p) && decide (x = p))).length) := by
  have hb : ¬ (k < 0 ∨ k > (S.length : Int)) := by omega
  have hone : ¬ S.length = 1 := by omega
  rw [quick_select_aux]
  simp only [hb, hone, if_false, hp]

/-- Rank statement for `quick_select_aux`. -/
theorem quick_aux_spec : ∀ (fuel : Nat) (S : List Int) (k : Int),
    S.length ≤ fuel → 1 ≤ k → k ≤ S.length →
    ∃ x, quick_select_aux fuel S k = .value x ∧ x ∈ S ∧
      (count_lt x S : Int) < k ∧ k ≤ (count_le x S : Int)
  | 0, S, k, hf, h1, h2 => by omega
  | fuel + 1, S, k, hf, h1, h2 => by
    by_cases hone : S.length = 1
    · obtain ⟨a, rfl⟩ := List.length_eq_one.1 hone
      have hb : ¬ (k < 0 ∨ k > (([a] : List Int).length : Int)) := by omega
      refine ⟨a, ?_, by simp, ?_, ?_⟩
      · rw [quick_select_aux]
        simp only [hb, if_false]
        simp [read]
      · simp [count_lt]; omega
      · simp [count_le]; simpa using h2
    · have hn : 2 ≤ S.length := by omega
      have hne : S ≠ [] := by
        intro h; subst h; simp at hn
      obtain ⟨p, hp, hpS⟩ := choose_pivot_mem S hne
      obtain ⟨hs, hse, hseg, -⟩ := split_lengths p S
      have hepos := equal_pos_of_mem hpS
      rw [quick_aux_step fuel S k p (by omega) h2 hn hp]
      by_cases hk1 : k ≤ (S.filter (fun x => decide (x < p))).length
      · obtain ⟨x, hx, hxm, hx1, hx2⟩ := quick_aux_spec fuel
          (S.filter (fun x => decide (x < p))) k (by omega) h1 hk1
        have hxp : x < p := by
          have := (List.mem_filter.1 hxm).2
          simpa using this
        obtain ⟨c1, c2⟩ := count_smaller hxp S
        refine ⟨x, ?_, (List.mem_filter.1 hxm).1, ?_, ?_⟩
        · simp only [hk1, if_true, hx]
        · omega
        · omega
      · by_cases hk2 : k ≤ ((S.filter (fun x => decide (x < p))).length : Int)
            + (S.filter (fun x => !decide (x < p) && decide (x = p))).length
        · refine ⟨p, ?_, hpS, ?_, ?_⟩
          · simp only [hk1, hk2, if_true, if_false]
          · omega
          · omega
        · obtain ⟨x, hx, hxm, hx1, hx2⟩ := quick_aux_spec fuel
            (S.filter (fun x => !decide (x < p) && !decide (x = p)))
            (k - (S.filter (fun x => decide (x < p))).length
              - (S.filter (fun x => !decide (x < p) && decide (x = p))).length)
            (by omega) (by omega) (by omega)
          have hxp : p < x := by
            have := (List.mem_filter.1 hxm).2
            simp only [Bool.and_eq_true, Bool.not_eq_true', decide_eq_false_iff_not] at this
            omega
          obtain ⟨c1, c2⟩ := count_greater hxp S
          refine ⟨x, ?_, (List.mem_filter.1 hxm).1, ?_, ?_⟩
          · simp only [hk1, hk2, if_false, hx]
          · omega
          · omega


/-! ## Claims about the selection engine -/

/-- C1 (as stated, refuted): with the 0-based rank `k = 2` the call on `[5,3,8,1,9,2]` returns
`2`, while the sorted sequence holds `3` at index 2 (the rank `3` returns `3`); and with
`k = 0` the call on `[4,4,4,4]` recurses into the empty group `smaller` and reads outside
it. -/
theorem deterministic_select_zero_based_counterexample :
    deterministic_select [5, 3, 8, 1, 9, 2] 2 = .value (2, [1, 3, 5, 8, 9, 2]) ∧
    (sorted [5, 3, 8, 1, 9, 2])[2]? = some 3 ∧
    deterministic_select [5, 3, 8, 1, 9, 2] 3 = .value (3, [1, 3, 5, 8, 9, 2]) ∧
    deterministic_select [4, 4, 4, 4] 0 = .fault .out_of_range := by
  decide

/-- C1 (amended): the rank is 1-based.  For every sequence `S` of length `n` and every
`0 ≤ k < n`, `deterministic_select(S, k + 1)` returns the element at index `k` of the sorted
sequence. -/
theorem deterministic_select_one_based (S : List Int) (k : Int)
    (h0 : 0 ≤ k) (h1 : k < S.length) :
    ∃ x, deterministic_select S (k + 1) = .value (x, after_call S) ∧
      (sorted S)[k.toNat]? = some x := by
  obtain ⟨x, hs, he, -⟩ := det_aux_sorted (S.length + 1) S (k + 1) (by omega) (by omega)
    (by omega)
  refine ⟨x, he, ?_⟩
  rw [← hs]
  congr 1
  omega

/-- Instance of C1 (amended) on `[5,3,8,1,9,2]` at index 2. -/
theorem deterministic_select_one_based_witness :
    (0 : Int) ≤ 2 ∧ (2 : Int) < ([5, 3, 8, 1, 9, 2] : List Int).length ∧
    ∃ x, deterministic_select [5, 3, 8, 1, 9, 2] (2 + 1)
        = .value (x, after_call [5, 3, 8, 1, 9, 2]) ∧
      (sorted [5, 3, 8, 1, 9, 2])[(2 : Int).toNat]? = some x :=
  ⟨by decide, by decide, deterministic_select_one_based [5, 3, 8, 1, 9, 2] 2 (by decide)
    (by decide)⟩

/-- C2: for every non-empty sequence `S` of length `n` and every `1 ≤ k ≤ n`,
`deterministic_select(S, k)` returns a value, and that value is the `k`-th smallest element
of `S`: it is the element at index `k - 1` of the sorted sequence, it belongs to `S`, fewer
than `k` elements are below it and at least `k` are not above it. -/
theorem deterministic_select_kth_smallest (S : List Int) (k : Int) (hS : S ≠ [])
    (h1 : 1 ≤ k) (h2 : k ≤ S.length) :
    ∃ x, deterministic_select S k = .value (x, after_call S) ∧
      (sorted S)[(k - 1).toNat]? = some x ∧ x ∈ S ∧
      (count_lt x S : Int) < k ∧ k ≤ (count_le x S : Int) := by
  have _ := hS
  obtain ⟨x, hs, he, hm, c1, c2⟩ := det_aux_sorted (S.length + 1) S k (by omega) h1 h2
  exact ⟨x, he, hs, hm, c1, c2⟩

/-- Instance of C2 on `[9,7,5,3,1,8,6]` with `k = 7`. -/
theorem deterministic_select_kth_smallest_witness :
    ([9, 7, 5, 3, 1, 8, 6] : List Int) ≠ [] ∧ (1 : Int) ≤ 7 ∧
    (7 : Int) ≤ ([9, 7, 5, 3, 1, 8, 6] : List Int).length ∧
    ∃ x, deterministic_select [9, 7, 5, 3, 1, 8, 6] 7
        = .value (x, after_call [9, 7, 5, 3, 1, 8, 6]) ∧
      (sorted [9, 7, 5, 3, 1, 8, 6])[((7 : Int) - 1).toNat]? = some x ∧
      x ∈ ([9, 7, 5, 3, 1, 8, 6] : List Int) ∧
      (count_lt x [9, 7, 5, 3, 1, 8, 6] : Int) < 7 ∧
      (7 : Int) ≤ (count_le x [9, 7, 5, 3, 1, 8, 6] : Int) :=
  ⟨by decide, by decide, by decide,
    deterministic_select_kth_smallest [9, 7, 5, 3, 1, 8, 6] 7 (by decide) (by decide)
      (by decide)⟩

/-- C3 (as stated, refuted): with `k = n` the bounds check `k > sequence.size()` lets the call
through; on `[7]` with `k = 1` both functions return `7`, and on `[5,3,8,1,9,2]` with `k = 6`
`deterministic_select` returns the maximum `9`. -/
theorem bounds_check_counterexample :
    deterministic_select [7] 1 = .value (7, [7]) ∧ quick_select [7] 1 = .value 7 ∧
    deterministic_select [5, 3, 8, 1, 9, 2] 6 = .value (9, [1, 3, 5, 8, 9, 2]) := by
  decide

/-- C3 (amended): for every sequence `S` of length `n ≥ 1`, `deterministic_select` and
`quick_select` called with `k = n + 1` or with `k = -1` end in the index-out-of-bounds exit
and return no element. -/
theorem bounds_check_exit (S : List Int) (hS : 1 ≤ S.length) :
    deterministic_select S ((S.length : Int) + 1) = .fault .index_out_of_bounds ∧
    deterministic_select S (-1) = .fault .index_out_of_bounds ∧
    quick_select S ((S.length : Int) + 1) = .fault .index_out_of_bounds ∧
    quick_select S (-1) = .fault .index_out_of_bounds := by
  have _ := hS
  have hhi := bounds_check_fault S ((S.length : Int) + 1) (by omega)
  have hlo := bounds_check_fault S (-1) (by omega)
  exact ⟨hhi.1, hlo.1, hhi.2, hlo.2⟩

/-- Instance of C3 (amended) on `[7, 3]`. -/
theorem bounds_check_exit_witness :
    1 ≤ ([7, 3] : List Int).length ∧
    deterministic_select [7, 3] ((([7, 3] : List Int).length : Int) + 1)
      = .fault .index_out_of_bounds ∧
    deterministic_select [7, 3] (-1) = .fault .index_out_of_bounds ∧
    quick_select [7, 3] ((([7, 3] : List Int).length : Int) + 1)
      = .fault .index_out_of_bounds ∧
    quick_select [7, 3] (-1) = .fault .index_out_of_bounds :=
  ⟨by decide, bounds_check_exit [7, 3] (by decide)⟩

/-- C4: for every sequence of length `n ≥ 2` and every `k` that passes the bounds check
(`0 ≤ k ≤ n`), the pivot is computed and is an element of the sequence, the group `equal` is
not empty, each of `baby_medians`, `smaller` and `greater` is strictly shorter than `n`, and
the call never uses up a recursion budget of `n + 1` nested calls. -/
theorem deterministic_select_recursion_shrinks (S : List Int) (k : Int)
    (hn : 2 ≤ S.length) (hk0 : 0 ≤ k) (hkn : k ≤ S.length) :
    ∃ p S1 bm, find_baby_medians S [] = .value (S1, bm) ∧ pivot_of S = .value (p, S1, bm) ∧
      p ∈ S ∧
      S1.filter (fun x => !decide (x < p) && decide (x = p)) ≠ [] ∧
      bm.length < S.length ∧
      (S1.filter (fun x => decide (x < p))).length < S.length ∧
      (S1.filter (fun x => !decide (x < p) && !decide (x = p))).length < S.length ∧
      deterministic_select S k ≠ .fault .out_of_fuel ∧
      ∀ fuel, S.length < fuel → deterministic_select_aux fuel S k ≠ .fault .out_of_fuel := by
  have _ := hk0
  have _ := hkn
  have hne : S ≠ [] := by
    intro h; subst h; simp at hn
  have hone : ¬ S.length = 1 := by omega
  obtain ⟨p, hp, hpm, -⟩ := pivot_of_eq S hn
  have hbl := block_medians_length ((S.length - 1) / 5) S (by omega)
  have hpS : p ∈ S := block_medians_subset _ S p hpm
  have hperm := after_call_perm S
  have hpS1 : p ∈ after_call S := hperm.mem_iff.2 hpS
  obtain ⟨hs, hse, hseg, -⟩ := split_lengths p (after_call S)
  have hepos := equal_pos_of_mem hpS1
  have hlen := hperm.length_eq
  have hfb := find_baby_medians_eq S [] hne
  have hac : after_call S = block_sort ((S.length - 1) / 5) S := by
    simp [after_call, hone]
  refine ⟨p, after_call S, block_medians ((S.length - 1) / 5) S, ?_, hp, hpS, ?_, by omega,
    by omega, by omega, det_aux_fuel _ S k (by omega), fun fuel hf => det_aux_fuel fuel S k hf⟩
  · rw [hfb, hac]; simp
  · exact List.ne_nil_of_length_pos hepos

/-- Instance of C4 on `[4,4,4,4]` with `k = 0`. -/
theorem deterministic_select_recursion_shrinks_witness :
    2 ≤ ([4, 4, 4, 4] : List Int).length ∧ (0 : Int) ≤ 0 ∧
    (0 : Int) ≤ ([4, 4, 4, 4] : List Int).length ∧
    ∃ p S1 bm, find_baby_medians [4, 4, 4, 4] [] = .value (S1, bm) ∧
      pivot_of [4, 4, 4, 4] = .value (p, S1, bm) ∧
      p ∈ ([4, 4, 4, 4] : List Int) ∧
      S1.filter (fun x => !decide (x < p) && decide (x = p)) ≠ [] ∧
      bm.length < ([4, 4, 4, 4] : List Int).length ∧
      (S1.filter (fun x => decide (x < p))).length < ([4, 4, 4, 4] : List Int).length ∧
      (S1.filter (fun x => !decide (x < p) && !decide (x = p))).length
        < ([4, 4, 4, 4] : List Int).length ∧
      deterministic_select [4, 4, 4, 4] 0 ≠ .fault .out_of_fuel ∧
      ∀ fuel, ([4, 4, 4, 4] : List Int).length < fuel →
        deterministic_select_aux fuel [4, 4, 4, 4] 0 ≠ .fault .out_of_fuel :=
  ⟨by decide, by decide, by decide,
    deterministic_select_recursion_shrinks [4, 4, 4, 4] 0 (by decide) (by decide) (by decide)⟩


/-- C5: for every sequence of length `n ≥ 2` the pivot computed inside
`deterministic_select`, the element of rank `ceil(m/2)` among the `m = ceil(n/5)` block
medians, is balanced: at most `7n/10 + 2` elements are strictly smaller than it and at most
`7n/10 + 2` are strictly greater; equivalently at least `3n/10 - 2` elements are at most the
pivot and at least `3n/10 - 2` are at least the pivot.  The groups `smaller` and `greater`
have exactly these sizes. -/
theorem pivot_balanced (S : List Int) (hn : 2 ≤ S.length) :
    ∃ p S1 bm, pivot_of S = .value (p, S1, bm) ∧
      bm.length = (S.length + 4) / 5 ∧
      (sorted bm)[(bm.length + 1) / 2 - 1]? = some p ∧
      10 * count_lt p S ≤ 7 * S.length + 20 ∧
      10 * count_gt p S ≤ 7 * S.length + 20 ∧
      3 * S.length ≤ 10 * count_le p S + 20 ∧
      3 * S.length ≤ 10 * count_ge p S + 20 ∧
      (S1.filter (fun x => decide (x < p))).length = count_lt p S ∧
      (S1.filter (fun x => !decide (x < p) && !decide (x = p))).length = count_gt p S := by
  obtain ⟨p, hp, -, -, hsort, c1, c2⟩ := pivot_of_eq S hn
  have hbl := block_medians_length ((S.length - 1) / 5) S (by omega)
  have hle := block_medians_count_le p ((S.length - 1) / 5) S (by omega) (by omega)
  have hge := block_medians_count_ge p ((S.length - 1) / 5) S (by omega) (by omega)
  have e1 := count_lt_add_count_ge p (block_medians ((S.length - 1) / 5) S)
  have e2 := count_lt_add_count_ge p S
  have e3 := count_le_add_count_gt p S
  have hperm := after_call_perm S
  obtain ⟨hs, -, -, hg⟩ := split_lengths p (after_call S)
  rw [count_lt_perm hperm] at hs
  have hgt : count_gt p (after_call S) = count_gt p S := hperm.countP_eq _
  rw [hgt] at hg
  refine ⟨p, after_call S, block_medians ((S.length - 1) / 5) S, hp, by omega, hsort,
    by omega, by omega, by omega, by omega, hs, hg⟩

/-- Instance of C5 on a sequence of eleven elements. -/
theorem pivot_balanced_witness :
    2 ≤ ([5, 3, 8, 1, 9, 2, 11, 4, 6, 0, 12] : List Int).length ∧
    ∃ p S1 bm, pivot_of [5, 3, 8, 1, 9, 2, 11, 4, 6, 0, 12] = .value (p, S1, bm) ∧
      bm.length = (([5, 3, 8, 1, 9, 2, 11, 4, 6, 0, 12] : List Int).length + 4) / 5 ∧
      (sorted bm)[(bm.length + 1) / 2 - 1]? = some p ∧
      10 * count_lt p [5, 3, 8, 1, 9, 2, 11, 4, 6, 0, 12]
        ≤ 7 * ([5, 3, 8, 1, 9, 2, 11, 4, 6, 0, 12] : List Int).length + 20 ∧
      10 * count_gt p [5, 3, 8, 1, 9, 2, 11, 4, 6, 0, 12]
        ≤ 7 * ([5, 3, 8, 1, 9, 2, 11, 4, 6, 0, 12] : List Int).length + 20 ∧
      3 * ([5, 3, 8, 1, 9, 2, 11, 4, 6, 0, 12] : List Int).length
        ≤ 10 * count_le p [5, 3, 8, 1, 9, 2, 11, 4, 6, 0, 12] + 20 ∧
      3 * ([5, 3, 8, 1, 9, 2, 11, 4, 6, 0, 12] : List Int).length
        ≤ 10 * count_ge p [5, 3, 8, 1, 9, 2, 11, 4, 6, 0, 12] + 20 ∧
      (S1.filter (fun x => decide (x < p))).length
        = count_lt p [5, 3, 8, 1, 9, 2, 11, 4, 6, 0, 12] ∧
      (S1.filter (fun x => !decide (x < p) && !decide (x = p))).length
        = count_gt p [5, 3, 8, 1, 9, 2, 11, 4, 6, 0, 12] :=
  ⟨by decide, pivot_balanced [5, 3, 8, 1, 9, 2, 11, 4, 6, 0, 12] (by decide)⟩

/-- C6 (as stated, refuted): `deterministic_select([2,1], 1)` returns `1` and leaves the
caller's sequence as `[1,2]`: `find_baby_medians` has sorted the block in place. -/
theorem deterministic_select_mutates_counterexample :
    deterministic_select [2, 1] 1 = .value (1, [1, 2]) ∧ ([1, 2] : List Int) ≠ [2, 1] := by
  decide

/-- C6 (amended): for every sequence `S` of length `n` and every `1 ≤ k ≤ n`, after
`deterministic_select(S, k)` has returned the caller's sequence holds a permutation of its
original elements; it is unchanged when `n = 1`, and otherwise every contiguous block of five
positions (the last one possibly shorter) holds the sorted elements of the same block of the
original. -/
theorem deterministic_select_frame (S : List Int) (k : Int) (h1 : 1 ≤ k) (h2 : k ≤ S.length) :
    ∃ x S1, deterministic_select S k = .value (x, S1) ∧ S1.Perm S ∧
      (S.length = 1 → S1 = S) ∧
      (2 ≤ S.length → ∀ i, (S1.drop (i * 5)).take 5 = sorted ((S.drop (i * 5)).take 5)) := by
  obtain ⟨x, -, he, -⟩ := det_aux_sorted (S.length + 1) S k (by omega) h1 h2
  refine ⟨x, after_call S, he, after_call_perm S, ?_, ?_⟩
  · intro h; simp [after_call, h]
  · intro hn i
    have hone : ¬ S.length = 1 := by omega
    have hac : after_call S = block_sort ((S.length - 1) / 5) S := by
      simp [after_call, hone]
    rw [hac]
    exact block_sort_block _ S i (by omega) (by omega)

/-- Instance of C6 (amended) on `[2, 1]` with `k = 1`. -/
theorem deterministic_select_frame_witness :
    (1 : Int) ≤ 1 ∧ (1 : Int) ≤ ([2, 1] : List Int).length ∧
    ∃ x S1, deterministic_select [2, 1] 1 = .value (x, S1) ∧ S1.Perm [2, 1] ∧
      (([2, 1] : List Int).length = 1 → S1 = [2, 1]) ∧
      (2 ≤ ([2, 1] : List Int).length →
        ∀ i, (S1.drop (i * 5)).take 5 = sorted ((([2, 1] : List Int).drop (i * 5)).take 5)) :=
  ⟨by decide, by decide, deterministic_select_frame [2, 1] 1 (by decide) (by decide)⟩

/-- C7: for every non-empty sequence `S` of length `n` and every `1 ≤ k ≤ n`,
`quick_select(S, k)` returns the `k`-th smallest element of `S` (the element at index `k - 1`
of the sorted sequence), `choose_pivot` being taken to yield the value `pivot` it computes. -/
theorem quick_select_kth_smallest (S : List Int) (k : Int) (hS : S ≠ [])
    (h1 : 1 ≤ k) (h2 : k ≤ S.length) :
    ∃ x, quick_select S k = .value x ∧ (sorted S)[(k - 1).toNat]? = some x ∧ x ∈ S := by
  have _ := hS
  obtain ⟨x, hx, hm, c1, c2⟩ := quick_aux_spec (S.length + 1) S k (by omega) h1 h2
  refine ⟨x, hx, ?_, hm⟩
  apply rank_unique (sorted S) (sorted_sorted S) x
  · rw [count_lt_perm (sorted_perm S)]; omega
  · rw [count_le_perm (sorted_perm S)]; omega

/-- Instance of C7 on a sequence of eleven elements with `k = 3`. -/
theorem quick_select_kth_smallest_witness :
    ([5, 3, 8, 1, 9, 2, 11, 4, 6, 0, 12] : List Int) ≠ [] ∧ (1 : Int) ≤ 3 ∧
    (3 : Int) ≤ ([5, 3, 8, 1, 9, 2, 11, 4, 6, 0, 12] : List Int).length ∧
    ∃ x, quick_select [5, 3, 8, 1, 9, 2, 11, 4, 6, 0, 12] 3 = .value x ∧
      (sorted [5, 3, 8, 1, 9, 2, 11, 4, 6, 0, 12])[((3 : Int) - 1).toNat]? = some x ∧
      x ∈ ([5, 3, 8, 1, 9, 2, 11, 4, 6, 0, 12] : List Int) :=
  ⟨by decide, by decide, by decide,
    quick_select_kth_smallest [5, 3, 8, 1, 9, 2, 11, 4, 6, 0, 12] 3 (by decide) (by decide)
      (by decide)⟩


/-! ## Claims about the block medians and the sampled pivot -/

/-- The median stored for a full block that is not the last one. -/
theorem block_medians_getElem_full : ∀ (c : Nat) (rest : List Int) (i : Nat),
    c * 5 + 1 ≤ rest.length → i < c →
    (block_medians c rest)[i]? = (sorted ((rest.drop (i * 5)).take 5))[2]?
  | 0, _, i, _, hi => by omega
  | c + 1, rest, 0, h1, _ => by
    have hl2 : 2 < (sorted (rest.take 5)).length := by
      rw [sorted_length, List.length_take]; omega
    simp [block_medians, List.getElem?_eq_getElem hl2]
  | c + 1, rest, i + 1, h1, hi => by
    have hl2 : 2 < (sorted (rest.take 5)).length := by
      rw [sorted_length, List.length_take]; omega
    have ih := block_medians_getElem_full c (rest.drop 5) i (by simp; omega) (by omega)
    have e : (rest.drop 5).drop (i * 5) = rest.drop ((i + 1) * 5) := by
      rw [List.drop_drop]; congr 1; omega
    rw [e] at ih
    simp only [block_medians, List.getElem?_eq_getElem hl2, Option.toList_some,
      List.singleton_append, List.getElem?_cons_succ]
    exact ih

/-- The median stored for the last block. -/
theorem block_medians_getElem_last : ∀ (c : Nat) (rest : List Int),
    c * 5 + 1 ≤ rest.length →
    (block_medians c rest)[c]?
      = (sorted (rest.drop (c * 5)))[(rest.length - c * 5) / 2]?
  | 0, rest, h1 => by
    have hlt : rest.length / 2 < (sorted rest).length := by
      rw [sorted_length]; omega
    simp [block_medians, List.getElem?_eq_getElem hlt]
  | c + 1, rest, h1 => by
    have hl2 : 2 < (sorted (rest.take 5)).length := by
      rw [sorted_length, List.length_take]; omega
    have ih := block_medians_getElem_last c (rest.drop 5) (by simp; omega)
    have e : (rest.drop 5).drop (c * 5) = rest.drop ((c + 1) * 5) := by
      rw [List.drop_drop]; congr 1; omega
    have e2 : (rest.drop 5).length - c * 5 = rest.length - (c + 1) * 5 := by
      simp; omega
    rw [e, e2] at ih
    simp only [block_medians, List.getElem?_eq_getElem hl2, Option.toList_some,
      List.singleton_append, List.getElem?_cons_succ]
    exact ih

/-- C13: for every non-empty sequence of length `n` and an initially empty `medians`,
`find_baby_medians` appends exactly `ceil(n/5)` values: the `i`-th is the third smallest
element (sorted index 2) of the `i`-th contiguous block of five elements, and when
`n mod 5 = r ≠ 0` the last one is the element at index `floor(r/2)` of the sorted final block
of `r` elements. -/
theorem find_baby_medians_blocks (seq : List Int) (hne : seq ≠ []) :
    ∃ seq1 meds, find_baby_medians seq [] = .value (seq1, meds) ∧
      meds.length = (seq.length + 4) / 5 ∧
      (∀ i, (i + 1) * 5 ≤ seq.length →
        meds[i]? = (sorted ((seq.drop (i * 5)).take 5))[2]? ∧
        2 < (sorted ((seq.drop (i * 5)).take 5)).length) ∧
      (seq.length % 5 ≠ 0 →
        meds[seq.length / 5]?
          = (sorted (seq.drop (seq.length / 5 * 5)))[(seq.length % 5) / 2]? ∧
        (sorted (seq.drop (seq.length / 5 * 5))).length = seq.length % 5) := by
  have hpos : 1 ≤ seq.length := List.length_pos.2 hne
  have hfb := find_baby_medians_eq seq [] hne
  have hlen := block_medians_length ((seq.length - 1) / 5) seq (by omega)
  refine ⟨_, _, hfb, ?_, ?_, ?_⟩
  · simp only [List.nil_append]; omega
  · intro i hi
    have hl : (sorted ((seq.drop (i * 5)).take 5)).length = 5 := by
      rw [sorted_length, List.length_take, List.length_drop]; omega
    refine ⟨?_, by omega⟩
    simp only [List.nil_append]
    by_cases hlast : i < (seq.length - 1) / 5
    · exact block_medians_getElem_full _ seq i (by omega) hlast
    · have hi2 : i = (seq.length - 1) / 5 := by omega
      have h5 : seq.length - (seq.length - 1) / 5 * 5 = 5 := by omega
      have := block_medians_getElem_last ((seq.length - 1) / 5) seq (by omega)
      rw [h5] at this
      rw [hi2, this]
      have hd : (seq.drop ((seq.length - 1) / 5 * 5)).length ≤ 5 := by
        rw [List.length_drop]; omega
      rw [List.take_of_length_le hd]
  · intro hr
    have hc : (seq.length - 1) / 5 = seq.length / 5 := by omega
    have h5 : seq.length - seq.length / 5 * 5 = seq.length % 5 := by omega
    have := block_medians_getElem_last ((seq.length - 1) / 5) seq (by omega)
    rw [hc, h5] at this
    refine ⟨?_, ?_⟩
    · simp only [List.nil_append, hc]
      exact this
    · rw [sorted_length, List.length_drop]; omega

/-- Instance of C13 on a sequence of seven elements. -/
theorem find_baby_medians_blocks_witness :
    ([9, 7, 5, 3, 1, 8, 6] : List Int) ≠ [] ∧
    ∃ seq1 meds, find_baby_medians [9, 7, 5, 3, 1, 8, 6] [] = .value (seq1, meds) ∧
      meds.length = (([9, 7, 5, 3, 1, 8, 6] : List Int).length + 4) / 5 ∧
      (∀ i, (i + 1) * 5 ≤ ([9, 7, 5, 3, 1, 8, 6] : List Int).length →
        meds[i]? = (sorted ((([9, 7, 5, 3, 1, 8, 6] : List Int).drop (i * 5)).take 5))[2]? ∧
        2 < (sorted ((([9, 7, 5, 3, 1, 8, 6] : List Int).drop (i * 5)).take 5)).length) ∧
      (([9, 7, 5, 3, 1, 8, 6] : List Int).length % 5 ≠ 0 →
        meds[([9, 7, 5, 3, 1, 8, 6] : List Int).length / 5]?
          = (sorted (([9, 7, 5, 3, 1, 8, 6] : List Int).drop
              (([9, 7, 5, 3, 1, 8, 6] : List Int).length / 5 * 5)))[
                (([9, 7, 5, 3, 1, 8, 6] : List Int).length % 5) / 2]? ∧
        (sorted (([9, 7, 5, 3, 1, 8, 6] : List Int).drop
          (([9, 7, 5, 3, 1, 8, 6] : List Int).length / 5 * 5))).length
          = ([9, 7, 5, 3, 1, 8, 6] : List Int).length % 5) :=
  ⟨by decide, find_baby_medians_blocks [9, 7, 5, 3, 1, 8, 6] (by decide)⟩

/-- C14 (as stated, refuted): on `[2, 1]` the final block of two, sorted `[1, 2]`, has
lower-middle element `1` at index `r/2 - 1 = 0`, and `find_baby_medians` stores `2`; on
`[4, 3, 2, 1]`, sorted `[1, 2, 3, 4]`, the lower-middle element at index 1 is `2`, and it
stores `3`. -/
theorem find_baby_medians_even_counterexample :
    find_baby_medians [2, 1] [] = .value ([1, 2], [2]) ∧
    (sorted [2, 1])[2 / 2 - 1]? = some 1 ∧
    find_baby_medians [4, 3, 2, 1] [] = .value ([1, 2, 3, 4], [3]) ∧
    (sorted [4, 3, 2, 1])[4 / 2 - 1]? = some 2 := by
  decide

/-- C14 (amended): for every sequence whose final partial block has even size `r` (`r = 2` or
`r = 4`), the block median that `find_baby_medians` takes for that block is the upper-middle
element of the sorted block: the one at 0-based index `r/2`, with exactly `r/2` positions
before it and `r/2 - 1` after it. -/
theorem find_baby_medians_even_block (seq : List Int)
    (hr : seq.length % 5 = 2 ∨ seq.length % 5 = 4) :
    ∃ seq1 meds x, find_baby_medians seq [] = .value (seq1, meds) ∧
      meds.getLast? = some x ∧
      (sorted (seq.drop (seq.length / 5 * 5)))[(seq.length % 5) / 2]? = some x ∧
      (sorted (seq.drop (seq.length / 5 * 5))).length
        = (seq.length % 5) / 2 + 1 + ((seq.length % 5) / 2 - 1) := by
  have hne : seq ≠ [] := by
    intro h; subst h; simp at hr
  have hpos : 1 ≤ seq.length := List.length_pos.2 hne
  have hfb := find_baby_medians_eq seq [] hne
  have hlen := block_medians_length ((seq.length - 1) / 5) seq (by omega)
  have hc : (seq.length - 1) / 5 = seq.length / 5 := by omega
  have h5 : seq.length - seq.length / 5 * 5 = seq.length % 5 := by omega
  have hlast := block_medians_getElem_last ((seq.length - 1) / 5) seq (by omega)
  rw [hc, h5] at hlast
  have hsl : (sorted (seq.drop (seq.length / 5 * 5))).length = seq.length % 5 := by
    rw [sorted_length, List.length_drop]; omega
  have hlt : (seq.length % 5) / 2 < (sorted (seq.drop (seq.length / 5 * 5))).length := by
    omega
  refine ⟨_, _, (sorted (seq.drop (seq.length / 5 * 5)))[(seq.length % 5) / 2], hfb, ?_,
    List.getElem?_eq_getElem hlt, by omega⟩
  simp only [List.nil_append]
  rw [List.getLast?_eq_getElem?, hlen, ← List.getElem?_eq_getElem hlt, ← hlast, hc]
  rfl

/-- Instance of C14 (amended) on `[4, 3, 2, 1]`. -/
theorem find_baby_medians_even_block_witness :
    (([4, 3, 2, 1] : List Int).length % 5 = 2 ∨ ([4, 3, 2, 1] : List Int).length % 5 = 4) ∧
    ∃ seq1 meds x, find_baby_medians [4, 3, 2, 1] [] = .value (seq1, meds) ∧
      meds.getLast? = some x ∧
      (sorted (([4, 3, 2, 1] : List Int).drop (([4, 3, 2, 1] : List Int).length / 5 * 5)))[
        (([4, 3, 2, 1] : List Int).length % 5) / 2]? = some x ∧
      (sorted (([4, 3, 2, 1] : List Int).drop
        (([4, 3, 2, 1] : List Int).length / 5 * 5))).length
        = (([4, 3, 2, 1] : List Int).length % 5) / 2 + 1
          + ((([4, 3, 2, 1] : List Int).length % 5) / 2 - 1) :=
  ⟨by decide, find_baby_medians_even_block [4, 3, 2, 1] (by decide)⟩


/-- C15: for all integers `a`, `b`, `c`, `median(a, b, c) = max(min(a, b), min(max(a, b), c))`
is the middle element (index 1) of `a, b, c` sorted, and is unchanged under every permutation
of its three arguments. -/
theorem median_is_middle (a b c : Int) :
    median a b c = max (min a b) (min (max a b) c) ∧
    (sorted [a, b, c])[1]? = some (median a b c) ∧
    median a c b = median a b c ∧ median b a c = median a b c ∧
    median b c a = median a b c ∧ median c a b = median a b c ∧
    median c b a = median a b c := by
  refine ⟨rfl, ?_, ?_, ?_, ?_, ?_, ?_⟩
  · by_cases h1 : b ≤ c <;> by_cases h2 : a ≤ b <;> by_cases h3 : a ≤ c <;>
      simp [sorted, List.insertionSort, List.orderedInsert, median, h1, h2, h3] <;> omega
  all_goals (unfold median; omega)

/-- C16: for every sequence of length `n ≥ 9`, with `step = floor(n/9)`, the nine positions
`0, step, 2*step, ..., 7*step, n-1` read by `choose_pivot` are strictly increasing and lie in
`[0, n-1]`, the pivot is the median of the three medians of the values read there, and it is
an element of the sequence. -/
theorem choose_pivot_positions (seq : List Int) (hn : 9 ≤ seq.length) :
    0 < seq.length / 9 ∧ 7 * (seq.length / 9) < seq.length - 1 ∧
    (∀ j, j < 8 → j * (seq.length / 9) < (j + 1) * (seq.length / 9)) ∧
    ∃ a0 a1 a2 a3 a4 a5 a6 a7 a8,
      seq[0]? = some a0 ∧ seq[seq.length / 9]? = some a1 ∧
      seq[2 * (seq.length / 9)]? = some a2 ∧ seq[3 * (seq.length / 9)]? = some a3 ∧
      seq[4 * (seq.length / 9)]? = some a4 ∧ seq[5 * (seq.length / 9)]? = some a5 ∧
      seq[6 * (seq.length / 9)]? = some a6 ∧ seq[7 * (seq.length / 9)]? = some a7 ∧
      seq[seq.length - 1]? = some a8 ∧
      choose_pivot seq
        = .value (median (median a0 a1 a2) (median a3 a4 a5) (median a6 a7 a8)) ∧
      median (median a0 a1 a2) (median a3 a4 a5) (median a6 a7 a8) ∈ seq := by
  refine ⟨by omega, by omega, fun j _ => by
    have : 0 < seq.length / 9 := by omega
    nlinarith, ?_⟩
  obtain ⟨a0, e0, m0, g0⟩ := read_value seq 0 (by omega) (by omega)
  obtain ⟨a1, e1, m1, g1⟩ := read_value seq (0 + ((seq.length : Int) - 1 - 0 + 1) / 9)
    (by omega) (by omega)
  obtain ⟨a2, e2, m2, g2⟩ := read_value seq (0 + 2 * (((seq.length : Int) - 1 - 0 + 1) / 9))
    (by omega) (by omega)
  obtain ⟨a3, e3, m3, g3⟩ := read_value seq (0 + 3 * (((seq.length : Int) - 1 - 0 + 1) / 9))
    (by omega) (by omega)
  obtain ⟨a4, e4, m4, g4⟩ := read_value seq (0 + 4 * (((seq.length : Int) - 1 - 0 + 1) / 9))
    (by omega) (by omega)
  obtain ⟨a5, e5, m5, g5⟩ := read_value seq (0 + 5 * (((seq.length : Int) - 1 - 0 + 1) / 9))
    (by omega) (by omega)
  obtain ⟨a6, e6, m6, g6⟩ := read_value seq (0 + 6 * (((seq.length : Int) - 1 - 0 + 1) / 9))
    (by omega) (by omega)
  obtain ⟨a7, e7, m7, g7⟩ := read_value seq (0 + 7 * (((seq.length : Int) - 1 - 0 + 1) / 9))
    (by omega) (by omega)
  obtain ⟨a8, e8, m8, g8⟩ := read_value seq ((seq.length : Int) - 1) (by omega) (by omega)
  have t1 : (0 + ((seq.length : Int) - 1 - 0 + 1) / 9).toNat = seq.length / 9 := by omega
  have t2 : (0 + 2 * (((seq.length : Int) - 1 - 0 + 1) / 9)).toNat = 2 * (seq.length / 9) := by
    omega
  have t3 : (0 + 3 * (((seq.length : Int) - 1 - 0 + 1) / 9)).toNat = 3 * (seq.length / 9) := by
    omega
  have t4 : (0 + 4 * (((seq.length : Int) - 1 - 0 + 1) / 9)).toNat = 4 * (seq.length / 9) := by
    omega
  have t5 : (0 + 5 * (((seq.length : Int) - 1 - 0 + 1) / 9)).toNat = 5 * (seq.length / 9) := by
    omega
  have t6 : (0 + 6 * (((seq.length : Int) - 1 - 0 + 1) / 9)).toNat = 6 * (seq.length / 9) := by
    omega
  have t7 : (0 + 7 * (((seq.length : Int) - 1 - 0 + 1) / 9)).toNat = 7 * (seq.length / 9) := by
    omega
  have t8 : ((seq.length : Int) - 1).toNat = seq.length - 1 := by omega
  rw [t1] at g1
  rw [t2] at g2
  rw [t3] at g3
  rw [t4] at g4
  rw [t5] at g5
  rw [t6] at g6
  rw [t7] at g7
  rw [t8] at g8
  refine ⟨a0, a1, a2, a3, a4, a5, a6, a7, a8, by simpa using g0, g1, g2, g3, g4, g5, g6, g7,
    g8, ?_, ?_⟩
  · unfold choose_pivot
    simp only [e0, e1, e2, e3, e4, e5, e6, e7, e8]
  · rcases median_mem (median a0 a1 a2) (median a3 a4 a5) (median a6 a7 a8) with h | h | h
    · rw [h]; rcases median_mem a0 a1 a2 with h | h | h <;> rw [h] <;> assumption
    · rw [h]; rcases median_mem a3 a4 a5 with h | h | h <;> rw [h] <;> assumption
    · rw [h]; rcases median_mem a6 a7 a8 with h | h | h <;> rw [h] <;> assumption

/-- Instance of C16 on the sequence `9, 8, ..., 1`. -/
theorem choose_pivot_positions_witness :
    9 ≤ ([9, 8, 7, 6, 5, 4, 3, 2, 1] : List Int).length ∧
    0 < ([9, 8, 7, 6, 5, 4, 3, 2, 1] : List Int).length / 9 ∧
    7 * (([9, 8, 7, 6, 5, 4, 3, 2, 1] : List Int).length / 9) < ([9, 8, 7, 6, 5, 4, 3, 2, 1] : List Int).length - 1 ∧
    (∀ j, j < 8 → j * (([9, 8, 7, 6, 5, 4, 3, 2, 1] : List Int).length / 9) < (j + 1) * (([9, 8, 7, 6, 5, 4, 3, 2, 1] : List Int).length / 9)) ∧
    ∃ a0 a1 a2 a3 a4 a5 a6 a7 a8,
      ([9, 8, 7, 6, 5, 4, 3, 2, 1] : List Int)[0]? = some a0 ∧ ([9, 8, 7, 6, 5, 4, 3, 2, 1] : List Int)[([9, 8, 7, 6, 5, 4, 3, 2, 1] : List Int).length / 9]? = some a1 ∧
      ([9, 8, 7, 6, 5, 4, 3, 2, 1] : List Int)[2 * (([9, 8, 7, 6, 5, 4, 3, 2, 1] : List Int).length / 9)]? = some a2 ∧
      ([9, 8, 7, 6, 5, 4, 3, 2, 1] : List Int)[3 * (([9, 8, 7, 6, 5, 4, 3, 2, 1] : List Int).length / 9)]? = some a3 ∧
      ([9, 8, 7, 6, 5, 4, 3, 2, 1] : List Int)[4 * (([9, 8, 7, 6, 5, 4, 3, 2, 1] : List Int).length / 9)]? = some a4 ∧
      ([9, 8, 7, 6, 5, 4, 3, 2, 1] : List Int)[5 * (([9, 8, 7, 6, 5, 4, 3, 2, 1] : List Int).length / 9)]? = some a5 ∧
      ([9, 8, 7, 6, 5, 4, 3, 2, 1] : List Int)[6 * (([9, 8, 7, 6, 5, 4, 3, 2, 1] : List Int).length / 9)]? = some a6 ∧
      ([9, 8, 7, 6, 5, 4, 3, 2, 1] : List Int)[7 * (([9, 8, 7, 6, 5, 4, 3, 2, 1] : List Int).length / 9)]? = some a7 ∧
      ([9, 8, 7, 6, 5, 4, 3, 2, 1] : List Int)[([9, 8, 7, 6, 5, 4, 3, 2, 1] : List Int).length - 1]? = some a8 ∧
      choose_pivot [9, 8, 7, 6, 5, 4, 3, 2, 1]
        = .value (median (median a0 a1 a2) (median a3 a4 a5) (median a6 a7 a8)) ∧
      median (median a0 a1 a2) (median a3 a4 a5) (median a6 a7 a8) ∈ ([9, 8, 7, 6, 5, 4, 3, 2, 1] : List Int) :=
  ⟨by decide, choose_pivot_positions [9, 8, 7, 6, 5, 4, 3, 2, 1] (by decide)⟩


end Selection

namespace FastSort


/-! ## 32-bit arithmetic, minimum and maximum -/

theorem wrap_eq {x : Int} (h1 : INT_MIN ≤ x) (h2 : x ≤ INT_MAX) : wrap x = x := by
  unfold INT_MIN at h1
  unfold INT_MAX at h2
  unfold wrap
  omega

theorem min_max_spec : ∀ (xs : List Int) (m0 M0 : Int),
    (min_max xs (m0, M0)).1 ≤ m0 ∧ M0 ≤ (min_max xs (m0, M0)).2 ∧
    (∀ x ∈ xs, (min_max xs (m0, M0)).1 ≤ x ∧ x ≤ (min_max xs (m0, M0)).2) ∧
    ((min_max xs (m0, M0)).1 = m0 ∨ (min_max xs (m0, M0)).1 ∈ xs) ∧
    ((min_max xs (m0, M0)).2 = M0 ∨ (min_max xs (m0, M0)).2 ∈ xs)
  | [], m0, M0 => by simp [min_max]
  | x :: rest, m0, M0 => by
    obtain ⟨h1, h2, h3, h4, h5⟩ := min_max_spec rest (min x m0) (max x M0)
    simp only [min_max]
    refine ⟨by omega, by omega, ?_, ?_, ?_⟩
    · intro y hy
      rcases List.mem_cons.1 hy with rfl | hy
      · omega
      · exact h3 y hy
    · rcases h4 with h4 | h4
      · rcases min_choice x m0 with h | h
        · right; rw [h4, h]; exact List.mem_cons_self _ _
        · left; rw [h4, h]
      · right; exact List.mem_cons_of_mem _ h4
    · rcases h5 with h5 | h5
      · rcases max_choice x M0 with h | h
        · right; rw [h5, h]; exact List.mem_cons_self _ _
        · left; rw [h5, h]
      · right; exact List.mem_cons_of_mem _ h5

/-- On a non-empty list of `int` values whose range fits `int`, the loop finds bounds `m`
and `M` of the list with `1 ≤ M - m + 1 ≤ INT_MAX`. -/
theorem min_max_fits (xs : List Int) (hne : xs ≠ [])
    (hint : ∀ x ∈ xs, INT_MIN ≤ x ∧ x ≤ INT_MAX)
    (hfit : ∀ x ∈ xs, ∀ y ∈ xs, x - y + 1 ≤ INT_MAX) :
    (∀ x ∈ xs, (min_max xs (INT_MAX, INT_MIN)).1 ≤ x ∧ x ≤ (min_max xs (INT_MAX, INT_MIN)).2) ∧
    wrap (wrap ((min_max xs (INT_MAX, INT_MIN)).2 - (min_max xs (INT_MAX, INT_MIN)).1) + 1)
      = (min_max xs (INT_MAX, INT_MIN)).2 - (min_max xs (INT_MAX, INT_MIN)).1 + 1 ∧
    (min_max xs (INT_MAX, INT_MIN)).2 - (min_max xs (INT_MAX, INT_MIN)).1 + 1 ≤ INT_MAX := by
  obtain ⟨h1, h2, h3, h4, h5⟩ := min_max_spec xs INT_MAX INT_MIN
  obtain ⟨a, ha⟩ := List.exists_mem_of_ne_nil xs hne
  have hm : (min_max xs (INT_MAX, INT_MIN)).1 ∈ xs := by
    rcases h4 with h4 | h4
    · have e : (min_max xs (INT_MAX, INT_MIN)).1 = a := by
        have := (h3 a ha).1
        have := (hint a ha).2
        omega
      rw [e]; exact ha
    · exact h4
  have hM : (min_max xs (INT_MAX, INT_MIN)).2 ∈ xs := by
    rcases h5 with h5 | h5
    · have e : (min_max xs (INT_MAX, INT_MIN)).2 = a := by
        have := (h3 a ha).2
        have := (hint a ha).1
        omega
      rw [e]; exact ha
    · exact h5
  have hf := hfit _ hM _ hm
  have hle := (h3 _ hm).2
  have hmin : INT_MIN = -2147483648 := rfl
  have e1 : wrap ((min_max xs (INT_MAX, INT_MIN)).2 - (min_max xs (INT_MAX, INT_MIN)).1)
      = (min_max xs (INT_MAX, INT_MIN)).2 - (min_max xs (INT_MAX, INT_MIN)).1 := by
    apply wrap_eq
    · omega
    · omega
  refine ⟨h3, ?_, hf⟩
  rw [e1]
  apply wrap_eq
  · omega
  · exact hf

/-! ## Filling the buckets -/

/-- Filling the buckets appends to every bucket `b` the members of `order` whose bucket
number is `b`, in their order. -/
theorem push_indices_spec (key : Nat → Option Int) (m : Int) (kf : Nat → Nat) :
    ∀ (order : List Nat) (indices : List (List Nat)),
    (∀ i ∈ order, ∃ x, key i = some x ∧ 0 ≤ wrap (x - m) ∧ (wrap (x - m)).toNat = kf i ∧
      kf i < indices.length) →
    ∃ indices1, push_indices key m order indices = .value indices1 ∧
      indices1.length = indices.length ∧
      ∀ b, indices1[b]?
        = (indices[b]?).map (fun l => l ++ order.filter (fun i => decide (kf i = b)))
  | [], indices, _ => by
    refine ⟨indices, rfl, rfl, ?_⟩
    intro b
    cases indices[b]? <;> simp
  | i :: order, indices, h => by
    obtain ⟨x, hx, h0, hk, hlt⟩ := h i (List.mem_cons_self _ _)
    have hlt2 : (wrap (x - m)).toNat < indices.length := by omega
    have hb : ¬ wrap (x - m) < 0 := by omega
    obtain ⟨indices1, he, hl, hg⟩ := push_indices_spec key m kf order
      (indices.set (wrap (x - m)).toNat (indices[(wrap (x - m)).toNat] ++ [i]))
      (by
        intro j hj
        obtain ⟨y, hy, hy0, hyk, hylt⟩ := h j (List.mem_cons_of_mem _ hj)
        exact ⟨y, hy, hy0, hyk, by simpa using hylt⟩)
    refine ⟨indices1, ?_, by simpa using hl, ?_⟩
    · rw [push_indices]
      simp only [hx, hb, if_false, List.getElem?_eq_getElem hlt2, he]
    · intro b
      rw [hg b, List.getElem?_set]
      by_cases hbb : (wrap (x - m)).toNat = b
      · subst hbb
        have hki : kf i = (wrap (x - m)).toNat := by omega
        simp [hlt2, List.filter_cons, hki]
      · have hki : ¬ kf i = b := by omega
        simp only [hbb, if_false, List.filter_cons, hki, decide_False, Bool.false_eq_true]

/-- Starting from empty buckets, reading the buckets in order gives `bucketed`. -/
theorem push_indices_flatten (key : Nat → Option Int) (m : Int) (kf : Nat → Nat) (N : Nat)
    (order : List Nat)
    (h : ∀ i ∈ order, ∃ x, key i = some x ∧ 0 ≤ wrap (x - m) ∧ (wrap (x - m)).toNat = kf i ∧
      kf i < N) :
    ∃ indices1, push_indices key m order (List.replicate N []) = .value indices1 ∧
      (indices1.take N).flatten = bucketed kf N order := by
  obtain ⟨indices1, he, hl, hg⟩ := push_indices_spec key m kf order (List.replicate N [])
    (by simpa using h)
  refine ⟨indices1, he, ?_⟩
  have hl2 : indices1.length = N := by simpa using hl
  have e : indices1 = (List.range N).map
      (fun b => order.filter (fun i => decide (kf i = b))) := by
    apply List.ext_getElem?
    intro b
    rw [hg b]
    by_cases hb : b < N
    · simp [List.getElem?_replicate, hb, List.getElem?_range hb]
    · have hr : (List.range N)[b]? = none := by
        apply List.getElem?_eq_none; simp; omega
      simp [List.getElem?_replicate, hb, hr]
  rw [List.take_of_length_le (by omega), e, bucketed, List.flatMap]



/-! ## Stable bucket order -/

theorem mem_bucketed {kf : Nat → Nat} {N : Nat} {order : List Nat} {i : Nat} :
    i ∈ bucketed kf N order ↔ i ∈ order ∧ kf i < N := by
  simp only [bucketed, List.mem_flatMap, List.mem_range, List.mem_filter, decide_eq_true_eq]
  constructor
  · rintro ⟨b, hb, hi, rfl⟩
    exact ⟨hi, hb⟩
  · rintro ⟨hi, hb⟩
    exact ⟨kf i, hb, hi, rfl⟩

/-- When two members in different buckets are ordered by their bucket numbers and two members
of one bucket keep the order they had, the bucketed list is ordered. -/
theorem pairwise_bucketed {kf : Nat → Nat} {N : Nat} {order : List Nat}
    {R R1 : Nat → Nat → Prop} (hR : order.Pairwise R)
    (hlt : ∀ i ∈ order, ∀ j ∈ order, kf i < kf j → R1 i j)
    (heq : ∀ i ∈ order, ∀ j ∈ order, kf i = kf j → R i j → R1 i j) :
    (bucketed kf N order).Pairwise R1 := by
  unfold bucketed
  rw [List.pairwise_flatMap]
  constructor
  · intro b _
    have h1 : (order.filter (fun i => decide (kf i = b))).Pairwise R := hR.filter _
    have h2 : ∀ i ∈ order.filter (fun i => decide (kf i = b)), kf i = b := by
      intro i hi
      simpa using (List.mem_filter.1 hi).2
    refine h1.imp_of_mem ?_
    intro x y hx hy hxy
    apply heq x (List.mem_filter.1 hx).1 y (List.mem_filter.1 hy).1 _ hxy
    rw [h2 x hx, h2 y hy]
  · have hr : (List.range N).Pairwise (· < ·) := List.pairwise_lt_range N
    refine hr.imp ?_
    intro b1 b2 hb x hx y hy
    have e1 : kf x = b1 := by simpa using (List.mem_filter.1 hx).2
    have e2 : kf y = b2 := by simpa using (List.mem_filter.1 hy).2
    apply hlt x (List.mem_filter.1 hx).1 y (List.mem_filter.1 hy).1
    omega

theorem bucketed_perm_filter (kf : Nat → Nat) (order : List Nat) : ∀ (N : Nat),
    (bucketed kf N order).Perm (order.filter (fun i => decide (kf i < N)))
  | 0 => by simp [bucketed]
  | N + 1 => by
    have ih := bucketed_perm_filter kf order N
    have e : bucketed kf (N + 1) order
        = bucketed kf N order ++ order.filter (fun i => decide (kf i = N)) := by
      simp [bucketed, List.range_succ, List.flatMap_append]
    rw [e]
    have hsplit := List.filter_append_perm (fun i => decide (kf i < N))
      (order.filter (fun i => decide (kf i < N + 1)))
    rw [List.filter_filter, List.filter_filter] at hsplit
    have e1 : order.filter (fun i => decide (kf i < N) && decide (kf i < N + 1))
        = order.filter (fun i => decide (kf i < N)) := by
      apply List.filter_congr
      intro i _
      by_cases h : kf i < N
      · have : kf i < N + 1 := by omega
        simp [h, this]
      · simp [h]
    have e2 : order.filter (fun i => (!decide (kf i < N)) && decide (kf i < N + 1))
        = order.filter (fun i => decide (kf i = N)) := by
      apply List.filter_congr
      intro i _
      by_cases h : kf i = N
      · have h1 : ¬ kf i < N := by omega
        have h2 : kf i < N + 1 := by omega
        simp [h, h1, h2]
      · by_cases h1 : kf i < N
        · simp [h, h1]
        · have h2 : ¬ kf i < N + 1 := by omega
          simp [h, h1, h2]
    rw [e1] at hsplit
    have hsplit2 : (order.filter (fun i => decide (kf i < N))
        ++ order.filter (fun i => decide (kf i = N))).Perm
        (order.filter (fun i => decide (kf i < N + 1))) := by
      rw [← e2]; exact hsplit
    exact (ih.append_right _).trans hsplit2

/-- A stable bucket sort rearranges the list when every bucket number is in range. -/
theorem bucketed_perm (kf : Nat → Nat) (N : Nat) (order : List Nat)
    (h : ∀ i ∈ order, kf i < N) : (bucketed kf N order).Perm order := by
  have := bucketed_perm_filter kf order N
  have e : order.filter (fun i => decide (kf i < N)) = order := by
    apply List.filter_eq_self.2
    intro i hi
    simpa using h i hi
  rwa [e] at this

/-! ## `sort_indices` and `bucket_sort` -/

theorem map_getD_range (S : List Int) : (List.range S.length).map (fun i => S.getD i 0) = S := by
  apply List.ext_getElem
  · simp
  · intro i h1 h2
    simp [List.getD_eq_getElem?_getD, List.getElem?_eq_getElem h2]

theorem map_getD_range_nat (r : List Nat) :
    (List.range r.length).map (fun i => r.getD i 0) = r := by
  apply List.ext_getElem
  · simp
  · intro i h1 h2
    simp [List.getD_eq_getElem?_getD, List.getElem?_eq_getElem h2]

/-- Order in which a stable sort of the positions of `S` lists two positions. -/
theorem sort_indices_stable (S : List Int)
    (hint : ∀ x ∈ S, INT_MIN ≤ x ∧ x ≤ INT_MAX)
    (hfit : ∀ x ∈ S, ∀ y ∈ S, x - y + 1 ≤ INT_MAX) :
    ∃ r, sort_indices S = .value r ∧ r.Perm (List.range S.length) ∧
      r.Pairwise (fun i j => S.getD i 0 < S.getD j 0 ∨ (S.getD i 0 = S.getD j 0 ∧ i < j)) := by
  by_cases hne : S = []
  · subst hne
    exact ⟨[], by decide, by simp, by simp⟩
  · obtain ⟨hb, hN, hNle⟩ := min_max_fits S hne hint hfit
    have hmin : INT_MIN = -2147483648 := rfl
    have hkey : ∀ i ∈ List.range S.length, ∃ x, S[i]? = some x ∧ x ∈ S ∧ S.getD i 0 = x := by
      intro i hi
      have hi2 : i < S.length := List.mem_range.1 hi
      exact ⟨S[i], List.getElem?_eq_getElem hi2, List.getElem_mem _,
        by simp [List.getD_eq_getElem?_getD, List.getElem?_eq_getElem hi2]⟩
    obtain ⟨indices1, he, hfl⟩ := push_indices_flatten (fun i => S[i]?)
      (min_max S (INT_MAX, INT_MIN)).1
      (fun i => (S.getD i 0 - (min_max S (INT_MAX, INT_MIN)).1).toNat)
      ((min_max S (INT_MAX, INT_MIN)).2 - (min_max S (INT_MAX, INT_MIN)).1 + 1).toNat
      (List.range S.length)
      (by
        intro i hi
        obtain ⟨x, hx, hxS, hxd⟩ := hkey i hi
        have h1 := hb x hxS
        have hw : wrap (x - (min_max S (INT_MAX, INT_MIN)).1)
            = x - (min_max S (INT_MAX, INT_MIN)).1 := by
          apply wrap_eq <;> omega
        refine ⟨x, hx, ?_, ?_, ?_⟩
        · rw [hw]; omega
        · rw [hw]; simp only [hxd]
        · simp only [hxd]; omega)
    have hneg : ¬ (min_max S (INT_MAX, INT_MIN)).2 - (min_max S (INT_MAX, INT_MIN)).1 + 1 < 0 := by
      obtain ⟨a, ha⟩ := List.exists_mem_of_ne_nil S hne
      have := hb a ha
      omega
    refine ⟨bucketed (fun i => (S.getD i 0 - (min_max S (INT_MAX, INT_MIN)).1).toNat)
      ((min_max S (INT_MAX, INT_MIN)).2 - (min_max S (INT_MAX, INT_MIN)).1 + 1).toNat
      (List.range S.length), ?_, ?_, ?_⟩
    · unfold sort_indices
      simp only [hN, hneg, if_false, he, hfl]
    · apply bucketed_perm
      intro i hi
      obtain ⟨x, hx, hxS, hxd⟩ := hkey i hi
      have h1 := hb x hxS
      simp only [hxd]; omega
    · apply pairwise_bucketed (List.pairwise_lt_range S.length)
      · intro i _ j _ hij
        left
        simp only at hij
        omega
      · intro i hi j hj hij hlt
        obtain ⟨x, -, hxS, hxd⟩ := hkey i hi
        obtain ⟨y, -, hyS, hyd⟩ := hkey j hj
        have h1 := hb x hxS
        have h2 := hb y hyS
        right
        simp only [hxd, hyd] at hij ⊢
        exact ⟨by omega, hlt⟩

theorem gather_eq (S : List Int) (r : List Nat) (hr : ∀ j ∈ r, j < S.length) :
    ∀ (order : List Nat), (∀ i ∈ order, i < r.length) →
    gather S r order = .value (order.map (fun i => S.getD (r.getD i 0) 0))
  | [], _ => rfl
  | i :: order, h => by
    have hi : i < r.length := h i (List.mem_cons_self _ _)
    have hj : r[i] < S.length := hr _ (List.getElem_mem _)
    have ih := gather_eq S r hr order (fun k hk => h k (List.mem_cons_of_mem _ hk))
    rw [gather]
    simp only [List.getElem?_eq_getElem hi, List.getElem?_eq_getElem hj, ih]
    simp [List.getD_eq_getElem?_getD, List.getElem?_eq_getElem hi,
      List.getElem?_eq_getElem hj]

/-- The sorted vector is the original read along the sorted indices. -/
theorem bucket_sort_eq (S : List Int) (r : List Nat) (h : sort_indices S = .value r)
    (hp : r.Perm (List.range S.length)) :
    bucket_sort S = .value (r.map (fun j => S.getD j 0)) := by
  have hl : r.length = S.length := by simpa using hp.length_eq
  have hr : ∀ j ∈ r, j < S.length := by
    intro j hj
    exact List.mem_range.1 (hp.mem_iff.1 hj)
  have hg := gather_eq S r hr (List.range S.length) (by
    intro i hi
    have := List.mem_range.1 hi
    omega)
  unfold bucket_sort
  simp only [h, hg]
  congr 1
  have := map_getD_range_nat r
  rw [hl] at this
  conv_rhs => rw [← this]
  rw [List.map_map]
  rfl



/-! ## `sort_mapped_indices` and `radix_sort` -/

theorem column_min_max_eq (column : Nat) : ∀ (rows : List (List Int)) (mM : Int × Int),
    (∀ row ∈ rows, column < row.length) →
    column_min_max column rows mM = .value (min_max (rows.map (fun r => r.getD column 0)) mM)
  | [], mM, _ => rfl
  | row :: rows, (m, M), h => by
    have hc : column < row.length := h row (List.mem_cons_self _ _)
    have ih := column_min_max_eq column rows (min row[column] m, max row[column] M)
      (fun r hr => h r (List.mem_cons_of_mem _ hr))
    rw [column_min_max]
    simp only [List.getElem?_eq_getElem hc, ih, List.map_cons, min_max]
    simp [List.getD_eq_getElem?_getD, List.getElem?_eq_getElem hc]

theorem row_at_mem {seq : List (List Int)} {i : Nat} (hi : i < seq.length) :
    row_at seq i ∈ seq ∧ seq[i]? = some (row_at seq i) := by
  unfold row_at
  simp [List.getD_eq_getElem?_getD, List.getElem?_eq_getElem hi]

theorem drop_eq_getD_cons (row : List Int) (c : Nat) (hc : c < row.length) :
    row.drop c = row.getD c 0 :: row.drop (c + 1) := by
  rw [List.drop_eq_getElem_cons hc]
  simp [List.getD_eq_getElem?_getD, List.getElem?_eq_getElem hc]

/-- One pass of the radix sort: given the indices stably ordered by the columns after `c`,
the pass on column `c` orders them stably by the columns from `c` on. -/
theorem sort_mapped_indices_pass (seq : List (List Int)) (L c : Nat) (im : List Nat)
    (hne : seq ≠ []) (hrows : ∀ row ∈ seq, row.length = L) (hc : c < L)
    (hint : ∀ row ∈ seq, ∀ x ∈ row, INT_MIN ≤ x ∧ x ≤ INT_MAX)
    (hfit : ∀ r1 ∈ seq, ∀ r2 ∈ seq, r1.getD c 0 - r2.getD c 0 + 1 ≤ INT_MAX)
    (hperm : im.Perm (List.range seq.length))
    (hpw : im.Pairwise (stable_before seq (c + 1))) :
    ∃ im1, sort_mapped_indices seq im c = .value im1 ∧ im1.Perm (List.range seq.length) ∧
      im1.Pairwise (stable_before seq c) := by
  have hcol : ∀ row ∈ seq, c < row.length := by
    intro row hrow; rw [hrows row hrow]; exact hc
  have hcm := column_min_max_eq c seq (INT_MAX, INT_MIN) hcol
  have hmin : INT_MIN = -2147483648 := rfl
  have hxs_ne : seq.map (fun r => r.getD c 0) ≠ [] := by
    intro h; exact hne (List.map_eq_nil_iff.1 h)
  have hget : ∀ row ∈ seq, row.getD c 0 ∈ row := by
    intro row hrow
    have := hcol row hrow
    simp [List.getD_eq_getElem?_getD, List.getElem?_eq_getElem this]
  obtain ⟨hb, hN, hNle⟩ := min_max_fits (seq.map (fun r => r.getD c 0)) hxs_ne
    (by
      intro x hx
      obtain ⟨row, hrow, rfl⟩ := List.mem_map.1 hx
      exact hint row hrow _ (hget row hrow))
    (by
      intro x hx y hy
      obtain ⟨r1, hr1, rfl⟩ := List.mem_map.1 hx
      obtain ⟨r2, hr2, rfl⟩ := List.mem_map.1 hy
      exact hfit r1 hr1 r2 hr2)
  generalize hmM : min_max (seq.map (fun r => r.getD c 0)) (INT_MAX, INT_MIN) = mM at hb hN hNle hcm
  obtain ⟨m, M⟩ := mM
  simp only at hb hN hNle
  have hkey : ∀ i ∈ im, entry seq c i = some ((row_at seq i).getD c 0) ∧
      m ≤ (row_at seq i).getD c 0 ∧ (row_at seq i).getD c 0 ≤ M ∧ row_at seq i ∈ seq := by
    intro i hi
    have hi2 : i < seq.length := List.mem_range.1 (hperm.mem_iff.1 hi)
    obtain ⟨hmem, hsome⟩ := row_at_mem hi2
    have hcl := hcol _ hmem
    have hbx := hb ((row_at seq i).getD c 0) (List.mem_map.2 ⟨_, hmem, rfl⟩)
    refine ⟨?_, hbx.1, hbx.2, hmem⟩
    unfold entry
    simp only [hsome]
    simp [List.getD_eq_getElem?_getD, List.getElem?_eq_getElem hcl]
  obtain ⟨indices1, he, hfl⟩ := push_indices_flatten (entry seq c) m
    (fun i => ((row_at seq i).getD c 0 - m).toNat) (M - m + 1).toNat im
    (by
      intro i hi
      obtain ⟨h1, h2, h3, -⟩ := hkey i hi
      have hw : wrap ((row_at seq i).getD c 0 - m) = (row_at seq i).getD c 0 - m := by
        apply wrap_eq <;> omega
      refine ⟨_, h1, ?_, ?_, ?_⟩
      · rw [hw]; omega
      · rw [hw]
      · simp only; omega)
  have hneg : ¬ M - m + 1 < 0 := by
    obtain ⟨a, ha⟩ := List.exists_mem_of_ne_nil _ hxs_ne
    have := hb a ha
    omega
  have hbp : (bucketed (fun i => ((row_at seq i).getD c 0 - m).toNat) (M - m + 1).toNat im).Perm
      im := by
    apply bucketed_perm
    intro i hi
    obtain ⟨-, h2, h3, -⟩ := hkey i hi
    omega
  have hlen : (bucketed (fun i => ((row_at seq i).getD c 0 - m).toNat) (M - m + 1).toNat
      im).length = seq.length := by
    rw [hbp.length_eq, hperm.length_eq, List.length_range]
  refine ⟨bucketed (fun i => ((row_at seq i).getD c 0 - m).toNat) (M - m + 1).toNat im,
    ?_, hbp.trans hperm, ?_⟩
  · unfold sort_mapped_indices
    simp only [hcm, hN, hneg, if_false, he, hfl, hlen, if_true]
  · apply pairwise_bucketed hpw
    · intro i hi j hj hij
      obtain ⟨-, h2, -, hmi⟩ := hkey i hi
      obtain ⟨-, h2j, -, hmj⟩ := hkey j hj
      left
      rw [drop_eq_getD_cons _ c (hcol _ hmi), drop_eq_getD_cons _ c (hcol _ hmj)]
      apply List.Lex.rel
      simp only at hij
      omega
    · intro i hi j hj hij hR
      obtain ⟨-, h2, -, hmi⟩ := hkey i hi
      obtain ⟨-, h2j, -, hmj⟩ := hkey j hj
      have heq : (row_at seq i).getD c 0 = (row_at seq j).getD c 0 := by
        simp only at hij
        omega
      unfold stable_before
      rw [drop_eq_getD_cons _ c (hcol _ hmi), drop_eq_getD_cons _ c (hcol _ hmj), heq]
      rcases hR with hR | ⟨hR, hlt⟩
      · left; exact List.Lex.cons hR
      · right; exact ⟨by rw [hR], hlt⟩

/-- The passes over the columns `c - 1, ..., 0` turn a stable order by the columns from `c` on
into a stable order by all columns. -/
theorem radix_passes_spec (seq : List (List Int)) (L : Nat)
    (hne : seq ≠ []) (hrows : ∀ row ∈ seq, row.length = L)
    (hint : ∀ row ∈ seq, ∀ x ∈ row, INT_MIN ≤ x ∧ x ≤ INT_MAX)
    (hfit : ∀ c, c < L → ∀ r1 ∈ seq, ∀ r2 ∈ seq, r1.getD c 0 - r2.getD c 0 + 1 ≤ INT_MAX) :
    ∀ (c : Nat) (im : List Nat), c ≤ L → im.Perm (List.range seq.length) →
    im.Pairwise (stable_before seq c) →
    ∃ im1, radix_passes seq c im = .value im1 ∧ im1.Perm (List.range seq.length) ∧
      im1.Pairwise (stable_before seq 0)
  | 0, im, _, hperm, hpw => ⟨im, rfl, hperm, hpw⟩
  | c + 1, im, hc, hperm, hpw => by
    obtain ⟨im1, he, hp1, hpw1⟩ := sort_mapped_indices_pass seq L c im hne hrows (by omega)
      hint (hfit c (by omega)) hperm hpw
    obtain ⟨im2, he2, hp2, hpw2⟩ := radix_passes_spec seq L hne hrows hint hfit c im1
      (by omega) hp1 hpw1
    refine ⟨im2, ?_, hp2, hpw2⟩
    rw [radix_passes]
    simp only [he, he2]

theorem gather_rows_eq (seq : List (List Int)) : ∀ (im : List Nat),
    (∀ i ∈ im, i < seq.length) → gather_rows seq im = .value (im.map (row_at seq))
  | [], _ => rfl
  | i :: im, h => by
    have hi : i < seq.length := h i (List.mem_cons_self _ _)
    have ih := gather_rows_eq seq im (fun k hk => h k (List.mem_cons_of_mem _ hk))
    rw [gather_rows]
    simp only [(row_at_mem hi).2, ih, List.map_cons]

theorem map_row_at_range (seq : List (List Int)) :
    (List.range seq.length).map (row_at seq) = seq := by
  apply List.ext_getElem
  · simp
  · intro i h1 h2
    simp [row_at, List.getD_eq_getElem?_getD, List.getElem?_eq_getElem h2]



/-! ## Claims about the linear-time sorts -/

/-- C8: for every vector of `int` values whose value range `max - min + 1` fits `int`,
`bucket_sort` returns with the vector sorted in non-decreasing order and holding a
permutation of its original elements.  (On the empty vector the bucket count
`INT_MIN - INT_MAX + 1` wraps to `2` and the vector stays empty.) -/
theorem bucket_sort_sorted_perm (S : List Int)
    (hint : ∀ x ∈ S, INT_MIN ≤ x ∧ x ≤ INT_MAX)
    (hfit : ∀ x ∈ S, ∀ y ∈ S, x - y + 1 ≤ INT_MAX) :
    ∃ T, bucket_sort S = .value T ∧ T.Sorted (· ≤ ·) ∧ T.Perm S := by
  obtain ⟨r, hr, hp, hpw⟩ := sort_indices_stable S hint hfit
  refine ⟨r.map (fun j => S.getD j 0), bucket_sort_eq S r hr hp, ?_, ?_⟩
  · unfold List.Sorted
    rw [List.pairwise_map]
    refine hpw.imp ?_
    intro i j h
    rcases h with h | ⟨h, -⟩ <;> omega
  · have := hp.map (fun j => S.getD j 0)
    rwa [map_getD_range] at this

/-- Instance of C8 on `[3, 1, 2, 1, 0, 3]`. -/
theorem bucket_sort_sorted_perm_witness :
    (∀ x ∈ ([3, 1, 2, 1, 0, 3] : List Int), INT_MIN ≤ x ∧ x ≤ INT_MAX) ∧
    (∀ x ∈ ([3, 1, 2, 1, 0, 3] : List Int), ∀ y ∈ ([3, 1, 2, 1, 0, 3] : List Int),
      x - y + 1 ≤ INT_MAX) ∧
    ∃ T, bucket_sort [3, 1, 2, 1, 0, 3] = .value T ∧ T.Sorted (· ≤ ·) ∧
      T.Perm [3, 1, 2, 1, 0, 3] :=
  ⟨by decide, by decide, bucket_sort_sorted_perm [3, 1, 2, 1, 0, 3] (by decide) (by decide)⟩

/-- C9 (as stated, refuted): on the one-column input with rows `[INT_MAX]` and `[INT_MIN]` the
bucket count `M - m + 1` wraps to `0` and the first bucket access is outside the bucket
vector; with rows `[0]` and `[INT_MIN]` the bucket count wraps to a negative number and the
bucket vector cannot be built. -/
theorem radix_sort_range_counterexample :
    radix_sort [[2147483647], [-2147483648]] = .fault .out_of_range ∧
    radix_sort [[0], [-2147483648]] = .fault .length_error := by
  decide

/-- C9 (amended): for every non-empty 2D vector of `int` values whose rows all have the same
length `L` and whose every column has a value range `max - min + 1` that fits `int`,
`radix_sort` replaces it with its rows read along a permutation `im` of the row indices that
lists `i` before `j` only when row `i` is lexicographically smaller than row `j` (column 0
most significant) or the two rows are equal and `i < j`; so the result is a permutation of
the rows in non-decreasing lexicographic order with equal rows in their original order. -/
theorem radix_sort_stable (seq : List (List Int)) (L : Nat) (hne : seq ≠ [])
    (hrows : ∀ row ∈ seq, row.length = L)
    (hint : ∀ row ∈ seq, ∀ x ∈ row, INT_MIN ≤ x ∧ x ≤ INT_MAX)
    (hfit : ∀ c, c < L → ∀ r1 ∈ seq, ∀ r2 ∈ seq, r1.getD c 0 - r2.getD c 0 + 1 ≤ INT_MAX) :
    ∃ im : List Nat, radix_sort seq = .value (im.map (row_at seq)) ∧
      im.Perm (List.range seq.length) ∧
      im.Pairwise (fun i j => List.Lex (· < ·) (row_at seq i) (row_at seq j) ∨
        (row_at seq i = row_at seq j ∧ i < j)) ∧
      (im.map (row_at seq)).Perm seq ∧
      (im.map (row_at seq)).Pairwise (fun a b => List.Lex (· < ·) a b ∨ a = b) := by
  have hpos : 0 < seq.length := List.length_pos.2 hne
  obtain ⟨hmem0, hsome0⟩ := row_at_mem hpos
  have hL0 : (row_at seq 0).length = L := hrows _ hmem0
  have hinit : (List.range seq.length).Pairwise (stable_before seq L) := by
    refine (List.pairwise_lt_range seq.length).imp_of_mem ?_
    intro i j hi hj hij
    have hi2 := row_at_mem (List.mem_range.1 hi)
    have hj2 := row_at_mem (List.mem_range.1 hj)
    right
    refine ⟨?_, hij⟩
    rw [List.drop_of_length_le (by rw [hrows _ hi2.1]),
      List.drop_of_length_le (by rw [hrows _ hj2.1])]
  obtain ⟨im, he, hp, hpw⟩ := radix_passes_spec seq L hne hrows hint hfit L
    (List.range seq.length) (le_refl _) (List.Perm.refl _) hinit
  have hg := gather_rows_eq seq im (fun i hi => List.mem_range.1 (hp.mem_iff.1 hi))
  have hpw0 : im.Pairwise (fun i j => List.Lex (· < ·) (row_at seq i) (row_at seq j) ∨
      (row_at seq i = row_at seq j ∧ i < j)) := by
    refine hpw.imp ?_
    intro i j h
    simpa [stable_before] using h
  refine ⟨im, ?_, hp, hpw0, ?_, ?_⟩
  · unfold radix_sort
    simp only [hsome0, hL0, he, hg]
  · have := hp.map (row_at seq)
    rwa [map_row_at_range] at this
  · rw [List.pairwise_map]
    refine hpw0.imp ?_
    intro i j h
    rcases h with h | ⟨h, -⟩
    · exact Or.inl h
    · exact Or.inr h

/-- Instance of C9 (amended) on five rows of two columns. -/
theorem radix_sort_stable_witness :
    ([[3, 1], [2, 9], [3, 0], [2, 9], [1, 5]] : List (List Int)) ≠ [] ∧
    (∀ row ∈ ([[3, 1], [2, 9], [3, 0], [2, 9], [1, 5]] : List (List Int)), row.length = 2) ∧
    (∀ row ∈ ([[3, 1], [2, 9], [3, 0], [2, 9], [1, 5]] : List (List Int)),
      ∀ x ∈ row, INT_MIN ≤ x ∧ x ≤ INT_MAX) ∧
    (∀ c, c < 2 → ∀ r1 ∈ ([[3, 1], [2, 9], [3, 0], [2, 9], [1, 5]] : List (List Int)),
      ∀ r2 ∈ ([[3, 1], [2, 9], [3, 0], [2, 9], [1, 5]] : List (List Int)),
      r1.getD c 0 - r2.getD c 0 + 1 ≤ INT_MAX) ∧
    ∃ im : List Nat, radix_sort [[3, 1], [2, 9], [3, 0], [2, 9], [1, 5]]
        = .value (im.map (row_at [[3, 1], [2, 9], [3, 0], [2, 9], [1, 5]])) ∧
      im.Perm (List.range ([[3, 1], [2, 9], [3, 0], [2, 9], [1, 5]] : List (List Int)).length) ∧
      im.Pairwise (fun i j =>
        List.Lex (· < ·) (row_at [[3, 1], [2, 9], [3, 0], [2, 9], [1, 5]] i)
          (row_at [[3, 1], [2, 9], [3, 0], [2, 9], [1, 5]] j) ∨
        (row_at [[3, 1], [2, 9], [3, 0], [2, 9], [1, 5]] i
          = row_at [[3, 1], [2, 9], [3, 0], [2, 9], [1, 5]] j ∧ i < j)) ∧
      (im.map (row_at [[3, 1], [2, 9], [3, 0], [2, 9], [1, 5]])).Perm
        [[3, 1], [2, 9], [3, 0], [2, 9], [1, 5]] ∧
      (im.map (row_at [[3, 1], [2, 9], [3, 0], [2, 9], [1, 5]])).Pairwise
        (fun a b => List.Lex (· < ·) a b ∨ a = b) :=
  ⟨by decide, by decide, by decide, by decide,
    radix_sort_stable [[3, 1], [2, 9], [3, 0], [2, 9], [1, 5]] 2 (by decide) (by decide)
      (by decide) (by decide)⟩


end FastSort

namespace FastSort

/-- C17: for every vector of `int` values of length `n` whose value range `max - min + 1`
fits `int`, `sort_indices` fills `sorted_indices` with a permutation of `0..n-1` along which
the element values are non-decreasing, and the indices of equal elements appear in increasing
order (the sort is stable). -/
theorem sort_indices_sorted_stable (S : List Int)
    (hint : ∀ x ∈ S, INT_MIN ≤ x ∧ x ≤ INT_MAX)
    (hfit : ∀ x ∈ S, ∀ y ∈ S, x - y + 1 ≤ INT_MAX) :
    ∃ r, sort_indices S = .value r ∧ r.Perm (List.range S.length) ∧
      r.Pairwise (fun i j => S.getD i 0 ≤ S.getD j 0) ∧
      r.Pairwise (fun i j => S.getD i 0 = S.getD j 0 → i < j) := by
  obtain ⟨r, hr, hp, hpw⟩ := sort_indices_stable S hint hfit
  refine ⟨r, hr, hp, hpw.imp ?_, hpw.imp ?_⟩
  · intro i j h
    rcases h with h | ⟨h, -⟩ <;> omega
  · intro i j h heq
    rcases h with h | ⟨-, h⟩
    · omega
    · exact h

/-- Instance of C17 on `[3, 1, 2, 1, 0, 3]`. -/
theorem sort_indices_sorted_stable_witness :
    (∀ x ∈ ([3, 1, 2, 1, 0, 3] : List Int), INT_MIN ≤ x ∧ x ≤ INT_MAX) ∧
    (∀ x ∈ ([3, 1, 2, 1, 0, 3] : List Int), ∀ y ∈ ([3, 1, 2, 1, 0, 3] : List Int),
      x - y + 1 ≤ INT_MAX) ∧
    ∃ r, sort_indices [3, 1, 2, 1, 0, 3] = .value r ∧
      r.Perm (List.range ([3, 1, 2, 1, 0, 3] : List Int).length) ∧
      r.Pairwise (fun i j =>
        ([3, 1, 2, 1, 0, 3] : List Int).getD i 0 ≤ ([3, 1, 2, 1, 0, 3] : List Int).getD j 0) ∧
      r.Pairwise (fun i j =>
        ([3, 1, 2, 1, 0, 3] : List Int).getD i 0 = ([3, 1, 2, 1, 0, 3] : List Int).getD j 0 →
          i < j) :=
  ⟨by decide, by decide, sort_indices_sorted_stable [3, 1, 2, 1, 0, 3] (by decide) (by decide)⟩

end FastSort

namespace MergeIntervals


/-! ## Order of the extremas -/

theorem not_after_iff (a b : Int × Bool) :
    not_after a b ↔ a.1 < b.1 ∨ (a.1 = b.1 ∧ (a.2 = true → b.2 = true)) := by
  unfold not_after sort_by_1_then_2
  by_cases h : b.1 = a.1
  · cases ha : a.2 <;> cases hb : b.2 <;> simp [h]
  · have h2 : b.1 ≠ a.1 := h
    simp only [ne_eq, h, not_false_eq_true, if_true, decide_eq_false_iff_not]
    omega

theorem not_after_total (a b : Int × Bool) : not_after a b ∨ not_after b a := by
  rw [not_after_iff, not_after_iff]
  cases a.2 <;> cases b.2 <;> simp <;> omega

theorem not_after_trans (a b c : Int × Bool) (h1 : not_after a b) (h2 : not_after b c) :
    not_after a c := by
  rw [not_after_iff] at h1 h2 ⊢
  revert h1 h2
  cases a.2 <;> cases b.2 <;> cases c.2 <;> simp <;> omega

theorem sorted_extremas_sorted (E : List (Int × Bool)) :
    (E.insertionSort not_after).Pairwise not_after := by
  haveI : IsTotal (Int × Bool) not_after := ⟨not_after_total⟩
  haveI : IsTrans (Int × Bool) not_after := ⟨not_after_trans⟩
  exact List.sorted_insertionSort not_after E

theorem sorted_extremas_perm (E : List (Int × Bool)) : (E.insertionSort not_after).Perm E :=
  List.perm_insertionSort not_after E

/-! ## The sweep -/

theorem sweep_append : ∀ (E : List (Int × Bool)) (c s : Int) (result : List (Int × Int)),
    sweep E c s result = result ++ sweep E c s []
  | [], c, s, result => by simp [sweep]
  | e :: E, c, s, result => by
    rw [sweep, sweep]
    by_cases he : e.2 = false
    · simp only [he, if_true]
      exact sweep_append E _ _ result
    · simp only [he, if_false]
      by_cases hc : c - 1 = 0
      · simp only [hc, if_true]
        rw [sweep_append E _ _ (result ++ [(s, e.1)]), sweep_append E _ _ ([] ++ [(s, e.1)])]
        simp
      · simp only [hc, if_false]
        exact sweep_append E _ _ result

theorem sweep_start (e : Int × Bool) (E : List (Int × Bool)) (c s : Int) (he : e.2 = false) :
    sweep (e :: E) c s [] = sweep E (c + 1) (if c = 0 then e.1 else s) [] := by
  rw [sweep]; simp only [he, if_true]

theorem sweep_end_emit (e : Int × Bool) (E : List (Int × Bool)) (c s : Int) (he : e.2 = true)
    (hc : c = 1) : sweep (e :: E) c s [] = (s, e.1) :: sweep E 0 s [] := by
  rw [sweep]
  have h2 : c - 1 = 0 := by omega
  simp only [he, Bool.true_eq_false, if_false, h2, if_true, List.nil_append]
  rw [sweep_append]
  rfl

theorem sweep_end_skip (e : Int × Bool) (E : List (Int × Bool)) (c s : Int) (he : e.2 = true)
    (hc : c ≠ 1) : sweep (e :: E) c s [] = sweep E (c - 1) s [] := by
  rw [sweep]
  have h2 : ¬ c - 1 = 0 := by omega
  simp only [he, Bool.true_eq_false, if_false, h2]

theorem starts_le_eq_zero {x : Int} {E : List (Int × Bool)}
    (h : ∀ e ∈ E, e.2 = false → x < e.1) : starts_le x E = 0 := by
  unfold starts_le
  rw [List.countP_eq_zero]
  intro e he
  cases h2 : e.2
  · have := h e he h2
    simp only [Bool.not_false, Bool.true_and, decide_eq_true_eq]; omega
  · simp

theorem ends_lt_eq_zero {x : Int} {E : List (Int × Bool)}
    (h : ∀ e ∈ E, e.2 = true → x ≤ e.1) : ends_lt x E = 0 := by
  unfold ends_lt
  rw [List.countP_eq_zero]
  intro e he
  cases h2 : e.2
  · simp
  · have := h e he h2
    simp only [Bool.true_and, decide_eq_true_eq]; omega

theorem starts_le_cons (x : Int) (e : Int × Bool) (E : List (Int × Bool)) :
    starts_le x (e :: E) = starts_le x E + (if e.2 = false ∧ e.1 ≤ x then 1 else 0) := by
  unfold starts_le
  rw [List.countP_cons]
  cases e.2 <;> simp

theorem ends_lt_cons (x : Int) (e : Int × Bool) (E : List (Int × Bool)) :
    ends_lt x (e :: E) = ends_lt x E + (if e.2 = true ∧ e.1 < x then 1 else 0) := by
  unfold ends_lt
  rw [List.countP_cons]
  cases e.2 <;> simp

/-- After an end at `y`, every later start lies strictly above `y` and every later extrema
at or above `y`. -/
theorem after_event {e : Int × Bool} {E : List (Int × Bool)}
    (hs : (e :: E).Pairwise not_after) :
    (∀ a ∈ E, e.1 ≤ a.1) ∧ (e.2 = true → ∀ a ∈ E, a.2 = false → e.1 < a.1) := by
  have h := (List.pairwise_cons.1 hs).1
  constructor
  · intro a ha
    have := (not_after_iff e a).1 (h a ha)
    omega
  · intro he a ha ha2
    have := (not_after_iff e a).1 (h a ha)
    rcases this with h1 | ⟨-, h2⟩
    · exact h1
    · have := h2 he
      rw [ha2] at this
      cases this



theorem covered_cons (x : Int) (p : Int × Int) (l : List (Int × Int)) :
    covered x (p :: l) ↔ (p.1 ≤ x ∧ x ≤ p.2) ∨ covered x l := by
  simp [covered]

theorem starts_le_cons_start (x : Int) (e : Int × Bool) (E : List (Int × Bool))
    (he : e.2 = false) :
    (e.1 ≤ x → starts_le x (e :: E) = starts_le x E + 1) ∧
    (x < e.1 → starts_le x (e :: E) = starts_le x E) ∧
    ends_lt x (e :: E) = ends_lt x E := by
  rw [starts_le_cons, ends_lt_cons]
  simp only [he, Bool.false_eq_true, false_and, true_and, if_false, Nat.add_zero]
  refine ⟨fun h => by simp [h], fun h => ?_, trivial⟩
  have : ¬ e.1 ≤ x := by omega
  simp [this]

theorem ends_lt_cons_end (x : Int) (e : Int × Bool) (E : List (Int × Bool))
    (he : e.2 = true) :
    (e.1 < x → ends_lt x (e :: E) = ends_lt x E + 1) ∧
    (x ≤ e.1 → ends_lt x (e :: E) = ends_lt x E) ∧
    starts_le x (e :: E) = starts_le x E := by
  rw [starts_le_cons, ends_lt_cons]
  simp only [he, Bool.true_eq_false, false_and, true_and, if_false, Nat.add_zero]
  refine ⟨fun h => by simp [h], fun h => ?_, trivial⟩
  have : ¬ e.1 < x := by omega
  simp [this]

/-- What the sweep covers: from a state with `c` open intervals, the first of which started
at `s`, a number `x` is in a produced interval exactly when it is not below `s` (if `c > 0`)
and the number of intervals open at `x` is positive. -/
theorem sweep_covered : ∀ (E : List (Int × Bool)) (c s : Int),
    E.Pairwise not_after → balanced c E → 0 ≤ c → (0 < c → ∀ e ∈ E, s ≤ e.1) →
    ∀ x, covered x (sweep E c s []) ↔
      ((0 < c → s ≤ x) ∧ 0 < c + (starts_le x E : Int) - (ends_lt x E : Int))
  | [], c, s, _, hb, _, _ => by
    intro x
    simp only [balanced] at hb
    subst hb
    simp [sweep, covered, starts_le, ends_lt]
  | e :: E, c, s, hs, hb, hc, hlo => by
    intro x
    have hs1 := (List.pairwise_cons.1 hs).2
    obtain ⟨hge, hgt⟩ := after_event hs
    rw [balanced] at hb
    by_cases he : e.2 = false
    · simp only [he, if_true] at hb
      obtain ⟨c1, c2, c3⟩ := starts_le_cons_start x e E he
      rw [sweep_start e E c s he]
      have ih := sweep_covered E (c + 1) (if c = 0 then e.1 else s) hs1 hb (by omega)
        (by
          intro _ a ha
          split_ifs with h0
          · exact hge a ha
          · exact hlo (by omega) a (List.mem_cons_of_mem _ ha)) x
      rw [ih, c3]
      by_cases hx : e.1 ≤ x
      · have c1 := c1 hx
        by_cases h0 : c = 0
        · rw [if_pos h0]; omega
        · have := hlo (by omega) e (List.mem_cons_self _ _)
          rw [if_neg h0]; omega
      · have c2 := c2 (by omega)
        have S0 : starts_le x E = 0 := starts_le_eq_zero (fun a ha _ => by
          have := hge a ha; omega)
        have E0 : ends_lt x E = 0 := ends_lt_eq_zero (fun a ha _ => by
          have := hge a ha; omega)
        by_cases h0 : c = 0
        · rw [if_pos h0]; omega
        · have := hlo (by omega) e (List.mem_cons_self _ _)
          rw [if_neg h0]; omega
    · have he : e.2 = true := by simpa using he
      simp only [he, Bool.true_eq_false, if_false] at hb
      obtain ⟨hc1, hb⟩ := hb
      obtain ⟨c1, c2, c3⟩ := ends_lt_cons_end x e E he
      have hse : s ≤ e.1 := hlo (by omega) e (List.mem_cons_self _ _)
      have hgt2 := hgt he
      by_cases h1 : c = 1
      · rw [sweep_end_emit e E c s he h1, covered_cons]
        have hb0 : balanced 0 E := by
          have : c - 1 = 0 := by omega
          rwa [this] at hb
        have ih := sweep_covered E 0 s hs1 hb0 (le_refl _) (by intro h; omega) x
        rw [ih, c3]
        by_cases hx : e.1 < x
        · have c1 := c1 hx
          simp only
          omega
        · have c2 := c2 (by omega)
          have S0 : starts_le x E = 0 := starts_le_eq_zero (fun a ha h2 => by
            have := hgt2 a ha h2; omega)
          have E0 : ends_lt x E = 0 := ends_lt_eq_zero (fun a ha _ => by
            have := hge a ha; omega)
          simp only
          omega
      · rw [sweep_end_skip e E c s he h1]
        have ih := sweep_covered E (c - 1) s hs1 hb (by omega)
          (by intro _ a ha; exact hlo (by omega) a (List.mem_cons_of_mem _ ha)) x
        rw [ih, c3]
        by_cases hx : e.1 < x
        · have c1 := c1 hx
          omega
        · have c2 := c2 (by omega)
          have S0 : starts_le x E = 0 := starts_le_eq_zero (fun a ha h2 => by
            have := hgt2 a ha h2; omega)
          have E0 : ends_lt x E = 0 := ends_lt_eq_zero (fun a ha _ => by
            have := hge a ha; omega)
          omega



/-- The intervals produced by the sweep are well formed, pairwise separated, and each one
starts at `s` (possible only when an interval is open) or at a start of the list. -/
theorem sweep_ordered : ∀ (E : List (Int × Bool)) (c s : Int),
    E.Pairwise not_after → balanced c E → 0 ≤ c → (0 < c → ∀ e ∈ E, s ≤ e.1) →
    (sweep E c s []).Pairwise (fun p q => p.2 < q.1) ∧
    (∀ p ∈ sweep E c s [], p.1 ≤ p.2) ∧
    (∀ p ∈ sweep E c s [], (0 < c ∧ p.1 = s) ∨ (∃ e ∈ E, e.2 = false ∧ e.1 = p.1))
  | [], c, s, _, _, _, _ => by simp [sweep]
  | e :: E, c, s, hs, hb, hc, hlo => by
    have hs1 := (List.pairwise_cons.1 hs).2
    obtain ⟨hge, hgt⟩ := after_event hs
    rw [balanced] at hb
    by_cases he : e.2 = false
    · simp only [he, if_true] at hb
      rw [sweep_start e E c s he]
      obtain ⟨ih1, ih2, ih3⟩ := sweep_ordered E (c + 1) (if c = 0 then e.1 else s) hs1 hb
        (by omega)
        (by
          intro _ a ha
          split_ifs with h0
          · exact hge a ha
          · exact hlo (by omega) a (List.mem_cons_of_mem _ ha))
      refine ⟨ih1, ih2, ?_⟩
      intro p hp
      rcases ih3 p hp with ⟨-, h⟩ | ⟨a, ha, h1, h2⟩
      · by_cases h0 : c = 0
        · rw [if_pos h0] at h
          exact Or.inr ⟨e, List.mem_cons_self _ _, he, h.symm⟩
        · rw [if_neg h0] at h
          exact Or.inl ⟨by omega, h⟩
      · exact Or.inr ⟨a, List.mem_cons_of_mem _ ha, h1, h2⟩
    · have he : e.2 = true := by simpa using he
      simp only [he, Bool.true_eq_false, if_false] at hb
      obtain ⟨hc1, hb⟩ := hb
      have hse : s ≤ e.1 := hlo (by omega) e (List.mem_cons_self _ _)
      have hgt2 := hgt he
      by_cases h1 : c = 1
      · rw [sweep_end_emit e E c s he h1]
        have hb0 : balanced 0 E := by
          have : c - 1 = 0 := by omega
          rwa [this] at hb
        obtain ⟨ih1, ih2, ih3⟩ := sweep_ordered E 0 s hs1 hb0 (le_refl _) (by intro h; omega)
        refine ⟨List.pairwise_cons.2 ⟨?_, ih1⟩, ?_, ?_⟩
        · intro q hq
          rcases ih3 q hq with ⟨h, -⟩ | ⟨a, ha, h2, h3⟩
          · omega
          · have := hgt2 a ha h2
            simp only
            omega
        · intro p hp
          rcases List.mem_cons.1 hp with rfl | hp
          · exact hse
          · exact ih2 p hp
        · intro p hp
          rcases List.mem_cons.1 hp with rfl | hp
          · exact Or.inl ⟨by omega, rfl⟩
          · rcases ih3 p hp with ⟨h, -⟩ | ⟨a, ha, h2, h3⟩
            · omega
            · exact Or.inr ⟨a, List.mem_cons_of_mem _ ha, h2, h3⟩
      · rw [sweep_end_skip e E c s he h1]
        obtain ⟨ih1, ih2, ih3⟩ := sweep_ordered E (c - 1) s hs1 hb (by omega)
          (by intro _ a ha; exact hlo (by omega) a (List.mem_cons_of_mem _ ha))
        refine ⟨ih1, ih2, ?_⟩
        intro p hp
        rcases ih3 p hp with ⟨h, h2⟩ | ⟨a, ha, h2, h3⟩
        · exact Or.inl ⟨by omega, h2⟩
        · exact Or.inr ⟨a, List.mem_cons_of_mem _ ha, h2, h3⟩

/-! ## The extremas of a list of intervals -/

theorem extremas_of_cons (p : Int × Int) (v : List (Int × Int)) :
    extremas_of (p :: v) = (p.1, false) :: (p.2, true) :: extremas_of v := by
  simp [extremas_of]

theorem extremas_counts : ∀ (v : List (Int × Int)), (∀ p ∈ v, p.1 ≤ p.2) →
    starts (extremas_of v) = ends (extremas_of v) ∧
    (∀ y, ends_le y (extremas_of v) ≤ starts_le y (extremas_of v)) ∧
    (∀ x, 0 < (starts_le x (extremas_of v) : Int) - (ends_lt x (extremas_of v) : Int)
      ↔ covered x v)
  | [], _ => by simp [extremas_of, starts, ends, ends_le, starts_le, ends_lt, covered]
  | p :: v, h => by
    have hp : p.1 ≤ p.2 := h p (List.mem_cons_self _ _)
    obtain ⟨ih1, ih2, ih3⟩ := extremas_counts v (fun q hq => h q (List.mem_cons_of_mem _ hq))
    have hnn : ∀ x, (ends_lt x (extremas_of v) : Int) ≤ starts_le x (extremas_of v) := by
      intro x
      have h1 := ih2 x
      have h2 : ends_lt x (extremas_of v) ≤ ends_le x (extremas_of v) := by
        unfold ends_lt ends_le
        apply List.countP_mono_left
        intro e _ he
        simp only [Bool.and_eq_true, decide_eq_true_eq] at he ⊢
        exact ⟨he.1, by omega⟩
      omega
    rw [extremas_of_cons]
    refine ⟨?_, ?_, ?_⟩
    · simp only [starts, ends, List.countP_cons] at ih1 ⊢
      simp
      omega
    · intro y
      have := ih2 y
      simp only [ends_le, starts_le, List.countP_cons] at this ⊢
      simp only [Bool.not_false, Bool.true_and, Bool.not_true, Bool.false_and,
        Bool.false_eq_true, if_false, decide_eq_true_eq, Nat.add_zero]
      split_ifs <;> omega
    · intro x
      have := ih3 x
      have hn := hnn x
      rw [covered] at this
      rw [covered]
      simp only [List.mem_cons, exists_eq_or_imp]
      rw [← this]
      rw [starts_le_cons, ends_lt_cons, starts_le_cons, ends_lt_cons]
      simp only [Bool.false_eq_true, Bool.true_eq_false, false_and, true_and, if_false,
        Nat.add_zero]
      split_ifs <;> omega

theorem starts_append (P R : List (Int × Bool)) : starts (P ++ R) = starts P + starts R :=
  List.countP_append _ _ _

theorem ends_append (P R : List (Int × Bool)) : ends (P ++ R) = ends P + ends R :=
  List.countP_append _ _ _

/-- In a sorted list of extremas in which no coordinate has seen more ends than starts, the
sweep never meets an end without an open interval. -/
theorem balanced_suffix (E : List (Int × Bool)) (hs : E.Pairwise not_after)
    (htot : starts E = ends E) (hcnt : ∀ y, ends_le y E ≤ starts_le y E) :
    ∀ (R P : List (Int × Bool)), P ++ R = E → balanced ((starts P : Int) - (ends P : Int)) R
  | [], P, h => by
    simp only [List.append_nil] at h
    subst h
    simp only [balanced]
    omega
  | e :: R, P, h => by
    have h2 : (P ++ [e]) ++ R = E := by simpa using h
    have ih := balanced_suffix E hs htot hcnt R (P ++ [e]) h2
    rw [starts_append, ends_append] at ih
    rw [balanced]
    by_cases he : e.2 = false
    · simp only [he, if_true]
      have e1 : starts [e] = 1 := by simp [starts, he]
      have e2 : ends [e] = 0 := by simp [ends, he]
      rw [e1, e2] at ih
      have : (starts P : Int) - (ends P : Int) + 1
          = ((starts P + 1 : Nat) : Int) - ((ends P + 0 : Nat) : Int) := by omega
      rw [this]; exact ih
    · have he : e.2 = true := by simpa using he
      simp only [he, Bool.true_eq_false, if_false]
      have e1 : starts [e] = 0 := by simp [starts, he]
      have e2 : ends [e] = 1 := by simp [ends, he]
      rw [e1, e2] at ih
      have hkey : ends P + 1 ≤ starts P := by
        subst h
        obtain ⟨hP, hR, hPR⟩ := List.pairwise_append.1 hs
        obtain ⟨-, hgt⟩ := after_event hR
        have hc := hcnt e.1
        have a1 : ends_le e.1 (P ++ e :: R) = ends_le e.1 P + ends_le e.1 (e :: R) :=
          List.countP_append _ _ _
        have a2 : starts_le e.1 (P ++ e :: R) = starts_le e.1 P + starts_le e.1 (e :: R) :=
          List.countP_append _ _ _
        have a3 : starts_le e.1 (e :: R) = 0 := by
          apply starts_le_eq_zero
          intro a ha ha2
          rcases List.mem_cons.1 ha with rfl | ha
          · rw [he] at ha2; cases ha2
          · exact hgt he a ha ha2
        have a4 : 1 ≤ ends_le e.1 (e :: R) := by
          unfold ends_le
          apply List.countP_pos_iff.2
          exact ⟨e, List.mem_cons_self _ _, by simp [he]⟩
        have a5 : starts_le e.1 P ≤ starts P := by
          unfold starts_le starts
          apply List.countP_mono_left
          intro a _ ha
          simp only [Bool.and_eq_true] at ha
          exact ha.1
        have a6 : ends P ≤ ends_le e.1 P := by
          unfold ends_le ends
          apply List.countP_mono_left
          intro a ha ha2
          have := (not_after_iff a e).1 (hPR a ha e (List.mem_cons_self _ _))
          simp only [Bool.and_eq_true, decide_eq_true_eq]
          exact ⟨ha2, by omega⟩
        omega
      refine ⟨by omega, ?_⟩
      have : (starts P : Int) - (ends P : Int) - 1
          = ((starts P + 0 : Nat) : Int) - ((ends P + 1 : Nat) : Int) := by omega
      rw [this]; exact ih



/-! ## Claim about the union of intervals -/

theorem sorted_extremas_balanced (v : List (Int × Int)) (hv : ∀ p ∈ v, p.1 ≤ p.2) :
    balanced 0 ((extremas_of v).insertionSort not_after) := by
  obtain ⟨h1, h2, -⟩ := extremas_counts v hv
  have hp := sorted_extremas_perm (extremas_of v)
  have htot : starts ((extremas_of v).insertionSort not_after)
      = ends ((extremas_of v).insertionSort not_after) := by
    unfold starts ends at h1 ⊢
    rw [hp.countP_eq, hp.countP_eq]; exact h1
  have hcnt : ∀ y, ends_le y ((extremas_of v).insertionSort not_after)
      ≤ starts_le y ((extremas_of v).insertionSort not_after) := by
    intro y
    have := h2 y
    unfold ends_le starts_le at this ⊢
    rw [hp.countP_eq, hp.countP_eq]; exact this
  have := balanced_suffix _ (sorted_extremas_sorted (extremas_of v)) htot hcnt
    ((extremas_of v).insertionSort not_after) [] (by simp)
  simpa [starts, ends] using this

/-- C10: for every list `v` of closed integer intervals with `first ≤ second`, an initially
empty `result` and any initial value of the uninitialised `start`, `solve` produces the union
of the intervals: every result interval is well formed, each one ends strictly before every
later one starts (so they are strictly increasing and pairwise disjoint), and a number lies in
some result interval iff it lies in some interval of `v`; `[1,2],[1,4],[2,3],[6,6],[9,12]`
gives `[1,4],[6,6],[9,12]`. -/
theorem solve_union (start0 : Int) (v : List (Int × Int)) (hv : ∀ p ∈ v, p.1 ≤ p.2) :
    (solve start0 v []).Pairwise (fun p q => p.2 < q.1) ∧
    (solve start0 v []).Pairwise (fun p q => p.1 < q.1 ∧ p.2 < q.2) ∧
    (∀ p ∈ solve start0 v [], p.1 ≤ p.2) ∧
    (∀ x, covered x (solve start0 v []) ↔ covered x v) ∧
    solve start0 [(1, 2), (1, 4), (2, 3), (6, 6), (9, 12)] [] = [(1, 4), (6, 6), (9, 12)] := by
  have hs := sorted_extremas_sorted (extremas_of v)
  have hb := sorted_extremas_balanced v hv
  have hp := sorted_extremas_perm (extremas_of v)
  obtain ⟨o1, o2, -⟩ := sweep_ordered _ 0 start0 hs hb (le_refl _) (by intro h; omega)
  have hc := sweep_covered _ 0 start0 hs hb (le_refl _) (by intro h; omega)
  obtain ⟨-, -, h3⟩ := extremas_counts v hv
  refine ⟨o1, ?_, o2, ?_, rfl⟩
  · refine o1.imp_of_mem ?_
    intro p q hp hq hpq
    have := o2 p hp
    have := o2 q hq
    constructor <;> omega
  · intro x
    have e1 : starts_le x ((extremas_of v).insertionSort not_after)
        = starts_le x (extremas_of v) := hp.countP_eq _
    have e2 : ends_lt x ((extremas_of v).insertionSort not_after)
        = ends_lt x (extremas_of v) := hp.countP_eq _
    have := hc x
    rw [e1, e2] at this
    unfold solve
    rw [this, ← h3 x]
    constructor
    · rintro ⟨-, h⟩; omega
    · intro h; exact ⟨by intro h0; omega, by omega⟩

/-- Instance of C10 on the intervals of `main`. -/
theorem solve_union_witness :
    (∀ p ∈ ([(1, 2), (1, 4), (2, 3), (6, 6), (9, 12)] : List (Int × Int)), p.1 ≤ p.2) ∧
    (solve 0 [(1, 2), (1, 4), (2, 3), (6, 6), (9, 12)] []).Pairwise (fun p q => p.2 < q.1) ∧
    (solve 0 [(1, 2), (1, 4), (2, 3), (6, 6), (9, 12)] []).Pairwise
      (fun p q => p.1 < q.1 ∧ p.2 < q.2) ∧
    (∀ p ∈ solve 0 [(1, 2), (1, 4), (2, 3), (6, 6), (9, 12)] [], p.1 ≤ p.2) ∧
    (∀ x, covered x (solve 0 [(1, 2), (1, 4), (2, 3), (6, 6), (9, 12)] [])
      ↔ covered x [(1, 2), (1, 4), (2, 3), (6, 6), (9, 12)]) ∧
    solve 0 [(1, 2), (1, 4), (2, 3), (6, 6), (9, 12)] [] = [(1, 4), (6, 6), (9, 12)] :=
  ⟨by decide, solve_union 0 [(1, 2), (1, 4), (2, 3), (6, 6), (9, 12)] (by decide)⟩


end MergeIntervals

namespace UnionSets


/-! ## Reading and writing the array of nodes -/

theorem par_of_getElem? {tree : List node} {i : Nat} {n : node} (h : tree[i]? = some n) :
    par tree i = n.parent := by
  simp [par, h]

theorem size_at_of_getElem? {tree : List node} {i : Nat} {n : node} (h : tree[i]? = some n) :
    size_at tree i = n.sz := by
  simp [size_at, h]

theorem val_at_of_getElem? {tree : List node} {i : Nat} {n : node} (h : tree[i]? = some n) :
    val_at tree i = n.val := by
  simp [val_at, h]

theorem par_out_of_range {tree : List node} {i : Nat} (h : tree.length ≤ i) :
    par tree i = i := by
  simp [par, List.getElem?_eq_none h]

theorem getElem?_set_node (tree : List node) (u : Nat) (m : node) (i : Nat)
    (hu : u < tree.length) :
    (tree.set u m)[i]? = if i = u then some m else tree[i]? := by
  rw [List.getElem?_set]
  by_cases h : u = i
  · subst h; simp [hu]
  · have h2 : ¬ i = u := fun e => h e.symm
    simp [h, h2]

/-- Writing the field `parent` of node `u`. -/
theorem set_parent_spec (tree : List node) (u r : Nat) (n : node) (h : tree[u]? = some n) :
    (∀ i, par (tree.set u { n with parent := r }) i = if i = u then r else par tree i) ∧
    (∀ i, size_at (tree.set u { n with parent := r }) i = size_at tree i) ∧
    (∀ i, val_at (tree.set u { n with parent := r }) i = val_at tree i) := by
  have hu : u < tree.length := by
    by_contra hc
    rw [List.getElem?_eq_none (by omega)] at h
    cases h
  refine ⟨fun i => ?_, fun i => ?_, fun i => ?_⟩
  · unfold par
    rw [getElem?_set_node tree u _ i hu]
    by_cases hi : i = u
    · simp [hi]
    · simp [hi]
  · unfold size_at
    rw [getElem?_set_node tree u _ i hu]
    by_cases hi : i = u
    · subst hi; simp [h]
    · simp [hi]
  · unfold val_at
    rw [getElem?_set_node tree u _ i hu]
    by_cases hi : i = u
    · subst hi; simp [h]
    · simp [hi]

/-- Writing the field `sz` of node `u`. -/
theorem set_sz_spec (tree : List node) (u s : Nat) (n : node) (h : tree[u]? = some n) :
    (∀ i, par (tree.set u { n with sz := s }) i = par tree i) ∧
    (∀ i, size_at (tree.set u { n with sz := s }) i = if i = u then s else size_at tree i) ∧
    (∀ i, val_at (tree.set u { n with sz := s }) i = val_at tree i) := by
  have hu : u < tree.length := by
    by_contra hc
    rw [List.getElem?_eq_none (by omega)] at h
    cases h
  refine ⟨fun i => ?_, fun i => ?_, fun i => ?_⟩
  · unfold par
    rw [getElem?_set_node tree u _ i hu]
    by_cases hi : i = u
    · subst hi; simp [h]
    · simp [hi]
  · unfold size_at
    rw [getElem?_set_node tree u _ i hu]
    by_cases hi : i = u
    · simp [hi]
    · simp [hi]
  · unfold val_at
    rw [getElem?_set_node tree u _ i hu]
    by_cases hi : i = u
    · subst hi; simp [h]
    · simp [hi]

/-! ## Paths to the root -/

theorem reaches_root_self {tree : List node} {i r d : Nat} (h : Reaches tree i r d) :
    par tree r = r := by
  induction h with
  | root i hi => exact hi
  | step i r d _ _ ih => exact ih

theorem reaches_unique {tree : List node} {i r d : Nat} (h : Reaches tree i r d) :
    ∀ {r1 d1 : Nat}, Reaches tree i r1 d1 → r1 = r ∧ d1 = d := by
  induction h with
  | root i hi =>
    intro r1 d1 h1
    cases h1 with
    | root _ _ => exact ⟨rfl, rfl⟩
    | step _ _ _ hne _ => exact absurd hi hne
  | step i r d hne _ ih =>
    intro r1 d1 h1
    cases h1 with
    | root _ hi => exact absurd hi hne
    | step _ _ d2 _ h2 =>
      obtain ⟨e1, e2⟩ := ih h2
      exact ⟨e1, by omega⟩

theorem root_aux_eq {tree : List node} {i r d : Nat} (h : Reaches tree i r d) :
    ∀ fuel, d ≤ fuel → root_aux fuel tree i = r := by
  induction h with
  | root i hi =>
    intro fuel _
    cases fuel with
    | zero => rfl
    | succ f => simp [root_aux, hi]
  | step i r d hne _ ih =>
    intro fuel hf
    cases fuel with
    | zero => omega
    | succ f =>
      simp only [root_aux, hne, if_false]
      exact ih f (by omega)

/-- Pointing node `u` directly at its root keeps every root and lengthens no path. -/
theorem reaches_compress {tree tree1 : List node} {u r du : Nat} (hu : Reaches tree u r du)
    (hpar : ∀ i, par tree1 i = if i = u then r else par tree i) :
    ∀ {i ri d : Nat}, Reaches tree i ri d → ∃ d1, d1 ≤ d ∧ Reaches tree1 i ri d1 := by
  have hr : par tree r = r := reaches_root_self hu
  intro i ri d h
  induction h with
  | root i hi =>
    refine ⟨0, le_refl _, Reaches.root i ?_⟩
    rw [hpar i]
    by_cases hiu : i = u
    · subst hiu
      have := (reaches_unique hu (Reaches.root i hi)).1
      simp [this]
    · simp [hiu, hi]
  | step i ri d hne hrest ih =>
    obtain ⟨d1, hd1, h1⟩ := ih
    by_cases hiu : i = u
    · subst hiu
      have e : ri = r := ((reaches_unique hu (Reaches.step i ri d hne hrest)).1)
      subst e
      have hrne : ri ≠ i := by
        intro e; rw [e] at hr; exact hne hr
      have hp1 : par tree1 i = ri := by rw [hpar i]; simp
      have hp2 : par tree1 ri = ri := by rw [hpar ri]; simp [hrne, hr]
      refine ⟨1, by omega, Reaches.step i ri 0 ?_ ?_⟩
      · rw [hp1]; exact hrne
      · rw [hp1]; exact Reaches.root ri hp2
    · have hp1 : par tree1 i = par tree i := by rw [hpar i]; simp [hiu]
      refine ⟨d1 + 1, by omega, Reaches.step i ri d1 ?_ ?_⟩
      · rw [hp1]; exact hne
      · rw [hp1]; exact h1

/-- Hanging the root `a` under the root `b` sends every node of the tree of `a` to `b`, one
step further, and leaves the other paths alone. -/
theorem reaches_link {tree tree1 : List node} {a b : Nat} (ha : par tree a = a)
    (hb : par tree b = b) (hab : a ≠ b)
    (hpar : ∀ i, par tree1 i = if i = a then b else par tree i) :
    ∀ {i ri d : Nat}, Reaches tree i ri d →
      Reaches tree1 i (if ri = a then b else ri) (if ri = a then d + 1 else d) := by
  have hb1 : par tree1 b = b := by
    rw [hpar b]; simp [Ne.symm hab, hb]
  intro i ri d h
  induction h with
  | root i hi =>
    by_cases hia : i = a
    · subst hia
      simp only [if_true]
      have hp : par tree1 i = b := by rw [hpar i]; simp
      refine Reaches.step i b 0 ?_ ?_
      · rw [hp]; exact Ne.symm hab
      · rw [hp]; exact Reaches.root b hb1
    · simp only [hia, if_false]
      refine Reaches.root i ?_
      rw [hpar i]; simp [hia, hi]
  | step i ri d hne hrest ih =>
    have hia : i ≠ a := by
      intro e; rw [e] at hne; exact hne ha
    have hp : par tree1 i = par tree i := by rw [hpar i]; simp [hia]
    by_cases hra : ri = a
    · simp only [hra, if_true] at ih ⊢
      refine Reaches.step i b (d + 1) ?_ ?_
      · rw [hp]; exact hne
      · rw [hp]; exact ih
    · simp only [hra, if_false] at ih ⊢
      refine Reaches.step i ri d ?_ ?_
      · rw [hp]; exact hne
      · rw [hp]; exact ih



/-! ## `find_parent` -/

theorem reaches_lt {tree : List node} {n : Nat} (hrange : ∀ i, i < n → par tree i < n)
    {i r d : Nat} (h : Reaches tree i r d) : i < n → r < n := by
  induction h with
  | root i _ => exact id
  | step i r d _ _ ih => exact fun hi => ih (hrange i hi)

theorem compressed_refl (tree : List node)
    (hrange : ∀ i, i < tree.length → par tree i < tree.length) : Compressed tree tree :=
  ⟨rfl, fun _ => rfl, fun _ => rfl, hrange, fun _ _ d h => ⟨d, le_refl _, h⟩⟩

theorem compressed_trans {t0 t1 t2 : List node} (h01 : Compressed t0 t1)
    (h12 : Compressed t1 t2) : Compressed t0 t2 := by
  obtain ⟨a1, a2, a3, _, a5⟩ := h01
  obtain ⟨b1, b2, b3, b4, b5⟩ := h12
  refine ⟨by rw [b1, a1], fun i => by rw [b2, a2], fun i => by rw [b3, a3], ?_, ?_⟩
  · intro i hi
    have := b4 i (by rw [a1]; exact hi)
    rwa [a1] at this
  · intro i r d h
    obtain ⟨d1, hd1, h1⟩ := a5 i r d h
    obtain ⟨d2, hd2, h2⟩ := b5 i r d1 h1
    exact ⟨d2, by omega, h2⟩

/-- Pointing node `u` at its root `r` is a compression. -/
theorem compressed_set_parent (tree : List node) (u r du : Nat) (n : node)
    (hrange : ∀ i, i < tree.length → par tree i < tree.length)
    (hn : tree[u]? = some n) (hu : Reaches tree u r du) (hr : r < tree.length) :
    Compressed tree (tree.set u { n with parent := r }) := by
  obtain ⟨hp, hs, hv⟩ := set_parent_spec tree u r n hn
  refine ⟨by simp, hv, hs, ?_, fun i ri d h => reaches_compress hu hp h⟩
  intro i hi
  rw [hp i]
  by_cases hiu : i = u
  · simp [hiu, hr]
  · simp only [hiu, if_false]; exact hrange i hi

/-- With a budget above the depth of `u`, `find_parent` returns the root of `u` and leaves a
compressed array. -/
theorem find_parent_aux_spec (tree : List node)
    (hrange : ∀ i, i < tree.length → par tree i < tree.length) :
    ∀ {u r d : Nat}, Reaches tree u r d → u < tree.length → ∀ fuel, d < fuel →
    ∃ tree1, find_parent_aux fuel tree u = .value (r, tree1) ∧ Compressed tree tree1 := by
  intro u r d h
  induction h with
  | root u hu =>
    intro hlt fuel hf
    obtain ⟨f, rfl⟩ : ∃ f, fuel = f + 1 := ⟨fuel - 1, by omega⟩
    have hget : tree[u]? = some tree[u] := List.getElem?_eq_getElem hlt
    have hp : (tree[u]).parent = u := by rw [← par_of_getElem? hget]; exact hu
    refine ⟨tree, ?_, compressed_refl tree hrange⟩
    rw [find_parent_aux]
    simp only [hget, hp, ne_eq, not_true_eq_false, if_false]
  | step u r d hne hrest ih =>
    intro hlt fuel hf
    obtain ⟨f, rfl⟩ : ∃ f, fuel = f + 1 := ⟨fuel - 1, by omega⟩
    have hget : tree[u]? = some tree[u] := List.getElem?_eq_getElem hlt
    have hp : (tree[u]).parent = par tree u := (par_of_getElem? hget).symm
    have hne2 : (tree[u]).parent ≠ u := by rw [hp]; exact hne
    obtain ⟨tree1, he, hc⟩ := ih (hrange u hlt) f (by omega)
    have hlt1 : u < tree1.length := by rw [hc.1]; exact hlt
    have hget1 : tree1[u]? = some tree1[u] := List.getElem?_eq_getElem hlt1
    obtain ⟨d1, -, hu1⟩ := hc.2.2.2.2 u r (d + 1) (Reaches.step u r d hne hrest)
    have hrange1 : ∀ i, i < tree1.length → par tree1 i < tree1.length := by
      intro i hi
      rw [hc.1] at hi ⊢
      exact hc.2.2.2.1 i hi
    have hr1 : r < tree1.length := reaches_lt hrange1 hu1 hlt1
    have hc2 := compressed_set_parent tree1 u r d1 tree1[u] hrange1 hget1 hu1 hr1
    refine ⟨tree1.set u { tree1[u] with parent := r }, ?_, compressed_trans hc hc2⟩
    rw [find_parent_aux]
    simp only [hget, hp, he, hget1, ne_eq, hne, not_false_eq_true, if_true]



/-! ## Paths of added edges -/

theorem joined_refl (E : List (Nat × Nat)) (a : Nat) : joined E a a :=
  Relation.EqvGen.refl a

theorem joined_symm {E : List (Nat × Nat)} {a b : Nat} (h : joined E a b) : joined E b a :=
  Relation.EqvGen.symm a b h

theorem joined_trans {E : List (Nat × Nat)} {a b c : Nat} (h1 : joined E a b)
    (h2 : joined E b c) : joined E a c :=
  Relation.EqvGen.trans a b c h1 h2

theorem joined_edge {E : List (Nat × Nat)} {a b : Nat} (h : (a, b) ∈ E) : joined E a b :=
  Relation.EqvGen.rel a b h

/-- A function that agrees on the two ends of every edge agrees on joined nodes. -/
theorem joined_imp_eq {E : List (Nat × Nat)} (f : Nat → Nat)
    (hf : ∀ x y, (x, y) ∈ E → f x = f y) {a b : Nat} (h : joined E a b) : f a = f b := by
  induction h with
  | rel x y hxy => exact hf x y hxy
  | refl x => rfl
  | symm x y _ ih => exact ih.symm
  | trans x y z _ _ ih1 ih2 => exact ih1.trans ih2

theorem joined_mono {E E1 : List (Nat × Nat)} (hsub : ∀ e, e ∈ E → e ∈ E1) {a b : Nat}
    (h : joined E a b) : joined E1 a b := by
  induction h with
  | rel x y hxy => exact joined_edge (hsub _ hxy)
  | refl x => exact joined_refl _ x
  | symm x y _ ih => exact joined_symm ih
  | trans x y z _ _ ih1 ih2 => exact joined_trans ih1 ih2

/-! ## The invariant -/

theorem filter_range_length_le (V : Nat) (p : Nat → Bool) :
    ((List.range V).filter p).length ≤ V := by
  have := List.length_filter_le p (List.range V)
  simpa using this

theorem filter_eq_range_length : ∀ (V r : Nat),
    ((List.range V).filter (fun i => decide (i = r))).length = if r < V then 1 else 0
  | 0, r => by simp
  | V + 1, r => by
    have ih := filter_eq_range_length V r
    rw [List.range_succ, List.filter_append, List.length_append, ih]
    by_cases h : V = r
    · subst h; simp
    · have h2 : ¬ r < V ↔ ¬ r < V + 1 := by omega
      by_cases h3 : r < V
      · have : r < V + 1 := by omega
        simp [h, h3, this]
      · have : ¬ r < V + 1 := by omega
        simp [h, h3, this]

theorem inv_root_fix {tree : List node} {V : Nat} {E : List (Nat × Nat)} {R : Nat → Nat}
    (hinv : Inv tree V E R) {r : Nat} (hr : par tree r = r) : R r = r := by
  obtain ⟨d, hd, -⟩ := hinv.2.2.2.1 r
  exact ((reaches_unique hd (Reaches.root r hr)).1).symm

/-- Every node is joined to its root. -/
theorem inv_joined_root {tree : List node} {V : Nat} {E : List (Nat × Nat)} {R : Nat → Nat}
    (hinv : Inv tree V E R) (i : Nat) : joined E i (R i) := by
  apply (hinv.2.2.2.2.2.1 i (R i)).1
  obtain ⟨d, hd, -⟩ := hinv.2.2.2.1 i
  exact (inv_root_fix hinv (reaches_root_self hd)).symm

theorem inv_depth_le {tree : List node} {V : Nat} {E : List (Nat × Nat)} {R : Nat → Nat}
    (hinv : Inv tree V E R) (i : Nat) : ∃ d, Reaches tree i (R i) d ∧ d ≤ V ∧ d < V + 1 := by
  obtain ⟨h1, h2, h3, h4, h5, h6, h7⟩ := hinv
  obtain ⟨d, hd, hb⟩ := h4 i
  by_cases hi : i < V
  · obtain ⟨hr, hsz⟩ := hb hi
    have := h5 (R i) hr (reaches_root_self hd)
    have := filter_range_length_le V (fun j => decide (R j = R i))
    exact ⟨d, hd, by omega, by omega⟩
  · have hp : par tree i = i := par_out_of_range (by omega)
    have := (reaches_unique hd (Reaches.root i hp)).2
    exact ⟨d, hd, by omega, by omega⟩

/-- Under the invariant the computed representative is the root. -/
theorem inv_root_of {tree : List node} {V : Nat} {E : List (Nat × Nat)} {R : Nat → Nat}
    (hinv : Inv tree V E R) (i : Nat) : root_of tree i = R i := by
  obtain ⟨d, hd, hle, -⟩ := inv_depth_le hinv i
  unfold root_of
  rw [hinv.1]
  exact root_aux_eq hd V hle

theorem inv_compressed {tree tree1 : List node} {V : Nat} {E : List (Nat × Nat)}
    {R : Nat → Nat} (hinv : Inv tree V E R) (hc : Compressed tree tree1) :
    Inv tree1 V E R := by
  obtain ⟨h1, h2, h3, h4, h5, h6, h7⟩ := hinv
  obtain ⟨c1, c2, c3, c4, c5⟩ := hc
  refine ⟨by rw [c1, h1], ?_, ?_, ?_, ?_, h6, h7⟩
  · intro i hi; rw [c2]; exact h2 i hi
  · intro i hi
    have := c4 i (by rw [h1]; exact hi)
    rwa [h1] at this
  · intro i
    obtain ⟨d, hd, hb⟩ := h4 i
    obtain ⟨d1, hd1, hr1⟩ := c5 i (R i) d hd
    refine ⟨d1, hr1, fun hi => ?_⟩
    obtain ⟨hr, hsz⟩ := hb hi
    rw [c3]
    exact ⟨hr, by omega⟩
  · intro r hr hpr
    rw [c3]
    apply h5 r hr
    obtain ⟨d, hd, -⟩ := h4 r
    obtain ⟨d1, -, hr1⟩ := c5 r (R r) d hd
    have e : R r = r := ((reaches_unique hr1 (Reaches.root r hpr)).1).symm
    rw [e] at hd
    exact reaches_root_self hd

/-- Under the invariant `find_parent(u)` returns the root of `u` and compresses the array. -/
theorem inv_find_parent {g : Graph} {E : List (Nat × Nat)} {R : Nat → Nat}
    (hinv : Inv g.tree g.V E R) {u : Nat} (hu : u < g.V) :
    ∃ tree1, g.find_parent u = .value (R u, { g with tree := tree1 }) ∧
      Compressed g.tree tree1 := by
  obtain ⟨d, hd, -, hlt⟩ := inv_depth_le hinv u
  have hlen := hinv.1
  have hrange : ∀ i, i < g.tree.length → par g.tree i < g.tree.length := by
    intro i hi
    rw [hlen] at hi ⊢
    exact hinv.2.2.1 i hi
  obtain ⟨tree1, he, hc⟩ := find_parent_aux_spec g.tree hrange hd (by omega)
    (g.tree.length + 1) (by omega)
  refine ⟨tree1, ?_, hc⟩
  unfold Graph.find_parent
  simp only [he]

theorem inv_init (V : Nat) : Inv (Graph.init V).tree V [] (fun i => i) := by
  have hget : ∀ i, i < V → (Graph.init V).tree[i]? = some { parent := i, val := i, sz := 1 } := by
    intro i hi
    simp [Graph.init, List.getElem?_range hi]
  have hlen : (Graph.init V).tree.length = V := by simp [Graph.init]
  have hpar : ∀ i, par (Graph.init V).tree i = i := by
    intro i
    by_cases hi : i < V
    · rw [par_of_getElem? (hget i hi)]
    · exact par_out_of_range (by omega)
  refine ⟨hlen, ?_, ?_, ?_, ?_, ?_, ?_⟩
  · intro i hi; rw [val_at_of_getElem? (hget i hi)]
  · intro i hi; rw [hpar i]; exact hi
  · intro i
    refine ⟨0, Reaches.root i (hpar i), fun hi => ⟨hi, ?_⟩⟩
    rw [size_at_of_getElem? (hget i hi)]
  · intro r hr _
    rw [size_at_of_getElem? (hget r hr), filter_eq_range_length V r]
    simp [hr]
  · intro i j
    constructor
    · intro h; subst h; exact joined_refl _ _
    · intro h
      exact joined_imp_eq (fun x => x) (fun x y hxy => by simp at hxy) h
  · intro e he; simp at he

/-- Adding an edge between two nodes of one tree changes nothing. -/
theorem inv_same_root {tree : List node} {V : Nat} {E : List (Nat × Nat)} {R : Nat → Nat}
    (hinv : Inv tree V E R) {u v : Nat} (hu : u < V) (hv : v < V) (huv : R u = R v) :
    Inv tree V (E ++ [(u, v)]) R := by
  obtain ⟨h1, h2, h3, h4, h5, h6, h7⟩ := hinv
  refine ⟨h1, h2, h3, h4, h5, ?_, ?_⟩
  · intro i j
    constructor
    · intro h
      exact joined_mono (fun e he => List.mem_append_left _ he) ((h6 i j).1 h)
    · intro h
      refine joined_imp_eq R ?_ h
      intro x y hxy
      rcases List.mem_append.1 hxy with hxy | hxy
      · exact (h6 x y).2 (joined_edge hxy)
      · simp only [List.mem_singleton, Prod.mk.injEq] at hxy
        rw [hxy.1, hxy.2]; exact huv
  · intro e he
    rcases List.mem_append.1 he with he | he
    · exact h7 e he
    · simp only [List.mem_singleton] at he
      subst he; exact ⟨hu, hv⟩



/-! ## `add_edge` -/

theorem filter_link_length (R : Nat → Nat) (a b : Nat) (hab : a ≠ b) : ∀ (l : List Nat),
    (l.filter (fun i => decide ((if R i = a then b else R i) = b))).length
      = (l.filter (fun i => decide (R i = b))).length
        + (l.filter (fun i => decide (R i = a))).length
  | [] => rfl
  | x :: l => by
    have ih := filter_link_length R a b hab l
    by_cases h1 : R x = a
    · have h2 : ¬ R x = b := by rw [h1]; exact hab
      have e1 : decide ((if R x = a then b else R x) = b) = true := by simp [h1]
      have e2 : decide (R x = b) = false := by simp [h2]
      have e3 : decide (R x = a) = true := by simp [h1]
      simp only [List.filter_cons, e1, e2, e3, if_true, Bool.false_eq_true, if_false,
        List.length_cons]
      omega
    · by_cases h2 : R x = b
      · have e1 : decide ((if R x = a then b else R x) = b) = true := by simp [h1, h2]
        have e2 : decide (R x = b) = true := by simp [h2]
        have e3 : decide (R x = a) = false := by simp [h1]
        simp only [List.filter_cons, e1, e2, e3, if_true, Bool.false_eq_true, if_false,
          List.length_cons]
        omega
      · have e1 : decide ((if R x = a then b else R x) = b) = false := by simp [h1, h2]
        have e2 : decide (R x = b) = false := by simp [h2]
        have e3 : decide (R x = a) = false := by simp [h1]
        simp only [List.filter_cons, e1, e2, e3, Bool.false_eq_true, if_false]
        exact ih

/-- Hanging the root `a` under the root `b` and adding the sizes, for an edge between the two
trees, keeps the invariant with every node of the tree of `a` now rooted at `b`. -/
theorem inv_link {tree tree3 : List node} {V : Nat} {E : List (Nat × Nat)} {R : Nat → Nat}
    (hinv : Inv tree V E R) {a b u v : Nat} (ha : a < V) (hb : b < V)
    (hpa : par tree a = a) (hpb : par tree b = b) (hab : a ≠ b)
    (hu : u < V) (hv : v < V) (huv : (R u = a ∧ R v = b) ∨ (R u = b ∧ R v = a))
    (hlen : tree3.length = V)
    (hpar : ∀ i, par tree3 i = if i = a then b else par tree i)
    (hsize : ∀ i, size_at tree3 i
      = if i = b then size_at tree b + size_at tree a else size_at tree i)
    (hval : ∀ i, val_at tree3 i = val_at tree i) :
    Inv tree3 V (E ++ [(u, v)]) (fun i => if R i = a then b else R i) := by
  have hRa : R a = a := inv_root_fix hinv hpa
  have hRb : R b = b := inv_root_fix hinv hpb
  have hjr : ∀ i, joined E i (R i) := inv_joined_root hinv
  obtain ⟨h1, h2, h3, h4, h5, h6, h7⟩ := hinv
  have hszb : 1 ≤ size_at tree b := by
    obtain ⟨d, hd, hbd⟩ := h4 b
    have := (hbd hb).2
    rw [hRb] at this
    omega
  have hjoin_ab : joined (E ++ [(u, v)]) a b := by
    have huR : joined E u (R u) := hjr u
    have hvR : joined E v (R v) := hjr v
    have hsub : ∀ e, e ∈ E → e ∈ E ++ [(u, v)] := fun e he => List.mem_append_left _ he
    have huR1 := joined_mono hsub huR
    have hvR1 := joined_mono hsub hvR
    have he : joined (E ++ [(u, v)]) u v := joined_edge (by simp)
    rcases huv with ⟨e1, e2⟩ | ⟨e1, e2⟩
    · rw [e1] at huR1; rw [e2] at hvR1
      exact joined_trans (joined_symm huR1) (joined_trans he hvR1)
    · rw [e1] at huR1; rw [e2] at hvR1
      exact joined_trans (joined_symm hvR1) (joined_trans (joined_symm he) huR1)
  refine ⟨hlen, ?_, ?_, ?_, ?_, ?_, ?_⟩
  · intro i hi; rw [hval]; exact h2 i hi
  · intro i hi
    rw [hpar i]
    by_cases hia : i = a
    · simp [hia, hb]
    · simp only [hia, if_false]; exact h3 i hi
  · intro i
    obtain ⟨d, hd, hbd⟩ := h4 i
    have hl := reaches_link hpa hpb hab hpar hd
    refine ⟨_, hl, fun hi => ?_⟩
    obtain ⟨hr, hsz⟩ := hbd hi
    by_cases hra : R i = a
    · simp only [hra, if_true]
      refine ⟨hb, ?_⟩
      rw [hsize b]
      simp only [if_true]
      rw [hra] at hsz
      omega
    · simp only [hra, if_false]
      refine ⟨hr, ?_⟩
      rw [hsize (R i)]
      by_cases hrb : R i = b
      · simp only [hrb, if_true]
        rw [hrb] at hsz
        omega
      · simp only [hrb, if_false]; exact hsz
  · intro r hr hpr
    have hra : r ≠ a := by
      intro e
      rw [e, hpar a] at hpr
      simp only [if_true] at hpr
      exact hab hpr.symm
    have hpr0 : par tree r = r := by
      rw [hpar r] at hpr
      simpa [hra] using hpr
    rw [hsize r]
    by_cases hrb : r = b
    · subst hrb
      simp only [if_true]
      rw [filter_link_length R a r hab, h5 r hb hpb, h5 a ha hpa]
    · simp only [hrb, if_false]
      rw [h5 r hr hpr0]
      congr 1
      apply List.filter_congr
      intro i _
      by_cases hia : R i = a
      · have : ¬ a = r := fun e => hra e.symm
        have h2 : ¬ b = r := fun e => hrb e.symm
        simp [hia, this, h2]
      · simp [hia]
  · intro i j
    constructor
    · intro h
      simp only at h
      have hsub : ∀ e, e ∈ E → e ∈ E ++ [(u, v)] := fun e he => List.mem_append_left _ he
      have hi : joined (E ++ [(u, v)]) i (R i) := joined_mono hsub (hjr i)
      have hj : joined (E ++ [(u, v)]) j (R j) := joined_mono hsub (hjr j)
      have hmid : joined (E ++ [(u, v)]) (R i) (R j) := by
        by_cases hia : R i = a
        · by_cases hja : R j = a
          · rw [hia, hja]; exact joined_refl _ _
          · simp only [hia, hja, if_true, if_false] at h
            rw [hia, ← h]; exact hjoin_ab
        · by_cases hja : R j = a
          · simp only [hia, hja, if_true, if_false] at h
            rw [hja, h]; exact joined_symm hjoin_ab
          · simp only [hia, hja, if_false] at h
            rw [h]; exact joined_refl _ _
      exact joined_trans hi (joined_trans hmid (joined_symm hj))
    · intro h
      refine joined_imp_eq (fun i => if R i = a then b else R i) ?_ h
      intro x y hxy
      rcases List.mem_append.1 hxy with hxy | hxy
      · have := (h6 x y).2 (joined_edge hxy)
        simp only [this]
      · simp only [List.mem_singleton, Prod.mk.injEq] at hxy
        rw [hxy.1, hxy.2]
        rcases huv with ⟨e1, e2⟩ | ⟨e1, e2⟩
        · simp [e1, e2, hab]
        · simp [e1, e2, hab]
  · intro e he
    rcases List.mem_append.1 he with he | he
    · exact h7 e he
    · simp only [List.mem_singleton] at he
      subst he; exact ⟨hu, hv⟩



/-- The two writes of `add_edge` that hang the root `a` under the root `b`. -/
theorem link_writes (tree : List node) (a b : Nat) (na nb : node)
    (hna : tree[a]? = some na) (hnb : tree[b]? = some nb) (hab : a ≠ b)
    (hvb : val_at tree b = b) :
    ((tree.set a { na with parent := nb.val }).set b { nb with sz := nb.sz + na.sz }).length
      = tree.length ∧
    (∀ i, par ((tree.set a { na with parent := nb.val }).set b
        { nb with sz := nb.sz + na.sz }) i = if i = a then b else par tree i) ∧
    (∀ i, size_at ((tree.set a { na with parent := nb.val }).set b
        { nb with sz := nb.sz + na.sz }) i
      = if i = b then size_at tree b + size_at tree a else size_at tree i) ∧
    (∀ i, val_at ((tree.set a { na with parent := nb.val }).set b
        { nb with sz := nb.sz + na.sz }) i = val_at tree i) := by
  have ha : a < tree.length := by
    by_contra hc
    rw [List.getElem?_eq_none (by omega)] at hna
    cases hna
  obtain ⟨p1, s1, v1⟩ := set_parent_spec tree a nb.val na hna
  have hnb1 : (tree.set a { na with parent := nb.val })[b]? = some nb := by
    rw [getElem?_set_node tree a _ b ha]
    simp [Ne.symm hab, hnb]
  obtain ⟨p2, s2, v2⟩ := set_sz_spec (tree.set a { na with parent := nb.val }) b
    (nb.sz + na.sz) nb hnb1
  have hval : nb.val = b := by rw [← val_at_of_getElem? hnb]; exact hvb
  refine ⟨by simp, ?_, ?_, ?_⟩
  · intro i; rw [p2, p1, hval]
  · intro i
    rw [s2, s1, size_at_of_getElem? hnb, size_at_of_getElem? hna]
  · intro i; rw [v2, v1]

/-- Under the invariant `add_edge(u, v)` returns and keeps the invariant for the edges
extended by `(u, v)`. -/
theorem inv_add_edge {g : Graph} {E : List (Nat × Nat)} {R : Nat → Nat}
    (hinv : Inv g.tree g.V E R) {u v : Nat} (hu : u < g.V) (hv : v < g.V) :
    ∃ g1 R1, g.add_edge u v = .value g1 ∧ g1.V = g.V ∧
      Inv g1.tree g.V (E ++ [(u, v)]) R1 := by
  obtain ⟨t1, he1, hc1⟩ := inv_find_parent hinv hu
  have hinv1 : Inv t1 g.V E R := inv_compressed hinv hc1
  have hinv1g : Inv ({ g with tree := t1 } : Graph).tree ({ g with tree := t1 } : Graph).V E R :=
    hinv1
  obtain ⟨t2, he2, hc2⟩ := inv_find_parent hinv1g hv
  have hinv2 : Inv t2 g.V E R := inv_compressed hinv1 hc2
  have hlen2 : t2.length = g.V := hinv2.1
  obtain ⟨du, hdu, -⟩ := hinv2.2.2.2.1 u
  obtain ⟨dv, hdv, -⟩ := hinv2.2.2.2.1 v
  have hpu : par t2 (R u) = R u := reaches_root_self hdu
  have hpv : par t2 (R v) = R v := reaches_root_self hdv
  have hRu : R u < g.V := ((hinv2.2.2.2.1 u).choose_spec.2 hu).1
  have hRv : R v < g.V := ((hinv2.2.2.2.1 v).choose_spec.2 hv).1
  have hg1 : t2[R u]? = some t2[R u] := List.getElem?_eq_getElem (by omega)
  have hg2 : t2[R v]? = some t2[R v] := List.getElem?_eq_getElem (by omega)
  unfold Graph.add_edge
  simp only [he1, he2]
  by_cases hp : R u = R v
  · simp only [hp, if_true]
    exact ⟨_, R, rfl, rfl, inv_same_root hinv2 hu hv hp⟩
  · simp only [hp, if_false, hg1, hg2]
    by_cases hsz : (t2[R u]).sz > (t2[R v]).sz
    · simp only [hsz, if_true]
      obtain ⟨w1, w2, w3, w4⟩ := link_writes t2 (R v) (R u) t2[R v] t2[R u] hg2 hg1
        (Ne.symm hp) (hinv2.2.1 (R u) hRu)
      refine ⟨_, _, rfl, rfl, inv_link hinv2 hRv hRu hpv hpu (Ne.symm hp) hu hv
        (Or.inr ⟨rfl, rfl⟩) (by rw [w1, hlen2]) w2 w3 w4⟩
    · simp only [hsz, if_false]
      obtain ⟨w1, w2, w3, w4⟩ := link_writes t2 (R u) (R v) t2[R u] t2[R v] hg1 hg2
        hp (hinv2.2.1 (R v) hRv)
      refine ⟨_, _, rfl, rfl, inv_link hinv2 hRu hRv hpu hpv hp hu hv
        (Or.inl ⟨rfl, rfl⟩) (by rw [w1, hlen2]) w2 w3 w4⟩

/-- Every sequence of calls with arguments in range returns and keeps the invariant. -/
theorem inv_run : ∀ (calls : List Call) (g : Graph) (E : List (Nat × Nat)) (R : Nat → Nat),
    Inv g.tree g.V E R → (∀ c, c ∈ calls → c.in_range g.V) →
    ∃ g1 R1, g.run calls = .value g1 ∧ g1.V = g.V ∧
      Inv g1.tree g.V (E ++ edges_of calls) R1
  | [], g, E, R, hinv, _ => ⟨g, R, rfl, rfl, by simpa [edges_of] using hinv⟩
  | .add_edge u v :: rest, g, E, R, hinv, hr => by
    have hc := hr (.add_edge u v) (List.mem_cons_self _ _)
    obtain ⟨g1, R1, he, hV, hinv1⟩ := inv_add_edge hinv hc.1 hc.2
    rw [← hV] at hinv1
    obtain ⟨g2, R2, he2, hV2, hinv2⟩ := inv_run rest g1 _ R1 hinv1 (by
      intro c hcm
      rw [hV]
      exact hr c (List.mem_cons_of_mem _ hcm))
    refine ⟨g2, R2, ?_, by rw [hV2, hV], ?_⟩
    · rw [Graph.run, Graph.call]
      simp only [he, he2]
    · rw [hV] at hinv2
      simpa [edges_of, List.append_assoc] using hinv2
  | .find_parent u :: rest, g, E, R, hinv, hr => by
    have hc : u < g.V := hr (.find_parent u) (List.mem_cons_self _ _)
    obtain ⟨t1, he, hcomp⟩ := inv_find_parent hinv hc
    have hinv1 : Inv ({ g with tree := t1 } : Graph).tree ({ g with tree := t1 } : Graph).V E R :=
      inv_compressed hinv hcomp
    obtain ⟨g2, R2, he2, hV2, hinv2⟩ := inv_run rest { g with tree := t1 } E R hinv1 (by
      intro c hcm
      exact hr c (List.mem_cons_of_mem _ hcm))
    refine ⟨g2, R2, ?_, hV2, ?_⟩
    · rw [Graph.run, Graph.call]
      simp only [he, he2]
    · simpa [edges_of] using hinv2

/-- The state reached from a fresh graph of `V` nodes. -/
theorem inv_reachable (V : Nat) (calls : List Call) (hr : ∀ c, c ∈ calls → c.in_range V) :
    ∃ g R, (Graph.init V).run calls = .value g ∧ g.V = V ∧
      Inv g.tree g.V (edges_of calls) R := by
  obtain ⟨g, R, he, hV, hinv⟩ := inv_run calls (Graph.init V) [] (fun i => i) (inv_init V) hr
  refine ⟨g, R, he, hV, ?_⟩
  rw [hV]
  simpa using hinv



/-! ## Claims about the union-find structure -/

/-- C11 (the code departs from the claim): on a fresh `Graph(4)` after `add_edge(0, 1)`,
`add_edge(2, 3)`, `add_edge(0, 2)` all four nodes are joined, but node 0 still has parent 1
while the root is 3, and `get_sets()`, which groups by the field `parent`, returns the two
sets `{0}` and `{1, 2, 3}`. -/
theorem get_sets_groups_by_parent :
    get_sets_after 4 [.add_edge 0 1, .add_edge 2 3, .add_edge 0 2] = .value [[0], [1, 2, 3]] ∧
    joined (edges_of [.add_edge 0 1, .add_edge 2 3, .add_edge 0 2]) 0 1 ∧
    get_sets_after 4 [.add_edge 0 1, .add_edge 2 3, .add_edge 0 2, .find_parent 0]
      = .value [[0, 1, 2, 3]] := by
  refine ⟨by decide, joined_edge (by decide), by decide⟩

/-- C12: in every state reachable from a fresh `Graph(V)` by `add_edge` and `find_parent`
calls with arguments in `[0, V)`, `find_parent(u)` returns a node `r1` that is its own parent
and is the root of `u`, a following `find_parent(v)` returns the root of `v`, the two results
are equal iff `u` and `v` are joined by a path of added edges, and the call changes no node's
representative. -/
theorem find_parent_representative (V : Nat) (calls : List Call) (u v : Nat)
    (hr : ∀ c, c ∈ calls → c.in_range V) (hu : u < V) (hv : v < V) :
    ∃ g r1 g1 r2 g2, (Graph.init V).run calls = .value g ∧
      g.find_parent u = .value (r1, g1) ∧ g1.find_parent v = .value (r2, g2) ∧
      r1 < V ∧ par g1.tree r1 = r1 ∧ r1 = root_of g.tree u ∧ r2 = root_of g.tree v ∧
      (r1 = r2 ↔ joined (edges_of calls) u v) ∧
      (∀ i, root_of g1.tree i = root_of g.tree i) ∧
      (∀ i, root_of g2.tree i = root_of g.tree i) := by
  obtain ⟨g, R, he, hV, hinv⟩ := inv_reachable V calls hr
  obtain ⟨t1, he1, hc1⟩ := inv_find_parent hinv (by rw [hV]; exact hu)
  have hinv1 : Inv ({ g with tree := t1 } : Graph).tree ({ g with tree := t1 } : Graph).V
      (edges_of calls) R := inv_compressed hinv hc1
  obtain ⟨t2, he2, hc2⟩ := inv_find_parent hinv1 (by
    show v < g.V
    rw [hV]; exact hv)
  have hinv2 : Inv t2 g.V (edges_of calls) R := inv_compressed hinv1 hc2
  obtain ⟨d, hd, hb⟩ := hinv1.2.2.2.1 u
  refine ⟨g, R u, { g with tree := t1 }, R v, _, he, he1, he2, ?_, reaches_root_self hd,
    (inv_root_of hinv u).symm, (inv_root_of hinv v).symm, hinv.2.2.2.2.2.1 u v, ?_, ?_⟩
  · have := (hb (by show u < g.V; rw [hV]; exact hu)).1
    rw [← hV]; exact this
  · intro i
    rw [inv_root_of hinv1 i, inv_root_of hinv i]
  · intro i
    rw [inv_root_of hinv2 i, inv_root_of hinv i]

/-- Instance of C12 on a graph of four nodes after three edges. -/
theorem find_parent_representative_witness :
    (∀ c, c ∈ [Call.add_edge 0 1, Call.add_edge 2 3, Call.add_edge 0 2] → c.in_range 4) ∧
    0 < 4 ∧ 3 < 4 ∧
    ∃ g r1 g1 r2 g2,
      (Graph.init 4).run [Call.add_edge 0 1, Call.add_edge 2 3, Call.add_edge 0 2] = .value g ∧
      g.find_parent 0 = .value (r1, g1) ∧ g1.find_parent 3 = .value (r2, g2) ∧
      r1 < 4 ∧ par g1.tree r1 = r1 ∧ r1 = root_of g.tree 0 ∧ r2 = root_of g.tree 3 ∧
      (r1 = r2 ↔
        joined (edges_of [Call.add_edge 0 1, Call.add_edge 2 3, Call.add_edge 0 2]) 0 3) ∧
      (∀ i, root_of g1.tree i = root_of g.tree i) ∧
      (∀ i, root_of g2.tree i = root_of g.tree i) :=
  ⟨by decide, by decide, by decide,
    find_parent_representative 4 [Call.add_edge 0 1, Call.add_edge 2 3, Call.add_edge 0 2] 0 3
      (by decide) (by decide) (by decide)⟩

/-- C18: in every state reachable from a fresh `Graph(V)` by `add_edge` and `find_parent`
calls with arguments in `[0, V)`, every node `i` has `val == i`, the parent pointers form a
forest (following the parents from any node reaches a self-parented root inside the array),
and for every root `r` the field `tree[r].sz` is the number of nodes whose root is `r`. -/
theorem reachable_invariant (V : Nat) (calls : List Call)
    (hr : ∀ c, c ∈ calls → c.in_range V) :
    ∃ g, (Graph.init V).run calls = .value g ∧ g.V = V ∧ g.tree.length = V ∧
      (∀ i, i < V → val_at g.tree i = i) ∧
      (∀ i, i < V → par g.tree i < V ∧ root_of g.tree i < V ∧
        par g.tree (root_of g.tree i) = root_of g.tree i ∧
        ∃ d, Reaches g.tree i (root_of g.tree i) d) ∧
      (∀ r, r < V → par g.tree r = r →
        size_at g.tree r
          = ((List.range V).filter (fun i => decide (root_of g.tree i = r))).length) := by
  obtain ⟨g, R, he, hV, hinv⟩ := inv_reachable V calls hr
  have hroot : ∀ i, root_of g.tree i = R i := inv_root_of hinv
  obtain ⟨h1, h2, h3, h4, h5, -, -⟩ := hinv
  rw [hV] at h1 h2 h3 h4 h5
  refine ⟨g, he, hV, h1, h2, ?_, ?_⟩
  · intro i hi
    obtain ⟨d, hd, hb⟩ := h4 i
    rw [hroot i]
    exact ⟨h3 i hi, (hb hi).1, reaches_root_self hd, d, hd⟩
  · intro r hr hpr
    rw [h5 r hr hpr]
    congr 1
    apply List.filter_congr
    intro i _
    rw [hroot i]

/-- Instance of C18 on a graph of four nodes after three edges and a `find_parent`. -/
theorem reachable_invariant_witness :
    (∀ c, c ∈ [Call.add_edge 0 1, Call.add_edge 2 3, Call.add_edge 0 2, Call.find_parent 0] →
      c.in_range 4) ∧
    ∃ g, (Graph.init 4).run
        [Call.add_edge 0 1, Call.add_edge 2 3, Call.add_edge 0 2, Call.find_parent 0]
        = .value g ∧ g.V = 4 ∧ g.tree.length = 4 ∧
      (∀ i, i < 4 → val_at g.tree i = i) ∧
      (∀ i, i < 4 → par g.tree i < 4 ∧ root_of g.tree i < 4 ∧
        par g.tree (root_of g.tree i) = root_of g.tree i ∧
        ∃ d, Reaches g.tree i (root_of g.tree i) d) ∧
      (∀ r, r < 4 → par g.tree r = r →
        size_at g.tree r
          = ((List.range 4).filter (fun i => decide (root_of g.tree i = r))).length) :=
  ⟨by decide,
    reachable_invariant 4
      [Call.add_edge 0 1, Call.add_edge 2 3, Call.add_edge 0 2, Call.find_parent 0]
      (by decide)⟩


end UnionSets
